import Mathlib

set_option linter.unusedSectionVars false

/-!
OpenMOC `src/Universe.cpp`: universes, lattices and point location.

A shallow embedding of the `Universe` and `Lattice` classes of `src/Universe.cpp`.

* Coordinates (`double` in the source) range over an arbitrary linearly ordered field `K`
  with a floor function.  Taking `K := ℚ` makes every definition executable, taking
  `K := ℝ` gives the idealised real-number reading.
* The definitions named after the methods of the source take the arithmetic of `double` as
  exact.  For the index computation, the bounds test and the cell edges of a Lattice there
  is a second definition each, with the suffix `_fl`, in which every arithmetic operation
  is followed by a rounding function `fl`; `round64` is the rounding of IEEE binary64.
* C++ `int` values are unbounded integers (`Int`), except for the static counters `auto_id`
  and `_n`, whose increments are reduced to 32 bits.
* Code that can fail returns `Except Error _`.
* Recursion through the universe table is bounded by an explicit `fuel` argument.
-/

namespace OpenMOC

/-- Modelled from the spec: `log_printf` (declared in `log.h`, which is not part of the
sources) at level `ERROR` is a hard failure that ends the running call (the spec speaks of
"an out-of-bounds error" for the lattice indices and of "a hard error" for cloning); the
other levels only write a message.  The type lists the ways in which the embedded code can
fail: the `log_printf(ERROR, ...)` sites of `Universe.cpp` and the failures of the C++
containers and pointers. -/
inductive Error where
  /-- `log_printf(ERROR, ...)` of `Lattice::getLatX` / `Lattice::getLatY`:
  "Trying to get lattice x index for point that is outside lattice bounds." -/
  | latticeBounds
  /-- `log_printf(ERROR, ...)` of `Lattice::getUniverse`: "Index out of bounds". -/
  | universeIndex
  /-- `log_printf(ERROR, ...)` of `Universe::getCell` and its typed variants. -/
  | cellNotFound
  /-- `log_printf(ERROR, ...)` of `Universe::clone` on a FILL type Cell. -/
  | cloneFillCell
  /-- `std::out_of_range` thrown by `std::map::at` or `std::vector::at`. -/
  | outOfRange
  /-- Dereference of a `NULL` Universe pointer (an unbound Lattice cell). -/
  | nullPointer
  /-- The call `static_cast<Lattice*>(univ)->findCell` on an object that is not a Lattice. -/
  | badCast
  /-- The recursion bound of the embedding was exhausted. -/
  | outOfFuel
  deriving DecidableEq, Repr

/-- The enum `universeType`. -/
inductive universeType where
  | SIMPLE
  | LATTICE
  deriving DecidableEq, Repr

/-- The enum `cellType`. -/
inductive cellType where
  | MATERIAL
  | FILL
  deriving DecidableEq, Repr

/-- The enum `coordType`. -/
inductive coordType where
  | UNIV
  | LAT
  deriving DecidableEq, Repr

/-- Modelled from the spec: the class `Point` (declared in `Point.h`, which is not part of
the sources): a 2-D point with `getX()` and `getY()`. -/
structure Point (K : Type) where
  x : K
  y : K

/-- Modelled from the spec: the class `Cell` with its subclasses `CellBasic` and `CellFill`
(declared in `Cell.h`, which is not part of the sources).  A region is either
Material-filled (`MATERIAL`, carries a material id and ring/sector subdivision parameters) or
Universe-filled (`FILL`, carries the id of the universe that fills it); it exposes the
external containment test `cellContainsCoords`, which looks at the point of the cursor link. -/
structure Cell (K : Type) where
  id : Int
  type : cellType
  material : Int
  universe_fill : Int
  num_rings : Int
  num_sectors : Int
  cellContainsCoords : Point K → Bool

/-- Modelled from the spec: one link of the class `LocalCoords` (declared in `LocalCoords.h`,
which is not part of the sources): a 2-D point, the enclosing universe id, the enclosing
region id, a level-type tag and, at lattice levels, the lattice id and grid indices.  A
field that has never been set is `none`.  The chain of `_next` pointers is a `List` of
links, the `_prev` pointers are implicit in it. -/
structure LocalCoords (K : Type) where
  point : Point K
  type : Option coordType
  universe_id : Option Int
  cell : Option Int
  lattice : Option Int
  lattice_x : Option Int
  lattice_y : Option Int

/-- Modelled from the spec: the constructor `LocalCoords(x, y)`: a link at the point
`(x, y)` with no other field set and no next link. -/
def LocalCoords.new {K : Type} (x y : K) : LocalCoords K :=
  { point := { x := x, y := y }, type := none, universe_id := none, cell := none,
    lattice := none, lattice_x := none, lattice_y := none }

/-- The class `Universe`: `_uid`, `_id`, `_type`, `_fissionable` and the registry
`_cells` (a `std::map<int, Cell*>`), kept as the list of its entries in iteration order,
that is in ascending key order. -/
structure Universe (K : Type) where
  uid : Int
  id : Int
  type : universeType
  cells : List (Int × Cell K)
  fissionable : Bool

/-- A `Universe*` stored in a Lattice cell.  The pointee is identified by its `_uid`;
`id` is what `->getId()` yields through the pointer. -/
structure UniversePtr where
  uid : Int
  id : Int
  deriving DecidableEq, Repr

/-- The class `Lattice` (a `Universe`): cell widths, cell counts, the centre offset and the
grid `_universes` of (declared universe id, universe pointer) pairs, row 0 at the bottom;
a `NULL` pointer is `none`. -/
structure Lattice (K : Type) extends Universe K where
  width_x : K
  width_y : K
  num_x : Int
  num_y : Int
  offset : Point K
  universes : List (List (Int × Option UniversePtr))

/-- What a `Universe*` of the universe table points to: a plain Universe or a Lattice. -/
inductive UniverseObj (K : Type) where
  | base (u : Universe K)
  | lattice (l : Lattice K)

/-- The result of `findCell`: the returned `Cell*` (`none` for `NULL`) and the cursor
chain from the link the call was made on. -/
abbrev FindResult (K : Type) := Except Error (Option (Cell K) × List (LocalCoords K))

/-- The access `v.at(i)` of a `std::vector` with an `int` index: `std::out_of_range` unless
`0 ≤ i < v.size()`. -/
def vectorAt {α : Type} (v : List α) (i : Int) : Except Error α :=
  if i < 0 then .error .outOfRange
  else
    match v.get? i.toNat with
    | some a => .ok a
    | none => .error .outOfRange

section Geometry

variable {K : Type} [LinearOrderedField K] [FloorRing K]

/-- `Lattice::getLatX`, on the x coordinate of the point.  `thresh` is the constant
`ON_SURFACE_THRESH`, whose definition is not part of the sources.  The arithmetic is exact
here; `Lattice.getLatX_fl` is the same method with the rounding of `double` made
explicit. -/
def Lattice.getLatX (thresh : K) (l : Lattice K) (point : Point K) : Except Error Int :=
  let lat_x : Int := ⌊(point.x + l.width_x * l.num_x / 2 - l.offset.x) / l.width_x⌋
  let dist_to_left : K := point.x + l.num_x * l.width_x / 2 - l.offset.x
  if |dist_to_left| < thresh then .ok 0
  else if |dist_to_left - l.num_x * l.width_x| < thresh then .ok (l.num_x - 1)
  else if lat_x < 0 ∨ lat_x > l.num_x - 1 then .error .latticeBounds
  else .ok lat_x

/-- `Lattice::getLatY`, on the y coordinate of the point.  The arithmetic is exact here;
`Lattice.getLatY_fl` is the same method with the rounding of `double` made explicit. -/
def Lattice.getLatY (thresh : K) (l : Lattice K) (point : Point K) : Except Error Int :=
  let lat_y : Int := ⌊(point.y + l.width_y * l.num_y / 2 - l.offset.y) / l.width_y⌋
  let dist_to_bottom : K := point.y + l.width_y * l.num_y / 2 - l.offset.y
  if |dist_to_bottom| < thresh then .ok 0
  else if |dist_to_bottom - l.num_y * l.width_y| < thresh then .ok (l.num_y - 1)
  else if lat_y < 0 ∨ lat_y > l.num_y - 1 then .error .latticeBounds
  else .ok lat_y

/-- `Lattice::withinBounds`. -/
def Lattice.withinBounds (l : Lattice K) (point : Point K) : Bool :=
  let bound_x_max : K := l.offset.x + l.num_x / 2 * l.width_x
  let bound_x_min : K := l.offset.x - l.num_x / 2 * l.width_x
  let bound_y_max : K := l.offset.y + l.num_y / 2 * l.width_y
  let bound_y_min : K := l.offset.y - l.num_y / 2 * l.width_y
  if point.x > bound_x_max ∨ point.x < bound_x_min then false
  else if point.y > bound_y_max ∨ point.y < bound_y_min then false
  else true

/-- `Lattice::getLatticeCell`. -/
def Lattice.getLatticeCell (thresh : K) (l : Lattice K) (point : Point K) :
    Except Error Int := do
  let lat_y ← l.getLatY thresh point
  let lat_x ← l.getLatX thresh point
  pure (lat_y * l.num_x + lat_x)

/-- `Lattice::getUniverse`: the pointer stored at column `lattice_x` of row `lattice_y`. -/
def Lattice.getUniverse (l : Lattice K) (lattice_x lattice_y : Int) :
    Except Error (Option UniversePtr) :=
  if lattice_x > l.num_x ∨ lattice_y > l.num_y then .error .universeIndex
  else do
    let row ← vectorAt l.universes lattice_y
    let entry ← vectorAt row lattice_x
    pure entry.2

/-- The scan `for (iter = _cells.begin(); iter != _cells.end(); ++iter)` of
`Universe::findCell` up to the first Cell with `cell->cellContainsCoords(coords)`; the
loop body returns from `findCell` for such a Cell, whichever of the two cell types it has. -/
def Universe.firstContaining : List (Int × Cell K) → Point K → Option (Cell K)
  | [], _ => none
  | entry :: rest, point =>
    if entry.2.cellContainsCoords point then some entry.2
    else Universe.firstContaining rest point

/-- The link `next_coords` of both `findCell` methods: `coords->getNext()` when there is
one, and otherwise a new link `LocalCoords(x, y)`. -/
def nextCoords (next : List (LocalCoords K)) (x y : K) : LocalCoords K :=
  match next with
  | [] => LocalCoords.new x y
  | n :: _ => n

mutual

/-- `Universe::findCell` on the link `coords` whose `_next` chain is `next`.  The table
`universes` is the `std::map<int, Universe*>` passed in by the Geometry; `fuel` bounds the
number of further levels the search may descend.  For the filling universe `univ` the
source calls `univ->findCell` when `univ->getType() == SIMPLE` and
`static_cast<Lattice*>(univ)->findCell` otherwise: a Lattice object is searched by
`Lattice::findCell` on both paths (the spec has the Lattice override point location), a
plain Universe by `Universe::findCell` on the first path, and the cast of a plain Universe
on the second path is the failure `badCast`. -/
def Universe.findCell (thresh : K) (universes : Int → Option (UniverseObj K)) :
    Nat → Universe K → LocalCoords K → List (LocalCoords K) → FindResult K
  | fuel, u, coords, next =>
    let coords := { coords with type := some coordType.UNIV }
    match Universe.firstContaining u.cells coords.point with
    | none => .ok (none, coords :: next)
    | some cell =>
      let coords := { coords with cell := some cell.id }
      match cell.type with
      | .MATERIAL => .ok (some cell, coords :: next)
      | .FILL =>
        let next_coords := nextCoords next coords.point.x coords.point.y
        let universe_id := cell.universe_fill
        let next_coords := { next_coords with universe_id := some universe_id }
        match universes universe_id with
        | none => .error .outOfRange
        | some univ =>
          match fuel with
          | 0 => .error .outOfFuel
          | fuel + 1 =>
            match univ with
            | .base v =>
              if v.type = universeType.SIMPLE then
                (Universe.findCell thresh universes fuel v next_coords next.tail).map
                  (fun r => (r.1, coords :: r.2))
              else .error .badCast
            | .lattice l =>
              (Lattice.findCell thresh universes fuel l next_coords next.tail).map
                (fun r => (r.1, coords :: r.2))

/-- `Lattice::findCell` on the link `coords` whose `_next` chain is `next`.  The final call
`univ->findCell(next_coords, universes)` reaches `Universe::findCell` for a plain Universe
and the override `Lattice::findCell` for a Lattice. -/
def Lattice.findCell (thresh : K) (universes : Int → Option (UniverseObj K)) :
    Nat → Lattice K → LocalCoords K → List (LocalCoords K) → FindResult K
  | fuel, l, coords, next =>
    let coords := { coords with type := some coordType.LAT }
    match l.getLatX thresh coords.point, l.getLatY thresh coords.point with
    | .error e, _ => .error e
    | .ok _, .error e => .error e
    | .ok lat_x, .ok lat_y =>
      if lat_x < 0 ∨ lat_x ≥ l.num_x ∨ lat_y < 0 ∨ lat_y ≥ l.num_y then
        .ok (none, coords :: next)
      else
        let nextX : K := coords.point.x
          - (-l.width_x * l.num_x / 2 + l.offset.x + (lat_x + 1 / 2) * l.width_x)
          + l.offset.x
        let nextY : K := coords.point.y
          - (-l.width_y * l.num_y / 2 + l.offset.y + (lat_y + 1 / 2) * l.width_y)
          + l.offset.y
        let next_coords := nextCoords next nextX nextY
        match l.getUniverse lat_x lat_y with
        | .error e => .error e
        | .ok none => .error .nullPointer
        | .ok (some ptr) =>
          let universe_id := ptr.id
          match universes universe_id with
          | none => .error .outOfRange
          | some univ =>
            let next_coords := { next_coords with universe_id := some universe_id }
            let coords := { coords with
              lattice := some l.id, lattice_x := some lat_x, lattice_y := some lat_y }
            match fuel with
            | 0 => .error .outOfFuel
            | fuel + 1 =>
              match univ with
              | .base v =>
                (Universe.findCell thresh universes fuel v next_coords next.tail).map
                  (fun r => (r.1, coords :: r.2))
              | .lattice m =>
                (Lattice.findCell thresh universes fuel m next_coords next.tail).map
                  (fun r => (r.1, coords :: r.2))

end

/-- Modelled from the spec: the call `univ->findCell(next_coords, universes)` through a
`Universe*`.  The class declarations (`Universe.h`) are not part of the sources; the spec
has the Lattice override point location, so the call reaches `Universe::findCell` for a
plain Universe and `Lattice::findCell` for a Lattice, as spelled out in the two methods
above. -/
def UniverseObj.findCell (thresh : K) (universes : Int → Option (UniverseObj K))
    (fuel : Nat) : UniverseObj K → LocalCoords K → List (LocalCoords K) → FindResult K
  | .base v, coords, next => Universe.findCell thresh universes fuel v coords next
  | .lattice m, coords, next => Lattice.findCell thresh universes fuel m coords next

/-- The x coordinate `nextX` that `Lattice::findCell` computes for the link of the next
level when the point of `coords` has lattice index `lat_x`. -/
def Lattice.nextX (l : Lattice K) (point : Point K) (lat_x : Int) : K :=
  point.x - (-l.width_x * l.num_x / 2 + l.offset.x + (lat_x + 1 / 2) * l.width_x)
    + l.offset.x

/-- The y coordinate `nextY` that `Lattice::findCell` computes for the link of the next
level when the point of `coords` has lattice index `lat_y`. -/
def Lattice.nextY (l : Lattice K) (point : Point K) (lat_y : Int) : K :=
  point.y - (-l.width_y * l.num_y / 2 + l.offset.y + (lat_y + 1 / 2) * l.width_y)
    + l.offset.y

/-- The nesting discipline of one universe of an acyclic table, with `rank` a height
function on universe ids: every universe referenced by the object (by a Universe-filled
region of a plain Universe, by an in-range cell of a Lattice) is present in the table and
has rank below `bound`; a Lattice cell in range is bound; and a plain Universe that fills a
region carries the type tag SIMPLE, the tag its constructor gives it. -/
def UniverseObj.nestedBelow (universes : Int → Option (UniverseObj K)) (rank : Int → Nat)
    (bound : Nat) : UniverseObj K → Prop
  | .base u => ∀ e ∈ u.cells, e.2.type = cellType.FILL →
      ∃ o, universes e.2.universe_fill = some o ∧ rank e.2.universe_fill < bound ∧
        ∀ v, o = UniverseObj.base v → v.type = universeType.SIMPLE
  | .lattice l => ∀ i j : Int, 0 ≤ i → i < l.num_x → 0 ≤ j → j < l.num_y →
      ∃ ptr o, l.getUniverse i j = .ok (some ptr) ∧ universes ptr.id = some o ∧
        rank ptr.id < bound

/-- A universe table whose containment graph is acyclic, every referenced universe id
being present and every Lattice cell in range bound: each universe of the table nests only
universes of smaller rank. -/
def AcyclicTable (universes : Int → Option (UniverseObj K)) (rank : Int → Nat) : Prop :=
  ∀ id o, universes id = some o → UniverseObj.nestedBelow universes rank (rank id) o

/-- The outcomes of a `findCell` call started on a link whose `_next` chain is `next` that
are not a partial success: the outside-lattice-bounds error, the null result, or a
Material-filled region; in the last case, when the call started on a link without next
link, the containment test of the region accepts the point of the last link of the
chain. -/
def FindResult.Settled (next : List (LocalCoords K)) (res : FindResult K) : Prop :=
  res = .error .latticeBounds ∨
  ∃ r ch, res = .ok (r, ch) ∧
    (r = none ∨ ∃ c, r = some c ∧ c.type = cellType.MATERIAL ∧
      (next = [] → ∃ last, ch.getLast? = some last ∧ c.cellContainsCoords last.point = true))

/-- The lookup `m.find(k)` of a `std::map<int, V>` kept as the list of its entries: the
value stored under the key `k`, `none` for `m.end()`. -/
def mapFind {α : Type} : List (Int × α) → Int → Option α
  | [], _ => none
  | entry :: rest, k => if k = entry.1 then some entry.2 else mapFind rest k

/-- The call `m.insert(std::pair<int, V>(k, v))` of a `std::map<int, V>` kept as the list of
its entries in ascending key order: the pair goes to its place in the key order, and an
entry already stored under the key `k` stays as it is (`std::map::insert` does not
overwrite). -/
def mapInsert {α : Type} (k : Int) (v : α) : List (Int × α) → List (Int × α)
  | [] => [(k, v)]
  | entry :: rest =>
    if k < entry.1 then (k, v) :: entry :: rest
    else if k = entry.1 then entry :: rest
    else entry :: mapInsert k v rest

/-- The call `m.erase(iter)` of a `std::map<int, V>` for the iterator at the entry with key
`k`: that entry is removed. -/
def mapErase {α : Type} (k : Int) : List (Int × α) → List (Int × α)
  | [] => []
  | entry :: rest => if k = entry.1 then rest else entry :: mapErase k rest

/-- `Universe::getNumCells`. -/
def Universe.getNumCells (u : Universe K) : Int :=
  u.cells.length

/-- `Universe::addCell`: the insertion into `_cells` under `cell->getId()`.  The call
`std::map::insert` throws nothing that the `catch` would turn into an error, and the
`log_printf(INFO, ...)` only writes a message. -/
def Universe.addCell (u : Universe K) (cell : Cell K) : Universe K :=
  { u with cells := mapInsert cell.id cell u.cells }

/-- `Universe::getCell`: the `log_printf(ERROR, ...)` when `_cells.find(cell_id)` is
`_cells.end()`, and `_cells.at(cell_id)` otherwise.  The body writes to no member, so
the Universe itself is not part of the result. -/
def Universe.getCell (u : Universe K) (cell_id : Int) : Except Error (Cell K) :=
  match mapFind u.cells cell_id with
  | none => .error .cellNotFound
  | some cell => .ok cell

/-- `Universe::minSurfaceDist`.  The distance `Cell::minSurfaceDist(point, angle, ...)` of a
region is external and passed in as `cellMinSurfaceDist`; a distance is a value of `K` or
`INFINITY` (`⊤`). -/
def Universe.minSurfaceDist (cellMinSurfaceDist : Cell K → Point K → K → WithTop K)
    (u : Universe K) (point : Point K) (angle : K) : WithTop K :=
  u.cells.foldl
    (fun min_dist entry => min (cellMinSurfaceDist entry.2 point angle) min_dist) ⊤

/-- The scan `for (iter1 = _cells.begin(); iter1 != _cells.end(); ++iter1)` of
`Universe::subdivideCells` up to the first MATERIAL type Cell with
`getNumRings() > 0 || getNumSectors() > 0`, at which the loop is left by `break`. -/
def Universe.firstPending : List (Int × Cell K) → Option (Int × Cell K)
  | [] => none
  | entry :: rest =>
    if entry.2.type = cellType.MATERIAL ∧ (entry.2.num_rings > 0 ∨ entry.2.num_sectors > 0)
    then some entry
    else Universe.firstPending rest

/-- `Universe::subdivideCells`.  The subdivision `CellBasic::subdivideCell` of a region is
external and passed in as `subdivideCell`; `fuel` bounds the number of passes of the
`while` loop.  The first test of the `while` condition compares the default-constructed
iterator `iter1` with `_cells.end()`; the two differ for the node iterators of the standard
library, so the first pass is always made.  A pass that finds a pending Cell adds the new
Cells with `addCell`, erases the entry of the pending Cell and starts the next pass; a
pass that finds none ends the method. -/
def Universe.subdivideCells (subdivideCell : Cell K → List (Cell K)) :
    Nat → Universe K → Except Error (Universe K)
  | 0, _ => .error .outOfFuel
  | fuel + 1, u =>
    match Universe.firstPending u.cells with
    | none => .ok u
    | some entry =>
      let newcells := subdivideCell entry.2
      let v := newcells.foldl (fun w cell => w.addCell cell) u
      Universe.subdivideCells subdivideCell fuel { v with cells := mapErase entry.1 v.cells }

/-- The constructor `Lattice(id, width_x, width_y)`: a Lattice with no cells along either
axis, an empty grid and the offset `(0, 0)`; `uid` is the value of the static counter
`_n` when the constructor runs. -/
def Lattice.new (uid id : Int) (width_x width_y : K) : Lattice K :=
  { uid := uid, id := id, type := universeType.LATTICE, cells := [], fissionable := false,
    width_x := width_x, width_y := width_y, num_x := 0, num_y := 0,
    offset := { x := 0, y := 0 }, universes := [] }

/-- `Lattice::getNumX`. -/
def Lattice.getNumX (l : Lattice K) : Int :=
  l.num_x

/-- `Lattice::getNumY`. -/
def Lattice.getNumY (l : Lattice K) : Int :=
  l.num_y

/-- `Lattice::setLatticeCells`.  The array `int* universes` is a function from indices to
ids.  The first loop calls `_universes.at(i)` for every `i < _num_x` (the old count) and
fails with `std::out_of_range` when the grid has no row `i`; the double loop then builds
`_num_y` rows of `_num_x` entries, row 0 from the last row of the input, every entry with
the `NULL` pointer. -/
def Lattice.setLatticeCells (l : Lattice K) (num_x num_y : Int) (universes : Int → Int) :
    Except Error (Lattice K) := do
  let _ ← (List.range l.num_x.toNat).mapM (fun (i : Nat) => vectorAt l.universes (i : Int))
  pure { l with
    num_x := num_x,
    num_y := num_y,
    universes := (List.range num_y.toNat).map (fun (i : Nat) =>
      (List.range num_x.toNat).map (fun (j : Nat) =>
        (universes ((num_y - 1 - (i : Int)) * num_x + (j : Int)), none))) }

/-- The inner loop `for (int j = 0; j < _num_x; j++)` of `Lattice::setUniversePointer` on one
row of the grid: each of the first `num_x` entries whose declared id is the id of
`univ` gets the pointer `univ`; `std::out_of_range` from `.at(j)` when the row is
shorter than `num_x`. -/
def Lattice.setRowPointer (univ : UniversePtr) :
    Nat → List (Int × Option UniversePtr) → Except Error (List (Int × Option UniversePtr))
  | 0, row => .ok row
  | _ + 1, [] => .error .outOfRange
  | n + 1, entry :: rest =>
    (Lattice.setRowPointer univ n rest).map
      (fun r => (if entry.1 = univ.id then (entry.1, some univ) else entry) :: r)

/-- The outer loop `for (int i = 0; i < _num_y; i++)` of `Lattice::setUniversePointer` on the
rows of the grid; a missing row raises `std::out_of_range` from `.at(i)` as soon as the
inner loop has a first pass, that is unless `num_x` is 0. -/
def Lattice.setRowsPointer (univ : UniversePtr) (num_x : Nat) :
    Nat → List (List (Int × Option UniversePtr)) →
      Except Error (List (List (Int × Option UniversePtr)))
  | 0, rows => .ok rows
  | _ + 1, [] => if num_x = 0 then .ok [] else .error .outOfRange
  | n + 1, row :: rest => do
    let r ← Lattice.setRowPointer univ num_x row
    let rs ← Lattice.setRowsPointer univ num_x n rest
    pure (r :: rs)

/-- `Lattice::setUniversePointer`; the `log_printf` calls at the end are at the levels
WARNING and INFO and only write a message. -/
def Lattice.setUniversePointer (l : Lattice K) (univ : UniversePtr) :
    Except Error (Lattice K) := do
  let rows ← Lattice.setRowsPointer univ l.num_x.toNat l.num_y.toNat l.universes
  pure { l with universes := rows }

/-- The inner loop of `Lattice::getNestedUniverseIds` on one row of the grid: the ids
`_universes[i][j].second->getId()` of the first `num_x` entries; an entry outside the row
and a `NULL` pointer are failures. -/
def Lattice.rowUniverseIds :
    Nat → List (Int × Option UniversePtr) → Except Error (List Int)
  | 0, _ => .ok []
  | _ + 1, [] => .error .outOfRange
  | n + 1, entry :: rest =>
    match entry.2 with
    | none => .error .nullPointer
    | some ptr => (Lattice.rowUniverseIds n rest).map (fun r => ptr.id :: r)

/-- The outer loop of `Lattice::getNestedUniverseIds` on the rows of the grid. -/
def Lattice.rowsUniverseIds (num_x : Nat) :
    Nat → List (List (Int × Option UniversePtr)) → Except Error (List Int)
  | 0, _ => .ok []
  | _ + 1, [] => if num_x = 0 then .ok [] else .error .outOfRange
  | n + 1, row :: rest => do
    let r ← Lattice.rowUniverseIds num_x row
    let rs ← Lattice.rowsUniverseIds num_x n rest
    pure (r ++ rs)

/-- `Lattice::getNestedUniverseIds`. -/
def Lattice.getNestedUniverseIds (l : Lattice K) : Except Error (List Int) :=
  Lattice.rowsUniverseIds l.num_x.toNat l.num_y.toNat l.universes

/-- `Lattice::minSurfaceDist`.  The constant `M_PI` and the functions `tan` and
`pow(., 0.5)` of the C library are passed in as `pi`, `tan` and `sqrt`; `pow(., 2)` is
the square. -/
def Lattice.minSurfaceDist (thresh pi : K) (tan sqrt : K → K) (l : Lattice K)
    (point : Point K) (angle : K) : Except Error K := do
  let lat_x ← l.getLatX thresh point
  let lat_y ← l.getLatY thresh point
  let next_x : K :=
    if angle < pi / 2 then (lat_x + 1) * l.width_x - l.width_x * l.num_x / 2 + l.offset.x
    else lat_x * l.width_x - l.width_x * l.num_x / 2 + l.offset.x
  let next_y : K := point.y + tan angle * (next_x - point.x)
  let dist_x : K := |next_x - point.x|
  let dist_y : K := |next_y - point.y|
  let dist_row : K := sqrt (dist_x ^ 2 + dist_y ^ 2)
  let next_y : K := (lat_y + 1) * l.width_y - l.width_y * l.num_y / 2 + l.offset.y
  let next_x : K := point.x + (next_y - point.y) / tan angle
  let dist_x : K := |next_x - point.x|
  let dist_y : K := |next_y - point.y|
  let dist_col : K := sqrt (dist_x ^ 2 + dist_y ^ 2)
  pure (min dist_row dist_col)

/-- The calls `lattice->setUniversePointer(universe)` for the universes of a list, one
after the other, as they are made when the universes of a geometry are bound to a
Lattice. -/
def Lattice.setUniversePointers (l : Lattice K) :
    List UniversePtr → Except Error (Lattice K)
  | [] => .ok l
  | univ :: rest =>
    match l.setUniversePointer univ with
    | .error e => .error e
    | .ok m => Lattice.setUniversePointers m rest

/-- A C++ `int` after an arithmetic step: the value reduced to the 32-bit two's complement
range.  Only the static counters `auto_id` and `_n` are reduced in this way. -/
def int32 (z : Int) : Int :=
  (z + 2147483648) % 4294967296 - 2147483648

/-- The initial value of the static `auto_id`. -/
def auto_id_init : Int := 10000

/-- The function `universe_id`, on the static `auto_id`: the id returned and the value of
`auto_id` after the call. -/
def universe_id (auto_id : Int) : Int × Int :=
  (auto_id, int32 (auto_id + 1))

/-- The ids returned by a number of calls of `universe_id` one after the other, first call
first, and the value of `auto_id` after them. -/
def universe_id_calls : Nat → Int → List Int × Int
  | 0, auto_id => ([], auto_id)
  | k + 1, auto_id =>
    let first := universe_id auto_id
    let others := universe_id_calls k first.2
    (first.1 :: others.1, others.2)

/-- The constructor `Universe(id)`: a SIMPLE Universe with no Cell; `uid` is the value of
the static counter `_n` when the constructor runs. -/
def Universe.new (uid id : Int) : Universe K :=
  { uid := uid, id := id, type := universeType.SIMPLE, cells := [], fissionable := false }

/-- `Universe::getMaterialIds`: the Material ids of the MATERIAL type Cells, in the
iteration order of `_cells`. -/
def Universe.getMaterialIds (u : Universe K) : List Int :=
  u.cells.filterMap
    (fun entry => if entry.2.type = cellType.MATERIAL then some entry.2.material else none)

/-- The loop of `Universe::clone` over the Cells of the cloned Universe, `clone` being the
Universe built so far.  The copy `CellBasic::clone` of a region is external and passed in
as `cloneCell`; the call `cell_clone->setUniverse(clone->getId())` sets a member of the
region that the embedding of `Cell` does not carry.  A Cell that is not of MATERIAL type
reaches the `log_printf(ERROR, ...)`. -/
def Universe.cloneCells (cloneCell : Cell K → Cell K) :
    List (Int × Cell K) → Universe K → Except Error (Universe K)
  | [], clone => .ok clone
  | entry :: rest, clone =>
    if entry.2.type = cellType.MATERIAL then
      Universe.cloneCells cloneCell rest (clone.addCell (cloneCell entry.2))
    else .error .cloneFillCell

/-- `Universe::clone`, on the static counters `_n` and `auto_id`: the clone and the values
of the two counters after the call.  The body writes to no member of the cloned Universe,
which is therefore not part of the result. -/
def Universe.clone (cloneCell : Cell K → Cell K) (n auto_id : Int) (u : Universe K) :
    Except Error (Universe K × Int × Int) :=
  let id := universe_id auto_id
  let clone : Universe K := Universe.new n id.1
  match Universe.cloneCells cloneCell u.cells clone with
  | .error e => .error e
  | .ok c => .ok (c, int32 (n + 1), id.2)

/-- The test of `Universe::subdivideCells` on a Cell: it is of MATERIAL type and has
`getNumRings() > 0 || getNumSectors() > 0`. -/
def Cell.pending (c : Cell K) : Bool :=
  decide (c.type = cellType.MATERIAL ∧ (c.num_rings > 0 ∨ c.num_sectors > 0))

/-- The number of Cells of the registry that pass the test of `Universe::subdivideCells`;
the `while` loop makes one pass for each of them and a last pass that finds none. -/
def Universe.numPending (u : Universe K) : Nat :=
  u.cells.countP (fun e => e.2.pending)

/-- `Lattice::getLatX` with the rounding of `double` arithmetic made explicit: `fl` maps the
exact result of an arithmetic operation to the `double` the operation returns, and every
`+`, `-`, `*`, `/` of the source is followed by it, in the order in which the source
evaluates them.  The conversion of the `int` count to `double`, `fabs`, `floor` and the
comparisons are exact.  With `fl` the identity this is `Lattice.getLatX`. -/
def Lattice.getLatX_fl (fl : K → K) (thresh : K) (l : Lattice K) (point : Point K) :
    Except Error Int :=
  let lat_x : Int :=
    ⌊fl (fl (fl (point.x + fl (fl (l.width_x * l.num_x) / 2)) - l.offset.x) / l.width_x)⌋
  let dist_to_left : K := fl (fl (point.x + fl (fl (l.num_x * l.width_x) / 2)) - l.offset.x)
  if |dist_to_left| < thresh then .ok 0
  else if |fl (dist_to_left - fl (l.num_x * l.width_x))| < thresh then .ok (l.num_x - 1)
  else if lat_x < 0 ∨ lat_x > l.num_x - 1 then .error .latticeBounds
  else .ok lat_x

/-- `Lattice::getLatY` with the rounding of `double` arithmetic made explicit, as in
`Lattice.getLatX_fl`. -/
def Lattice.getLatY_fl (fl : K → K) (thresh : K) (l : Lattice K) (point : Point K) :
    Except Error Int :=
  let lat_y : Int :=
    ⌊fl (fl (fl (point.y + fl (fl (l.width_y * l.num_y) / 2)) - l.offset.y) / l.width_y)⌋
  let dist_to_bottom : K :=
    fl (fl (point.y + fl (fl (l.width_y * l.num_y) / 2)) - l.offset.y)
  if |dist_to_bottom| < thresh then .ok 0
  else if |fl (dist_to_bottom - fl (l.num_y * l.width_y))| < thresh then .ok (l.num_y - 1)
  else if lat_y < 0 ∨ lat_y > l.num_y - 1 then .error .latticeBounds
  else .ok lat_y

/-- `Lattice::withinBounds` with the rounding of `double` arithmetic made explicit, as in
`Lattice.getLatX_fl`. -/
def Lattice.withinBounds_fl (fl : K → K) (l : Lattice K) (point : Point K) : Bool :=
  let bound_x_max : K := fl (l.offset.x + fl (fl (l.num_x / 2) * l.width_x))
  let bound_x_min : K := fl (l.offset.x - fl (fl (l.num_x / 2) * l.width_x))
  let bound_y_max : K := fl (l.offset.y + fl (fl (l.num_y / 2) * l.width_y))
  let bound_y_min : K := fl (l.offset.y - fl (fl (l.num_y / 2) * l.width_y))
  if point.x > bound_x_max ∨ point.x < bound_x_min then false
  else if point.y > bound_y_max ∨ point.y < bound_y_min then false
  else true

/-- `Lattice::getLatticeCell` over `Lattice.getLatX_fl` and `Lattice.getLatY_fl`; the
arithmetic on the indices is that of `int`. -/
def Lattice.getLatticeCell_fl (fl : K → K) (thresh : K) (l : Lattice K) (point : Point K) :
    Except Error Int := do
  let lat_y ← l.getLatY_fl fl thresh point
  let lat_x ← l.getLatX_fl fl thresh point
  pure (lat_y * l.num_x + lat_x)

/-- The local `left` of `Lattice::getLatticeSurface` with the rounding of `double`
arithmetic made explicit. -/
def Lattice.cellLeft_fl (fl : K → K) (l : Lattice K) (cell : Int) : K :=
  let lat_x : Int := Int.tmod cell l.num_x
  fl (fl (fl (lat_x * l.width_x) - fl (fl (l.width_x * l.num_x) / 2)) + l.offset.x)

/-- The local `right` of `Lattice::getLatticeSurface` with the rounding of `double`
arithmetic made explicit; `lat_x + 1` is an addition of `int`. -/
def Lattice.cellRight_fl (fl : K → K) (l : Lattice K) (cell : Int) : K :=
  let lat_x : Int := Int.tmod cell l.num_x
  fl (fl (fl (((lat_x + 1 : Int) : K) * l.width_x) - fl (fl (l.width_x * l.num_x) / 2))
    + l.offset.x)

/-- The local `bottom` of `Lattice::getLatticeSurface` with the rounding of `double`
arithmetic made explicit. -/
def Lattice.cellBottom_fl (fl : K → K) (l : Lattice K) (cell : Int) : K :=
  let lat_y : Int := Int.tdiv cell l.num_x
  fl (fl (fl (lat_y * l.width_y) - fl (fl (l.width_y * l.num_y) / 2)) + l.offset.y)

/-- The local `top` of `Lattice::getLatticeSurface` with the rounding of `double`
arithmetic made explicit; `lat_y + 1` is an addition of `int`. -/
def Lattice.cellTop_fl (fl : K → K) (l : Lattice K) (cell : Int) : K :=
  let lat_y : Int := Int.tdiv cell l.num_x
  fl (fl (fl (((lat_y + 1 : Int) : K) * l.width_y) - fl (fl (l.width_y * l.num_y) / 2))
    + l.offset.y)

/-- A bound on the rounding error that the `double` evaluation of the index and edge
formulas of a Lattice axis accumulates: `8 * u * (n * w + |x| + |offset| + thresh)` for the
unit roundoff `u` (`2^(-53)` for `double`), `n` cells of width `w`, the coordinate `x` and
the threshold `thresh`. -/
def roundoff (u w : K) (n : Int) (x off thresh : K) : K :=
  8 * u * (n * w + |x| + |off| + thresh)

end Geometry

/-! Concrete geometries used to evaluate the definitions. -/

/-- The value `1E-12` of `ON_SURFACE_THRESH`. -/
def thresh12 : ℚ := 1 / 1000000000000

/-- A Material-filled region with the given id and material that contains every point. -/
def materialEverywhere (id material : Int) : Cell ℚ :=
  { id := id, type := cellType.MATERIAL, material := material, universe_fill := 0,
    num_rings := 0, num_sectors := 0, cellContainsCoords := fun _ => true }

/-- A SIMPLE universe holding the single region `materialEverywhere cid material`. -/
def pinUniverse (uid id cid material : Int) : Universe ℚ :=
  { uid := uid, id := id, type := universeType.SIMPLE,
    cells := [(cid, materialEverywhere cid material)], fissionable := false }

/-- The 2 x 2 Lattice of cell width `w` with centre `(ox, oy)`, id 10, every cell bound to
the universe with id 1 (uid 1). -/
def lattice2x2 (w ox oy : ℚ) : Lattice ℚ :=
  { uid := 0, id := 10, type := universeType.LATTICE, cells := [], fissionable := false,
    width_x := w, width_y := w, num_x := 2, num_y := 2, offset := { x := ox, y := oy },
    universes := [[(1, some { uid := 1, id := 1 }), (1, some { uid := 1, id := 1 })],
                  [(1, some { uid := 1, id := 1 }), (1, some { uid := 1, id := 1 })]] }

/-- The Lattice with 2 columns and 3 rows of cell width 1 centred at the origin, id 11; the
cell in column 1 of row 2 is bound to the universe with id 2, every other cell to the
universe with id 1. -/
def lattice2x3 : Lattice ℚ :=
  { uid := 3, id := 11, type := universeType.LATTICE, cells := [], fissionable := false,
    width_x := 1, width_y := 1, num_x := 2, num_y := 3, offset := { x := 0, y := 0 },
    universes := [[(1, some { uid := 1, id := 1 }), (1, some { uid := 1, id := 1 })],
                  [(1, some { uid := 1, id := 1 }), (1, some { uid := 1, id := 1 })],
                  [(1, some { uid := 1, id := 1 }), (2, some { uid := 2, id := 2 })]] }

/-- The universe table: `pinUniverse 1 1 7 3` under id 1, `pinUniverse 2 2 8 4` under id 2,
`lattice2x2 w ox oy` under id 10 and `lattice2x3` under id 11. -/
def exampleTable (w ox oy : ℚ) : Int → Option (UniverseObj ℚ) := fun id =>
  if id = 1 then some (UniverseObj.base (pinUniverse 1 1 7 3))
  else if id = 2 then some (UniverseObj.base (pinUniverse 2 2 8 4))
  else if id = 10 then some (UniverseObj.lattice (lattice2x2 w ox oy))
  else if id = 11 then some (UniverseObj.lattice (lattice2x3))
  else none

/-- A Universe-filled region with id 5, filled by the universe with id `fill`, that
contains every point. -/
def fillEverywhere (fill : Int) : Cell ℚ :=
  { id := 5, type := cellType.FILL, material := 0, universe_fill := fill,
    num_rings := 0, num_sectors := 0, cellContainsCoords := fun _ => true }

/-- A SIMPLE root universe (id 0) whose single region is `fillEverywhere fill`. -/
def rootUniverse (fill : Int) : Universe ℚ :=
  { uid := 4, id := 0, type := universeType.SIMPLE,
    cells := [(5, fillEverywhere fill)], fissionable := false }

/-- A Material-filled region with id 6 that contains exactly the points with `0 ≤ x`. -/
def rightHalfPlane : Cell ℚ :=
  { id := 6, type := cellType.MATERIAL, material := 3, universe_fill := 0,
    num_rings := 0, num_sectors := 0, cellContainsCoords := fun p => decide (0 ≤ p.x) }

/-- A SIMPLE universe (id 20) whose single region is `rightHalfPlane`. -/
def halfPlaneUniverse : Universe ℚ :=
  { uid := 5, id := 20, type := universeType.SIMPLE,
    cells := [(6, rightHalfPlane)], fissionable := false }

/-- A height function for `exampleTable`: the lattices (ids 10 and 11) have rank 1, the
universes they nest rank 0. -/
def exampleRank : Int → Nat := fun id => if id = 10 ∨ id = 11 then 1 else 0

/-- A universe with no region. -/
def emptyUniverse : Universe ℚ :=
  { uid := 6, id := 30, type := universeType.SIMPLE, cells := [], fissionable := false }

/-- A universe with the regions `materialEverywhere 7 3` and `materialEverywhere 8 2`. -/
def twoRegionUniverse : Universe ℚ :=
  { uid := 7, id := 31, type := universeType.SIMPLE,
    cells := [(7, materialEverywhere 7 3), (8, materialEverywhere 8 2)],
    fissionable := false }

/-- A region-level distance for the regions of `twoRegionUniverse`: 3 for the region with
id 7, 2 for the region with id 8 and `INFINITY` for any other region. -/
def sampleCellDist : Cell ℚ → Point ℚ → ℚ → WithTop ℚ := fun c _ _ =>
  if c.id = 7 then ((3 : ℚ) : WithTop ℚ) else if c.id = 8 then ((2 : ℚ) : WithTop ℚ) else ⊤

/-- A Material-filled region with the given id, 2 rings and no sectors pending, that
contains every point. -/
def ringedCell (id : Int) : Cell ℚ :=
  { id := id, type := cellType.MATERIAL, material := 3, universe_fill := 0,
    num_rings := 2, num_sectors := 0, cellContainsCoords := fun _ => true }

/-- A subdivision routine: the region with id 7 yields the siblings
`materialEverywhere 101 3` and `materialEverywhere 102 3`, any other region nothing. -/
def sampleSubdivide : Cell ℚ → List (Cell ℚ) := fun c =>
  if c.id = 7 then [materialEverywhere 101 3, materialEverywhere 102 3] else []

/-- A subdivision routine whose single sibling keeps the id of the subdivided region. -/
def sameIdSubdivide : Cell ℚ → List (Cell ℚ) := fun c => [materialEverywhere c.id 3]

/-- A universe with the pending region `ringedCell 7` and the region
`materialEverywhere 8 2`. -/
def ringedUniverse : Universe ℚ :=
  { uid := 8, id := 32, type := universeType.SIMPLE,
    cells := [(7, ringedCell 7), (8, materialEverywhere 8 2)], fissionable := false }

/-- The 2 x 2 Lattice of cell width `w` centred at the origin over the real numbers, id 12,
every cell bound to the universe with id 1 (uid 1). -/
def realLattice2x2 (w : ℝ) : Lattice ℝ :=
  { uid := 10, id := 12, type := universeType.LATTICE, cells := [], fissionable := false,
    width_x := w, width_y := w, num_x := 2, num_y := 2, offset := { x := 0, y := 0 },
    universes := [[(1, some { uid := 1, id := 1 }), (1, some { uid := 1, id := 1 })],
                  [(1, some { uid := 1, id := 1 }), (1, some { uid := 1, id := 1 })]] }

/-- The Lattice that `setLatticeCells(2, 2, ids)` with the input array `ids = {1, 2, 3, 4}`
leaves of the fresh Lattice `Lattice.new 0 10 1 1`: the row (3, 4) at the bottom, the row
(1, 2) on top, every pointer `NULL`. -/
def declared2x2 : Lattice ℚ :=
  { uid := 0, id := 10, type := universeType.LATTICE, cells := [], fissionable := false,
    width_x := 1, width_y := 1, num_x := 2, num_y := 2, offset := { x := 0, y := 0 },
    universes := [[(3, none), (4, none)], [(1, none), (2, none)]] }

/-- A copy routine for regions: the copy has the id of the original plus 100 and is
otherwise equal to it. -/
def sampleClone : Cell ℚ → Cell ℚ := fun c => { c with id := c.id + 100 }

/-- The Lattice with a single cell of width 2 centred at the origin, id 13, its cell bound
to the universe with id 20. -/
def halfPlaneLattice : Lattice ℚ :=
  { uid := 11, id := 13, type := universeType.LATTICE, cells := [], fissionable := false,
    width_x := 2, width_y := 2, num_x := 1, num_y := 1, offset := { x := 0, y := 0 },
    universes := [[(20, some { uid := 5, id := 20 })]] }

/-- The universe table holding `halfPlaneUniverse` under id 20 and `halfPlaneLattice` under
id 13. -/
def halfPlaneTable : Int → Option (UniverseObj ℚ) := fun id =>
  if id = 20 then some (UniverseObj.base halfPlaneUniverse)
  else if id = 13 then some (UniverseObj.lattice halfPlaneLattice)
  else none

/-- A universe with two overlapping regions that contain every point: the Universe-filled
region `fillEverywhere 20` (id 5) and the Material-filled region `materialEverywhere 9 3`
(id 9). -/
def overlapUniverse : Universe ℚ :=
  { uid := 12, id := 33, type := universeType.SIMPLE,
    cells := [(5, fillEverywhere 20), (9, materialEverywhere 9 3)], fissionable := false }

/-- The Lattice that `setLatticeCells(2, 1, ids)` with the input array `ids = {1, 2}` leaves
of the fresh Lattice `Lattice.new 0 10 1 1`: one row of two entries. -/
def declared2x1 : Lattice ℚ :=
  { uid := 0, id := 10, type := universeType.LATTICE, cells := [], fissionable := false,
    width_x := 1, width_y := 1, num_x := 2, num_y := 1, offset := { x := 0, y := 0 },
    universes := [[(1, none), (2, none)]] }

/-- A subdivision routine: the region with id 7 yields the siblings
`materialEverywhere 101 3` and `materialEverywhere 102 3`, the region with id 9 the sibling
`materialEverywhere 103 3`, any other region nothing. -/
def pairSubdivide : Cell ℚ → List (Cell ℚ) := fun c =>
  if c.id = 7 then [materialEverywhere 101 3, materialEverywhere 102 3]
  else if c.id = 9 then [materialEverywhere 103 3] else []

/-- A universe with the two pending regions `ringedCell 7` and `ringedCell 9` and the
region `materialEverywhere 8 2`. -/
def twoRingedUniverse : Universe ℚ :=
  { uid := 14, id := 34, type := universeType.SIMPLE,
    cells := [(7, ringedCell 7), (8, materialEverywhere 8 2), (9, ringedCell 9)],
    fissionable := false }

/-- Rounding of a rational number to an integer, to the nearest one and, half way between two
integers, to the even one. -/
def roundEven (r : ℚ) : Int :=
  if r - ⌊r⌋ < 1 / 2 then ⌊r⌋
  else if 1 / 2 < r - ⌊r⌋ then ⌊r⌋ + 1
  else if ⌊r⌋ % 2 = 0 then ⌊r⌋
  else ⌊r⌋ + 1

/-- The `double` (IEEE 754 binary64, round to nearest, ties to even) that an arithmetic
operation with the exact result `q` returns: `q` rounded to 53 significant bits.  The
exponent range is not bounded here, so this is the result of binary64 whenever the
magnitude of the rounded value lies in its normal range, from `2^(-1022)` up to the
overflow threshold. -/
def round64 (q : ℚ) : ℚ :=
  if q = 0 then 0
  else (roundEven (q / 2 ^ (Int.log 2 |q| - 52)) : ℚ) * 2 ^ (Int.log 2 |q| - 52)

/-- The unit roundoff of `double`. -/
def unit64 : ℚ := 1 / 2 ^ 53

/-- The `double` nearest to `1E-12`, the value of `ON_SURFACE_THRESH` used in the
evaluations in `double` arithmetic. -/
def thresh64 : ℚ := 4951760157141521 / 2 ^ 92

/-- A Lattice with 19 columns of width `21.42` and one row of width 1, centred at
`(16000.01, 0)`; the width and the offset are the `double` values nearest to these
decimals. -/
def lattice19 : Lattice ℚ :=
  { uid := 15, id := 14, type := universeType.LATTICE, cells := [], fissionable := false,
    width_x := 6029194001142252 / 2 ^ 48, width_y := 1, num_x := 19, num_y := 1,
    offset := { x := 8796098519766139 / 2 ^ 39, y := 0 },
    universes := [] }

/-- A Lattice with a single column of width `2 * thresh64` and a single row of width 1,
centred at the origin. -/
def thinLattice : Lattice ℚ :=
  { uid := 16, id := 15, type := universeType.LATTICE, cells := [], fissionable := false,
    width_x := 4951760157141521 / 2 ^ 91, width_y := 1, num_x := 1, num_y := 1,
    offset := { x := 0, y := 0 }, universes := [] }

/-- The 2 x 2 Lattice of cell width `0.1` centred at `(0.5, 0.5)`; the width is the `double`
nearest to `0.1`. -/
def tenthLattice : Lattice ℚ :=
  { uid := 17, id := 16, type := universeType.LATTICE, cells := [], fissionable := false,
    width_x := 3602879701896397 / 2 ^ 55, width_y := 3602879701896397 / 2 ^ 55,
    num_x := 2, num_y := 2, offset := { x := 1 / 2, y := 1 / 2 }, universes := [] }

section Lemmas

variable {K : Type} [LinearOrderedField K] [FloorRing K]

/-- The floor index of a distance `d` with `0 ≤ d < n * w` lies in `[0, n - 1]`. -/
theorem floor_div_mem_range {w d : K} {n : Int} (hw : 0 < w) (h0 : 0 ≤ d)
    (h1 : d < n * w) : 0 ≤ ⌊d / w⌋ ∧ ⌊d / w⌋ ≤ n - 1 := by
  constructor
  · exact Int.floor_nonneg.mpr (div_nonneg h0 hw.le)
  · have h : ⌊d / w⌋ < n := by
      rw [Int.floor_lt, div_lt_iff₀ hw]
      exact h1
    omega

/-- The index computation shared by `getLatX` and `getLatY`, for a distance `d` to the low
edge of a lattice with `n` cells of width `w`: `getLat*` succeeds exactly for
`-thresh < d < n * w + thresh`. -/
theorem clamp_ok_iff {thresh w d : K} {n : Int} (ht : 0 < thresh) (hw : 0 < w)
    (hn : 0 ≤ n) :
    (|d| < thresh ∨ |d - n * w| < thresh ∨ ¬ (⌊d / w⌋ < 0 ∨ ⌊d / w⌋ > n - 1)) ↔
      (-thresh < d ∧ d < n * w + thresh) := by
  have hnw : (0 : K) ≤ n * w := mul_nonneg (by exact_mod_cast hn) hw.le
  constructor
  · rintro (h | h | h)
    · rw [abs_lt] at h
      exact ⟨h.1, by linarith⟩
    · rw [abs_lt] at h
      exact ⟨by linarith, by linarith⟩
    · push_neg at h
      obtain ⟨h0, h1⟩ := h
      have hd0 : 0 ≤ d / w := Int.floor_nonneg.mp h0
      have hd : 0 ≤ d := by
        by_contra hneg
        push_neg at hneg
        exact absurd hd0 (not_le.mpr (div_neg_of_neg_of_pos hneg hw))
      have hlt : ⌊d / w⌋ < n := by omega
      rw [Int.floor_lt, div_lt_iff₀ hw] at hlt
      exact ⟨by linarith, by linarith⟩
  · rintro ⟨h1, h2⟩
    by_cases hneg : d < 0
    · left
      rw [abs_lt]
      exact ⟨h1, by linarith⟩
    · push_neg at hneg
      by_cases hbig : n * w ≤ d
      · right; left
        rw [abs_lt]
        exact ⟨by linarith, by linarith⟩
      · push_neg at hbig
        right; right
        have := floor_div_mem_range hw hneg hbig
        omega

/-- Success of `Lattice::getLatX` in terms of the x coordinate. -/
theorem getLatX_ok_iff (thresh : K) (l : Lattice K) (p : Point K) (ht : 0 < thresh)
    (hw : 0 < l.width_x) (hn : 0 ≤ l.num_x) :
    (∃ i, l.getLatX thresh p = .ok i) ↔
      (l.offset.x - l.num_x * l.width_x / 2 - thresh < p.x ∧
        p.x < l.offset.x + l.num_x * l.width_x / 2 + thresh) := by
  have key := clamp_ok_iff (d := p.x + l.num_x * l.width_x / 2 - l.offset.x) ht hw hn
  have e : p.x + l.width_x * l.num_x / 2 - l.offset.x
      = p.x + l.num_x * l.width_x / 2 - l.offset.x := by ring
  have hiff : (∃ i, l.getLatX thresh p = .ok i) ↔
      (|p.x + l.num_x * l.width_x / 2 - l.offset.x| < thresh ∨
        |p.x + l.num_x * l.width_x / 2 - l.offset.x - l.num_x * l.width_x| < thresh ∨
        ¬ (⌊(p.x + l.num_x * l.width_x / 2 - l.offset.x) / l.width_x⌋ < 0 ∨
          ⌊(p.x + l.num_x * l.width_x / 2 - l.offset.x) / l.width_x⌋ > l.num_x - 1)) := by
    unfold Lattice.getLatX
    simp only [e]
    split_ifs with h1 h2 h3
    · simp [h1]
    · simp [h2]
    · simp [h1, h2, h3]
    · simp [h1, h2, h3]
  rw [hiff, key]
  constructor <;> rintro ⟨a, b⟩ <;> constructor <;> linarith

/-- Success of `Lattice::getLatY` in terms of the y coordinate. -/
theorem getLatY_ok_iff (thresh : K) (l : Lattice K) (p : Point K) (ht : 0 < thresh)
    (hw : 0 < l.width_y) (hn : 0 ≤ l.num_y) :
    (∃ j, l.getLatY thresh p = .ok j) ↔
      (l.offset.y - l.num_y * l.width_y / 2 - thresh < p.y ∧
        p.y < l.offset.y + l.num_y * l.width_y / 2 + thresh) := by
  have key := clamp_ok_iff (d := p.y + l.num_y * l.width_y / 2 - l.offset.y) ht hw hn
  have e : p.y + l.width_y * l.num_y / 2 - l.offset.y
      = p.y + l.num_y * l.width_y / 2 - l.offset.y := by ring
  have hiff : (∃ j, l.getLatY thresh p = .ok j) ↔
      (|p.y + l.num_y * l.width_y / 2 - l.offset.y| < thresh ∨
        |p.y + l.num_y * l.width_y / 2 - l.offset.y - l.num_y * l.width_y| < thresh ∨
        ¬ (⌊(p.y + l.num_y * l.width_y / 2 - l.offset.y) / l.width_y⌋ < 0 ∨
          ⌊(p.y + l.num_y * l.width_y / 2 - l.offset.y) / l.width_y⌋ > l.num_y - 1)) := by
    unfold Lattice.getLatY
    simp only [e]
    split_ifs with h1 h2 h3
    · simp [h1]
    · simp [h2]
    · simp [h1, h2, h3]
    · simp [h1, h2, h3]
  rw [hiff, key]
  constructor <;> rintro ⟨a, b⟩ <;> constructor <;> linarith

/-- The index returned by `Lattice::getLatX` for a point strictly inside the x bounds. -/
theorem getLatX_inside (thresh : K) (l : Lattice K) (p : Point K)
    (hw : 0 < l.width_x) (hn : 1 ≤ l.num_x)
    (h1 : l.offset.x - l.num_x * l.width_x / 2 < p.x)
    (h2 : p.x < l.offset.x + l.num_x * l.width_x / 2) :
    ∃ i, l.getLatX thresh p = .ok i ∧ 0 ≤ i ∧ i ≤ l.num_x - 1 := by
  have e : p.x + l.width_x * l.num_x / 2 - l.offset.x
      = p.x + l.num_x * l.width_x / 2 - l.offset.x := by ring
  have hr := floor_div_mem_range (d := p.x + l.num_x * l.width_x / 2 - l.offset.x)
    (n := l.num_x) hw (by linarith) (by linarith)
  unfold Lattice.getLatX
  simp only [e]
  split_ifs with c1 c2 c3
  · exact ⟨0, rfl, le_refl _, by omega⟩
  · exact ⟨l.num_x - 1, rfl, by omega, le_refl _⟩
  · omega
  · exact ⟨_, rfl, hr.1, hr.2⟩

/-- The index returned by `Lattice::getLatY` for a point strictly inside the y bounds. -/
theorem getLatY_inside (thresh : K) (l : Lattice K) (p : Point K)
    (hw : 0 < l.width_y) (hn : 1 ≤ l.num_y)
    (h1 : l.offset.y - l.num_y * l.width_y / 2 < p.y)
    (h2 : p.y < l.offset.y + l.num_y * l.width_y / 2) :
    ∃ j, l.getLatY thresh p = .ok j ∧ 0 ≤ j ∧ j ≤ l.num_y - 1 := by
  have e : p.y + l.width_y * l.num_y / 2 - l.offset.y
      = p.y + l.num_y * l.width_y / 2 - l.offset.y := by ring
  have hr := floor_div_mem_range (d := p.y + l.num_y * l.width_y / 2 - l.offset.y)
    (n := l.num_y) hw (by linarith) (by linarith)
  unfold Lattice.getLatY
  simp only [e]
  split_ifs with c1 c2 c3
  · exact ⟨0, rfl, le_refl _, by omega⟩
  · exact ⟨l.num_y - 1, rfl, by omega, le_refl _⟩
  · omega
  · exact ⟨_, rfl, hr.1, hr.2⟩

/-- `Lattice::getLatX` fails only with the outside-lattice-bounds error. -/
theorem getLatX_ne_error_iff (thresh : K) (l : Lattice K) (p : Point K) :
    l.getLatX thresh p ≠ .error .latticeBounds ↔ ∃ i, l.getLatX thresh p = .ok i := by
  unfold Lattice.getLatX
  simp only []
  split_ifs <;> simp

/-- `Lattice::getLatY` fails only with the outside-lattice-bounds error. -/
theorem getLatY_ne_error_iff (thresh : K) (l : Lattice K) (p : Point K) :
    l.getLatY thresh p ≠ .error .latticeBounds ↔ ∃ j, l.getLatY thresh p = .ok j := by
  unfold Lattice.getLatY
  simp only []
  split_ifs <;> simp

/-- A Cell found by the scan of `Universe::findCell` accepts the point and is registered. -/
theorem firstContaining_some {cells : List (Int × Cell K)} {p : Point K} {cell : Cell K}
    (h : Universe.firstContaining cells p = some cell) :
    cell.cellContainsCoords p = true ∧ ∃ k, (k, cell) ∈ cells := by
  induction cells with
  | nil => simp [Universe.firstContaining] at h
  | cons e rest ih =>
    unfold Universe.firstContaining at h
    split_ifs at h with hc
    · cases h
      exact ⟨hc, e.1, by simp⟩
    · obtain ⟨h1, k, hk⟩ := ih h
      exact ⟨h1, k, List.mem_cons_of_mem _ hk⟩

/-- The scan of `Universe::findCell` finds nothing exactly when no Cell accepts the point. -/
theorem firstContaining_none {cells : List (Int × Cell K)} {p : Point K}
    (h : ∀ e ∈ cells, e.2.cellContainsCoords p = false) :
    Universe.firstContaining cells p = none := by
  induction cells with
  | nil => rfl
  | cons e rest ih =>
    unfold Universe.firstContaining
    rw [if_neg (by simp [h e (List.mem_cons_self _ _)])]
    exact ih (fun e' he' => h e' (List.mem_cons_of_mem _ he'))

/-- In a registry with strictly ascending keys the scan of `Universe::findCell` finds the
accepting Cell with the least key. -/
theorem firstContaining_least {cells : List (Int × Cell K)} {p : Point K} {k : Int}
    {cell : Cell K} (hs : cells.Pairwise (fun a b => a.1 < b.1)) (hm : (k, cell) ∈ cells)
    (hc : cell.cellContainsCoords p = true)
    (hl : ∀ e ∈ cells, e.1 < k → e.2.cellContainsCoords p = false) :
    Universe.firstContaining cells p = some cell := by
  induction cells with
  | nil => simp at hm
  | cons e rest ih =>
    rw [List.pairwise_cons] at hs
    unfold Universe.firstContaining
    rcases List.mem_cons.mp hm with heq | hrest
    · rw [← heq]
      simp [hc]
    · have hlt : e.1 < k := hs.1 (k, cell) hrest
      have hne : e.2.cellContainsCoords p = false := hl e (List.mem_cons_self _ _) hlt
      rw [if_neg (by simp [hne])]
      exact ih hs.2 hrest (fun e' he' => hl e' (List.mem_cons_of_mem _ he'))

/-- `Universe::findCell` when no Cell accepts the point: `NULL`. -/
theorem Universe.findCell_none (thresh : K) (universes : Int → Option (UniverseObj K))
    (fuel : Nat) (u : Universe K) (coords : LocalCoords K) (next : List (LocalCoords K))
    (h : Universe.firstContaining u.cells coords.point = none) :
    Universe.findCell thresh universes fuel u coords next
      = .ok (none, { coords with type := some coordType.UNIV } :: next) := by
  unfold Universe.findCell
  simp only [h]

/-- `Universe::findCell` when the first accepting Cell is Material-filled. -/
theorem Universe.findCell_material (thresh : K) (universes : Int → Option (UniverseObj K))
    (fuel : Nat) (u : Universe K) (coords : LocalCoords K) (next : List (LocalCoords K))
    (cell : Cell K) (h : Universe.firstContaining u.cells coords.point = some cell)
    (hm : cell.type = cellType.MATERIAL) :
    Universe.findCell thresh universes fuel u coords next
      = .ok (some cell,
          { coords with type := some coordType.UNIV, cell := some cell.id } :: next) := by
  unfold Universe.findCell
  simp only [h, hm]

/-- `Universe::findCell` when the first accepting Cell is Universe-filled: the search goes
on in the filling universe, on the next link. -/
theorem Universe.findCell_fill (thresh : K) (universes : Int → Option (UniverseObj K))
    (fuel : Nat) (u : Universe K) (coords : LocalCoords K) (next : List (LocalCoords K))
    (cell : Cell K) (univ : UniverseObj K)
    (h : Universe.firstContaining u.cells coords.point = some cell)
    (hf : cell.type = cellType.FILL) (hu : universes cell.universe_fill = some univ)
    (ht : ∀ v, univ = UniverseObj.base v → v.type = universeType.SIMPLE) :
    Universe.findCell thresh universes (fuel + 1) u coords next
      = (UniverseObj.findCell thresh universes fuel univ
          { nextCoords next coords.point.x coords.point.y with
            universe_id := some cell.universe_fill } next.tail).map
          (fun r => (r.1,
            { coords with type := some coordType.UNIV, cell := some cell.id } :: r.2)) := by
  unfold Universe.findCell
  simp only [h, hf, hu]
  cases univ with
  | base v =>
    simp only [UniverseObj.findCell]
    rw [if_pos (ht v rfl)]
  | lattice m => simp only [UniverseObj.findCell]

/-- `Lattice::findCell` when `getLatX` raises its error. -/
theorem Lattice.findCell_errorX (thresh : K) (universes : Int → Option (UniverseObj K))
    (fuel : Nat) (l : Lattice K) (coords : LocalCoords K) (next : List (LocalCoords K))
    (e : Error) (h : l.getLatX thresh coords.point = .error e) :
    Lattice.findCell thresh universes fuel l coords next = .error e := by
  unfold Lattice.findCell
  simp only [h]

/-- `Lattice::findCell` for in-range lattice indices of a bound Lattice cell: the search
goes on in the universe bound to the cell, on the next link. -/
theorem Lattice.findCell_descend (thresh : K) (universes : Int → Option (UniverseObj K))
    (fuel : Nat) (l : Lattice K) (coords : LocalCoords K) (next : List (LocalCoords K))
    (i j : Int) (ptr : UniversePtr) (univ : UniverseObj K)
    (hi : l.getLatX thresh coords.point = .ok i) (hj : l.getLatY thresh coords.point = .ok j)
    (hi0 : 0 ≤ i) (hi1 : i < l.num_x) (hj0 : 0 ≤ j) (hj1 : j < l.num_y)
    (hp : l.getUniverse i j = .ok (some ptr)) (hu : universes ptr.id = some univ) :
    Lattice.findCell thresh universes (fuel + 1) l coords next
      = (UniverseObj.findCell thresh universes fuel univ
          { nextCoords next (l.nextX coords.point i) (l.nextY coords.point j) with
            universe_id := some ptr.id } next.tail).map
          (fun r => (r.1,
            { coords with type := some coordType.LAT, lattice := some l.id,
                          lattice_x := some i, lattice_y := some j } :: r.2)) := by
  have hr : ¬ (i < 0 ∨ i ≥ l.num_x ∨ j < 0 ∨ j ≥ l.num_y) := by omega
  unfold Lattice.findCell
  simp only [hi, hj, hp, hu]
  rw [if_neg hr]
  cases univ with
  | base v => simp only [UniverseObj.findCell, Lattice.nextX, Lattice.nextY]
  | lattice m => simp only [UniverseObj.findCell, Lattice.nextX, Lattice.nextY]

/-- A successful `Except.map` comes from a successful argument. -/
theorem except_map_eq_ok {ε α β : Type} (f : α → β) (x : Except ε α) (b : β)
    (h : x.map f = .ok b) : ∃ a, x = .ok a ∧ f a = b := by
  cases x with
  | error e => simp [Except.map] at h
  | ok a =>
    simp only [Except.map, Except.ok.injEq] at h
    exact ⟨a, rfl, h⟩

/-- The scan of `Universe::findCell` finds nothing only when no Cell accepts the point. -/
theorem firstContaining_none_elim {cells : List (Int × Cell K)} {p : Point K}
    (h : Universe.firstContaining cells p = none) :
    ∀ e ∈ cells, e.2.cellContainsCoords p = false := by
  induction cells with
  | nil => simp
  | cons e rest ih =>
    unfold Universe.firstContaining at h
    split_ifs at h with hc
    intro e' he'
    rcases List.mem_cons.mp he' with heq | hrest
    · rw [heq]
      simpa using hc
    · exact ih h e' hrest

/-- When one registered Cell accepts the point and no other does, the scan of
`Universe::findCell` finds it. -/
theorem firstContaining_unique {cells : List (Int × Cell K)} {p : Point K} {k : Int}
    {cell : Cell K} (hm : (k, cell) ∈ cells) (hc : cell.cellContainsCoords p = true)
    (ho : ∀ e ∈ cells, e.2.cellContainsCoords p = true → e.2 = cell) :
    Universe.firstContaining cells p = some cell := by
  cases hf : Universe.firstContaining cells p with
  | none =>
    have := firstContaining_none_elim hf (k, cell) hm
    simp [hc] at this
  | some c =>
    obtain ⟨h1, k', hk'⟩ := firstContaining_some hf
    have hcc : c = cell := ho (k', c) hk' h1
    rw [hcc]

/-- A successful `Universe::findCell` leaves a chain whose first link is the link it was
called on, at the same point. -/
theorem Universe.findCell_head_link (thresh : K)
    (universes : Int → Option (UniverseObj K)) (fuel : Nat) (u : Universe K)
    (coords : LocalCoords K) (next : List (LocalCoords K)) (r : Option (Cell K))
    (ch : List (LocalCoords K))
    (h : Universe.findCell thresh universes fuel u coords next = .ok (r, ch)) :
    ∃ c tl, ch = c :: tl ∧ c.point = coords.point := by
  unfold Universe.findCell at h
  simp only [] at h
  split at h
  · cases h
    exact ⟨_, _, rfl, rfl⟩
  · split at h
    · cases h
      exact ⟨_, _, rfl, rfl⟩
    · split at h
      · cases h
      · split at h
        · cases h
        · split at h
          · split_ifs at h
            obtain ⟨a, -, ha⟩ := except_map_eq_ok _ _ _ h
            cases ha
            exact ⟨_, _, rfl, rfl⟩
          · obtain ⟨a, -, ha⟩ := except_map_eq_ok _ _ _ h
            cases ha
            exact ⟨_, _, rfl, rfl⟩

/-- A successful `Lattice::findCell` leaves a chain whose first link is the link it was
called on, at the same point. -/
theorem Lattice.findCell_first_link (thresh : K)
    (universes : Int → Option (UniverseObj K)) (fuel : Nat) (l : Lattice K)
    (coords : LocalCoords K) (next : List (LocalCoords K)) (r : Option (Cell K))
    (ch : List (LocalCoords K))
    (h : Lattice.findCell thresh universes fuel l coords next = .ok (r, ch)) :
    ∃ c tl, ch = c :: tl ∧ c.point = coords.point := by
  unfold Lattice.findCell at h
  simp only [] at h
  split at h
  · cases h
  · cases h
  · split_ifs at h
    · cases h
      exact ⟨_, _, rfl, rfl⟩
    · split at h
      · cases h
      · cases h
      · split at h
        · cases h
        · split at h
          · cases h
          · split at h
            · obtain ⟨a, -, ha⟩ := except_map_eq_ok _ _ _ h
              cases ha
              exact ⟨_, _, rfl, rfl⟩
            · obtain ⟨a, -, ha⟩ := except_map_eq_ok _ _ _ h
              cases ha
              exact ⟨_, _, rfl, rfl⟩

/-- A successful `findCell` through a `Universe*` leaves a chain whose first link is the
link it was called on, at the same point. -/
theorem UniverseObj.findCell_keeps_head (thresh : K)
    (universes : Int → Option (UniverseObj K)) (fuel : Nat) (o : UniverseObj K)
    (coords : LocalCoords K) (next : List (LocalCoords K)) (r : Option (Cell K))
    (ch : List (LocalCoords K))
    (h : UniverseObj.findCell thresh universes fuel o coords next = .ok (r, ch)) :
    ∃ c tl, ch = c :: tl ∧ c.point = coords.point := by
  cases o with
  | base v => exact Universe.findCell_head_link thresh universes fuel v coords next r ch h
  | lattice m => exact Lattice.findCell_first_link thresh universes fuel m coords next r ch h

/-- `Lattice::findCell` when `getLatY` raises its error. -/
theorem Lattice.findCell_errorY (thresh : K) (universes : Int → Option (UniverseObj K))
    (fuel : Nat) (l : Lattice K) (coords : LocalCoords K) (next : List (LocalCoords K))
    (i : Int) (e : Error) (hx : l.getLatX thresh coords.point = .ok i)
    (h : l.getLatY thresh coords.point = .error e) :
    Lattice.findCell thresh universes fuel l coords next = .error e := by
  unfold Lattice.findCell
  simp only [hx, h]

/-- `Lattice::findCell` for lattice indices outside the grid: `NULL`. -/
theorem Lattice.findCell_null (thresh : K) (universes : Int → Option (UniverseObj K))
    (fuel : Nat) (l : Lattice K) (coords : LocalCoords K) (next : List (LocalCoords K))
    (i j : Int) (hi : l.getLatX thresh coords.point = .ok i)
    (hj : l.getLatY thresh coords.point = .ok j)
    (hr : i < 0 ∨ i ≥ l.num_x ∨ j < 0 ∨ j ≥ l.num_y) :
    Lattice.findCell thresh universes fuel l coords next
      = .ok (none, { coords with type := some coordType.LAT } :: next) := by
  unfold Lattice.findCell
  simp only [hi, hj]
  rw [if_pos hr]

/-- The only error of `Lattice::getLatX` is the outside-lattice-bounds error. -/
theorem getLatX_error (thresh : K) (l : Lattice K) (p : Point K) (e : Error)
    (h : l.getLatX thresh p = .error e) : e = .latticeBounds := by
  unfold Lattice.getLatX at h
  simp only [] at h
  split_ifs at h
  cases h
  rfl

/-- The only error of `Lattice::getLatY` is the outside-lattice-bounds error. -/
theorem getLatY_error (thresh : K) (l : Lattice K) (p : Point K) (e : Error)
    (h : l.getLatY thresh p = .error e) : e = .latticeBounds := by
  unfold Lattice.getLatY at h
  simp only [] at h
  split_ifs at h
  cases h
  rfl

/-- Passing the outcome of the nested search up one level keeps it settled. -/
theorem settled_map (next : List (LocalCoords K)) (c0 : LocalCoords K)
    (res : FindResult K) (h : FindResult.Settled next.tail res) :
    FindResult.Settled next (res.map (fun r => (r.1, c0 :: r.2))) := by
  rcases h with h | ⟨r, ch, h, hr⟩
  · left
    rw [h]
    rfl
  · right
    refine ⟨r, c0 :: ch, by rw [h]; rfl, ?_⟩
    rcases hr with hr | ⟨c, hc, hm, hl⟩
    · exact Or.inl hr
    · refine Or.inr ⟨c, hc, hm, fun hn => ?_⟩
      obtain ⟨last, h1, h2⟩ := hl (by rw [hn]; rfl)
      refine ⟨last, ?_, h2⟩
      cases ch with
      | nil => simp at h1
      | cons a t => rw [List.getLast?_cons_cons]; exact h1

/-- In an acyclic table, `findCell` with a recursion bound of at least the nesting height
of the universe it starts in has a settled outcome. -/
theorem findCell_settled (thresh : K) (universes : Int → Option (UniverseObj K))
    (rank : Int → Nat) (htable : AcyclicTable universes rank) :
    ∀ (fuel n : Nat), n ≤ fuel → ∀ (o : UniverseObj K) (coords : LocalCoords K)
      (next : List (LocalCoords K)), UniverseObj.nestedBelow universes rank n o →
      FindResult.Settled next (UniverseObj.findCell thresh universes fuel o coords next) := by
  intro fuel
  induction fuel with
  | zero =>
    intro n hn o coords next ho
    have hn0 : n = 0 := by omega
    subst hn0
    cases o with
    | base u =>
      simp only [UniverseObj.findCell]
      cases hfc : Universe.firstContaining u.cells coords.point with
      | none =>
        rw [Universe.findCell_none thresh universes 0 u coords next hfc]
        exact Or.inr ⟨none, _, rfl, Or.inl rfl⟩
      | some cell =>
        obtain ⟨hacc, k, hk⟩ := firstContaining_some hfc
        cases hty : cell.type with
        | MATERIAL =>
          rw [Universe.findCell_material thresh universes 0 u coords next cell hfc hty]
          refine Or.inr ⟨some cell, _, rfl, Or.inr ⟨cell, rfl, hty, fun hnx => ?_⟩⟩
          rw [hnx]
          exact ⟨_, rfl, hacc⟩
        | FILL =>
          obtain ⟨o', -, hlt, -⟩ := ho (k, cell) hk hty
          omega
    | lattice l =>
      simp only [UniverseObj.findCell]
      cases hx : l.getLatX thresh coords.point with
      | error e =>
        rw [Lattice.findCell_errorX thresh universes 0 l coords next e hx,
          getLatX_error thresh l coords.point e hx]
        exact Or.inl rfl
      | ok i =>
        cases hy : l.getLatY thresh coords.point with
        | error e =>
          rw [Lattice.findCell_errorY thresh universes 0 l coords next i e hx hy,
            getLatY_error thresh l coords.point e hy]
          exact Or.inl rfl
        | ok j =>
          by_cases hr : i < 0 ∨ i ≥ l.num_x ∨ j < 0 ∨ j ≥ l.num_y
          · rw [Lattice.findCell_null thresh universes 0 l coords next i j hx hy hr]
            exact Or.inr ⟨none, _, rfl, Or.inl rfl⟩
          · obtain ⟨ptr, o', -, -, hlt⟩ :=
              ho i j (by omega) (by omega) (by omega) (by omega)
            omega
  | succ fuel ih =>
    intro n hn o coords next ho
    cases o with
    | base u =>
      simp only [UniverseObj.findCell]
      cases hfc : Universe.firstContaining u.cells coords.point with
      | none =>
        rw [Universe.findCell_none thresh universes _ u coords next hfc]
        exact Or.inr ⟨none, _, rfl, Or.inl rfl⟩
      | some cell =>
        obtain ⟨hacc, k, hk⟩ := firstContaining_some hfc
        cases hty : cell.type with
        | MATERIAL =>
          rw [Universe.findCell_material thresh universes _ u coords next cell hfc hty]
          refine Or.inr ⟨some cell, _, rfl, Or.inr ⟨cell, rfl, hty, fun hnx => ?_⟩⟩
          rw [hnx]
          exact ⟨_, rfl, hacc⟩
        | FILL =>
          obtain ⟨o', hpres, hlt, htag⟩ := ho (k, cell) hk hty
          simp only [] at hpres hlt
          rw [Universe.findCell_fill thresh universes fuel u coords next cell o' hfc hty
            hpres htag]
          exact settled_map next _ _
            (ih (rank cell.universe_fill) (by omega) o' _ next.tail
              (htable _ o' hpres))
    | lattice l =>
      simp only [UniverseObj.findCell]
      cases hx : l.getLatX thresh coords.point with
      | error e =>
        rw [Lattice.findCell_errorX thresh universes _ l coords next e hx,
          getLatX_error thresh l coords.point e hx]
        exact Or.inl rfl
      | ok i =>
        cases hy : l.getLatY thresh coords.point with
        | error e =>
          rw [Lattice.findCell_errorY thresh universes _ l coords next i e hx hy,
            getLatY_error thresh l coords.point e hy]
          exact Or.inl rfl
        | ok j =>
          by_cases hr : i < 0 ∨ i ≥ l.num_x ∨ j < 0 ∨ j ≥ l.num_y
          · rw [Lattice.findCell_null thresh universes _ l coords next i j hx hy hr]
            exact Or.inr ⟨none, _, rfl, Or.inl rfl⟩
          · obtain ⟨ptr, o', hptr, hpres, hlt⟩ :=
              ho i j (by omega) (by omega) (by omega) (by omega)
            rw [Lattice.findCell_descend thresh universes fuel l coords next i j ptr o'
              hx hy (by omega) (by omega) (by omega) (by omega) hptr hpres]
            exact settled_map next _ _
              (ih (rank ptr.id) (by omega) o' _ next.tail (htable _ o' hpres))

/-- The table `exampleTable 1 0 0` is acyclic, with height function `exampleRank`. -/
theorem exampleTable_acyclic : AcyclicTable (exampleTable 1 0 0) exampleRank := by
  intro id o h
  unfold exampleTable at h
  split_ifs at h with h1 h2 h3 h4
  · cases h
    intro e he hf
    simp [pinUniverse, materialEverywhere] at he
    rw [he] at hf
    simp at hf
  · cases h
    intro e he hf
    simp [pinUniverse, materialEverywhere] at he
    rw [he] at hf
    simp at hf
  · cases h
    subst h3
    intro i j hi0 hi1 hj0 hj1
    simp only [lattice2x2] at hi1 hj1
    refine ⟨{ uid := 1, id := 1 }, UniverseObj.base (pinUniverse 1 1 7 3), ?_, ?_, ?_⟩
    · interval_cases i <;> interval_cases j <;>
        simp [Lattice.getUniverse, lattice2x2, vectorAt, bind, Except.bind, pure,
          Except.pure]
    · simp [exampleTable]
    · simp [exampleRank]
  · cases h
    subst h4
    intro i j hi0 hi1 hj0 hj1
    simp only [lattice2x3] at hi1 hj1
    by_cases hc : i = 1 ∧ j = 2
    · obtain ⟨rfl, rfl⟩ := hc
      exact ⟨{ uid := 2, id := 2 }, UniverseObj.base (pinUniverse 2 2 8 4),
        by simp [Lattice.getUniverse, lattice2x3, vectorAt, bind, Except.bind, pure,
          Except.pure],
        by simp [exampleTable], by simp [exampleRank]⟩
    · refine ⟨{ uid := 1, id := 1 }, UniverseObj.base (pinUniverse 1 1 7 3), ?_, ?_, ?_⟩
      · interval_cases i <;> interval_cases j <;>
          simp_all [Lattice.getUniverse, lattice2x3, vectorAt, bind, Except.bind, pure,
            Except.pure]
      · simp [exampleTable]
      · simp [exampleRank]

/-- The accumulation loop of `Universe::minSurfaceDist` started from `acc`: it is below
`acc` and below the distance of every region, and it is `acc` or the distance of a
region. -/
theorem minSurfaceDist_fold (f : Cell K → WithTop K) (cells : List (Int × Cell K))
    (acc : WithTop K) :
    (cells.foldl (fun m e => min (f e.2) m) acc ≤ acc ∧
      ∀ e ∈ cells, cells.foldl (fun m e => min (f e.2) m) acc ≤ f e.2) ∧
    (cells.foldl (fun m e => min (f e.2) m) acc = acc ∨
      ∃ e ∈ cells, cells.foldl (fun m e => min (f e.2) m) acc = f e.2) := by
  induction cells generalizing acc with
  | nil => simp
  | cons a rest ih =>
    simp only [List.foldl_cons]
    obtain ⟨⟨h1, h2⟩, h3⟩ := ih (min (f a.2) acc)
    refine ⟨⟨le_trans h1 (min_le_right _ _), ?_⟩, ?_⟩
    · intro e he
      rcases List.mem_cons.mp he with rfl | hr
      · exact le_trans h1 (min_le_left _ _)
      · exact h2 e hr
    · rcases h3 with h | ⟨e, he, h⟩
      · rcases min_choice (f a.2) acc with hm | hm
        · right
          exact ⟨a, List.mem_cons_self _ _, by rw [h, hm]⟩
        · left
          rw [h, hm]
      · right
        exact ⟨e, List.mem_cons_of_mem _ he, h⟩

/-- No value is found under a key exactly when the key is not a key of the map. -/
theorem mapFind_eq_none_iff {α : Type} (m : List (Int × α)) (k : Int) :
    mapFind m k = none ↔ k ∉ m.map Prod.fst := by
  induction m with
  | nil => simp [mapFind]
  | cons e rest ih =>
    unfold mapFind
    by_cases h : k = e.1
    · simp [h]
    · rw [if_neg h, ih]
      simp [h]

/-- A value found under a key is an entry of the map. -/
theorem mapFind_mem {α : Type} (m : List (Int × α)) (k : Int) (v : α)
    (h : mapFind m k = some v) : (k, v) ∈ m := by
  induction m with
  | nil => simp [mapFind] at h
  | cons e rest ih =>
    unfold mapFind at h
    split_ifs at h with hk
    · cases h
      rw [hk]
      exact List.mem_cons_self _ _
    · exact List.mem_cons_of_mem _ (ih h)

/-- In a map with strictly ascending keys an entry is found under its key. -/
theorem mapFind_of_mem {α : Type} (m : List (Int × α)) (k : Int) (v : α)
    (hs : m.Pairwise (fun a b => a.1 < b.1)) (h : (k, v) ∈ m) : mapFind m k = some v := by
  induction m with
  | nil => simp at h
  | cons e rest ih =>
    rw [List.pairwise_cons] at hs
    unfold mapFind
    rcases List.mem_cons.mp h with heq | hr
    · rw [← heq]
      simp
    · have hlt : e.1 < k := hs.1 (k, v) hr
      rw [if_neg (by omega)]
      exact ih hs.2 hr

/-- An entry of the map after `insert` is the inserted pair or an entry of the map
before. -/
theorem mapInsert_mem {α : Type} (k : Int) (v : α) (m : List (Int × α)) (e : Int × α)
    (h : e ∈ mapInsert k v m) : e = (k, v) ∨ e ∈ m := by
  induction m with
  | nil =>
    simp only [mapInsert, List.mem_singleton] at h
    exact Or.inl h
  | cons a rest ih =>
    unfold mapInsert at h
    split_ifs at h with h1 h2
    · rcases List.mem_cons.mp h with h | h
      · exact Or.inl h
      · exact Or.inr h
    · exact Or.inr h
    · rcases List.mem_cons.mp h with h | h
      · exact Or.inr (by rw [h]; exact List.mem_cons_self _ _)
      · rcases ih h with h | h
        · exact Or.inl h
        · exact Or.inr (List.mem_cons_of_mem _ h)

/-- The call `insert` keeps the keys strictly ascending. -/
theorem mapInsert_sorted {α : Type} (k : Int) (v : α) (m : List (Int × α))
    (hs : m.Pairwise (fun a b => a.1 < b.1)) :
    (mapInsert k v m).Pairwise (fun a b => a.1 < b.1) := by
  induction m with
  | nil => simp [mapInsert]
  | cons a rest ih =>
    have hs' := List.pairwise_cons.mp hs
    unfold mapInsert
    split_ifs with h1 h2
    · refine List.pairwise_cons.mpr ⟨?_, hs⟩
      intro b hb
      rcases List.mem_cons.mp hb with rfl | hb
      · exact h1
      · exact lt_trans h1 (hs'.1 b hb)
    · exact hs
    · refine List.pairwise_cons.mpr ⟨?_, ih hs'.2⟩
      intro b hb
      rcases mapInsert_mem k v rest b hb with rfl | hb
      · simp only []
        omega
      · exact hs'.1 b hb

/-- The call `insert` under a key that the map already has leaves the map as it is. -/
theorem mapInsert_present {α : Type} (k : Int) (v old : α) (m : List (Int × α))
    (hs : m.Pairwise (fun a b => a.1 < b.1)) (h : mapFind m k = some old) :
    mapInsert k v m = m := by
  induction m with
  | nil => simp [mapFind] at h
  | cons a rest ih =>
    have hs' := List.pairwise_cons.mp hs
    unfold mapFind at h
    unfold mapInsert
    split_ifs at h with hk
    · rw [if_neg (by omega), if_pos hk]
    · have hlt : a.1 < k := hs'.1 (k, old) (mapFind_mem rest k old h)
      rw [if_neg (by omega), if_neg hk, ih hs'.2 h]

/-- The lookup under another key is not affected by `insert`. -/
theorem mapFind_mapInsert_ne {α : Type} (k k' : Int) (v : α) (m : List (Int × α))
    (hne : k' ≠ k) : mapFind (mapInsert k v m) k' = mapFind m k' := by
  induction m with
  | nil => simp [mapInsert, mapFind, hne]
  | cons a rest ih =>
    unfold mapInsert
    split_ifs with h1 h2
    · rw [mapFind, if_neg hne]
    · rfl
    · rw [mapFind, mapFind, ih]

/-- The call `insert` under a key that the map does not have stores the value and makes
the map one entry longer. -/
theorem mapInsert_absent {α : Type} (k : Int) (v : α) (m : List (Int × α))
    (h : mapFind m k = none) :
    mapFind (mapInsert k v m) k = some v ∧ (mapInsert k v m).length = m.length + 1 := by
  induction m with
  | nil => simp [mapInsert, mapFind]
  | cons a rest ih =>
    unfold mapFind at h
    split_ifs at h with hk
    obtain ⟨i1, i2⟩ := ih h
    unfold mapInsert
    split_ifs with h1
    · simp [mapFind]
    · rw [mapFind, if_neg hk]
      exact ⟨i1, by simp [i2]⟩

/-- An entry of the map after `erase` is an entry of the map before. -/
theorem mapErase_mem {α : Type} (k : Int) (m : List (Int × α)) (e : Int × α)
    (h : e ∈ mapErase k m) : e ∈ m := by
  induction m with
  | nil => simp [mapErase] at h
  | cons a rest ih =>
    unfold mapErase at h
    split_ifs at h with hk
    · exact List.mem_cons_of_mem _ h
    · rcases List.mem_cons.mp h with h | h
      · rw [h]
        exact List.mem_cons_self _ _
      · exact List.mem_cons_of_mem _ (ih h)

/-- The call `erase` keeps the keys strictly ascending. -/
theorem mapErase_sorted {α : Type} (k : Int) (m : List (Int × α))
    (hs : m.Pairwise (fun a b => a.1 < b.1)) :
    (mapErase k m).Pairwise (fun a b => a.1 < b.1) := by
  induction m with
  | nil => simp [mapErase]
  | cons a rest ih =>
    have hs' := List.pairwise_cons.mp hs
    unfold mapErase
    split_ifs with hk
    · exact hs'.2
    · exact List.pairwise_cons.mpr ⟨fun b hb => hs'.1 b (mapErase_mem k rest b hb), ih hs'.2⟩

/-- After `erase` nothing is found under the erased key, in a map with strictly ascending
keys. -/
theorem mapFind_mapErase_self {α : Type} (k : Int) (m : List (Int × α))
    (hs : m.Pairwise (fun a b => a.1 < b.1)) : mapFind (mapErase k m) k = none := by
  induction m with
  | nil => simp [mapErase, mapFind]
  | cons a rest ih =>
    have hs' := List.pairwise_cons.mp hs
    unfold mapErase
    split_ifs with hk
    · rw [mapFind_eq_none_iff]
      intro hmem
      obtain ⟨b, hb, hbk⟩ := List.mem_map.mp hmem
      have := hs'.1 b hb
      omega
    · rw [mapFind, if_neg hk]
      exact ih hs'.2

/-- The lookup under another key is not affected by `erase`. -/
theorem mapFind_mapErase_ne {α : Type} (k k' : Int) (m : List (Int × α)) (hne : k' ≠ k) :
    mapFind (mapErase k m) k' = mapFind m k' := by
  induction m with
  | nil => simp [mapErase]
  | cons a rest ih =>
    unfold mapErase
    split_ifs with hk
    · rw [mapFind, if_neg (by omega)]
    · rw [mapFind, mapFind, ih]

/-- The scan of `Universe::subdivideCells` finds nothing when no Cell is pending. -/
theorem firstPending_none (cells : List (Int × Cell K))
    (h : ∀ e ∈ cells, ¬ (e.2.type = cellType.MATERIAL ∧
      (e.2.num_rings > 0 ∨ e.2.num_sectors > 0))) :
    Universe.firstPending cells = none := by
  induction cells with
  | nil => rfl
  | cons a rest ih =>
    unfold Universe.firstPending
    rw [if_neg (h a (List.mem_cons_self _ _))]
    exact ih (fun e he => h e (List.mem_cons_of_mem _ he))

/-- The scan of `Universe::subdivideCells` finds the pending Cell when there is exactly
one. -/
theorem firstPending_unique (cells : List (Int × Cell K)) (entry : Int × Cell K)
    (hm : entry ∈ cells)
    (hp : entry.2.type = cellType.MATERIAL ∧
      (entry.2.num_rings > 0 ∨ entry.2.num_sectors > 0))
    (ho : ∀ e ∈ cells, e ≠ entry → ¬ (e.2.type = cellType.MATERIAL ∧
      (e.2.num_rings > 0 ∨ e.2.num_sectors > 0))) :
    Universe.firstPending cells = some entry := by
  induction cells with
  | nil => simp at hm
  | cons a rest ih =>
    unfold Universe.firstPending
    by_cases ha : a = entry
    · rw [ha, if_pos hp]
    · rw [if_neg (ho a (List.mem_cons_self _ _) ha)]
      rcases List.mem_cons.mp hm with h | h
      · exact absurd h.symm ha
      · exact ih h (fun e he => ho e (List.mem_cons_of_mem _ he))

/-- The registry after the loop `for (iter2 ...) addCell(*iter2)` of
`Universe::subdivideCells` over new Cells with pairwise distinct ids that are not yet keys:
the keys stay strictly ascending, every new Cell is stored under its id, every other
lookup is unchanged, and an entry is an old entry or a new Cell. -/
theorem addCells_fold (newcells : List (Cell K)) :
    ∀ (u : Universe K), u.cells.Pairwise (fun a b => a.1 < b.1) →
      newcells.Pairwise (fun a b => a.id ≠ b.id) →
      (∀ s ∈ newcells, mapFind u.cells s.id = none) →
      (newcells.foldl (fun w cell => w.addCell cell) u).cells.Pairwise
          (fun a b => a.1 < b.1) ∧
      (∀ s ∈ newcells,
        mapFind (newcells.foldl (fun w cell => w.addCell cell) u).cells s.id = some s) ∧
      (∀ k, (∀ s ∈ newcells, s.id ≠ k) →
        mapFind (newcells.foldl (fun w cell => w.addCell cell) u).cells k
          = mapFind u.cells k) ∧
      (∀ e ∈ (newcells.foldl (fun w cell => w.addCell cell) u).cells,
        e ∈ u.cells ∨ ∃ s ∈ newcells, e = (s.id, s)) := by
  induction newcells with
  | nil =>
    intro u hs _ _
    exact ⟨hs, by simp, fun k _ => rfl, fun e he => Or.inl he⟩
  | cons s rest ih =>
    intro u hs hd hf
    rw [List.pairwise_cons] at hd
    have hs1 : (u.addCell s).cells.Pairwise (fun a b => a.1 < b.1) :=
      mapInsert_sorted s.id s u.cells hs
    have hf1 : ∀ t ∈ rest, mapFind (u.addCell s).cells t.id = none := by
      intro t ht
      have hne : t.id ≠ s.id := fun h => hd.1 t ht h.symm
      simp only [Universe.addCell]
      rw [mapFind_mapInsert_ne s.id t.id s u.cells hne]
      exact hf t (List.mem_cons_of_mem _ ht)
    obtain ⟨i1, i2, i3, i4⟩ := ih (u.addCell s) hs1 hd.2 hf1
    simp only [List.foldl_cons]
    refine ⟨i1, ?_, ?_, ?_⟩
    · intro t ht
      rcases List.mem_cons.mp ht with rfl | ht
      · rw [i3 t.id (fun r hr h => hd.1 r hr h.symm)]
        exact (mapInsert_absent t.id t u.cells (hf t (List.mem_cons_self _ _))).1
      · exact i2 t ht
    · intro k hk
      rw [i3 k (fun r hr => hk r (List.mem_cons_of_mem _ hr))]
      simp only [Universe.addCell]
      exact mapFind_mapInsert_ne s.id k s u.cells
        (fun h => hk s (List.mem_cons_self _ _) h.symm)
    · intro e he
      rcases i4 e he with h | ⟨t, ht, h⟩
      · rcases mapInsert_mem s.id s u.cells e h with h | h
        · exact Or.inr ⟨s, List.mem_cons_self _ _, h⟩
        · exact Or.inl h
      · exact Or.inr ⟨t, List.mem_cons_of_mem _ ht, h⟩

/-- A successful `Lattice::setLatticeCells` leaves the declared counts and the declared
grid with `NULL` pointers. -/
theorem setLatticeCells_ok (l m : Lattice K) (num_x num_y : Int) (ids : Int → Int)
    (h : l.setLatticeCells num_x num_y ids = .ok m) :
    m = { l with
      num_x := num_x,
      num_y := num_y,
      universes := (List.range num_y.toNat).map (fun (i : Nat) =>
        (List.range num_x.toNat).map (fun (j : Nat) =>
          (ids ((num_y - 1 - (i : Int)) * num_x + (j : Int)), none))) } := by
  unfold Lattice.setLatticeCells at h
  cases hm : (List.range l.num_x.toNat).mapM (fun (i : Nat) => vectorAt l.universes (i : Int)) with
  | error e =>
    rw [hm] at h
    cases h
  | ok a =>
    rw [hm] at h
    cases h
    rfl

/-- The inner loop of `Lattice::setUniversePointer` on a row of the declared length. -/
theorem setRowPointer_eq (univ : UniversePtr) :
    ∀ (n : Nat) (row : List (Int × Option UniversePtr)), row.length = n →
      Lattice.setRowPointer univ n row
        = .ok (row.map (fun e => if e.1 = univ.id then (e.1, some univ) else e)) := by
  intro n
  induction n with
  | zero =>
    intro row h
    rw [List.length_eq_zero.mp h]
    rfl
  | succ n ih =>
    intro row h
    cases row with
    | nil => simp at h
    | cons e rest =>
      rw [Lattice.setRowPointer, ih rest (by simpa using h)]
      rfl

/-- The outer loop of `Lattice::setUniversePointer` on a grid of the declared shape. -/
theorem setRowsPointer_eq (univ : UniversePtr) (num_x : Nat) :
    ∀ (n : Nat) (rows : List (List (Int × Option UniversePtr))), rows.length = n →
      (∀ row ∈ rows, row.length = num_x) →
      Lattice.setRowsPointer univ num_x n rows
        = .ok (rows.map (fun row =>
            row.map (fun e => if e.1 = univ.id then (e.1, some univ) else e))) := by
  intro n
  induction n with
  | zero =>
    intro rows h _
    rw [List.length_eq_zero.mp h]
    rfl
  | succ n ih =>
    intro rows h hc
    cases rows with
    | nil => simp at h
    | cons row rest =>
      rw [Lattice.setRowsPointer,
        setRowPointer_eq univ num_x row (hc row (List.mem_cons_self _ _)),
        ih rest (by simpa using h) (fun r hr => hc r (List.mem_cons_of_mem _ hr))]
      rfl

/-- `Lattice::setUniversePointer` on a Lattice whose grid has the declared shape. -/
theorem setUniversePointer_eq (l : Lattice K) (univ : UniversePtr)
    (hrows : l.universes.length = l.num_y.toNat)
    (hcols : ∀ row ∈ l.universes, row.length = l.num_x.toNat) :
    l.setUniversePointer univ
      = .ok { l with universes := l.universes.map (fun row =>
          row.map (fun e => if e.1 = univ.id then (e.1, some univ) else e)) } := by
  unfold Lattice.setUniversePointer
  rw [setRowsPointer_eq univ l.num_x.toNat l.num_y.toNat l.universes hrows hcols]
  rfl

/-- The calls `setUniversePointer` for a list of universes on a Lattice whose grid has the
declared shape: every entry goes through the updates of the single calls, in order. -/
theorem setUniversePointers_eq (ps : List UniversePtr) :
    ∀ (l : Lattice K), l.universes.length = l.num_y.toNat →
      (∀ row ∈ l.universes, row.length = l.num_x.toNat) →
      l.setUniversePointers ps
        = .ok { l with universes := l.universes.map (fun row => row.map (fun e =>
            ps.foldl (fun a p => if a.1 = p.id then (a.1, some p) else a) e)) } := by
  induction ps with
  | nil =>
    intro l _ _
    simp [Lattice.setUniversePointers]
  | cons p rest ih =>
    intro l hrows hcols
    rw [Lattice.setUniversePointers, setUniversePointer_eq l p hrows hcols]
    simp only []
    rw [ih _ (by simpa using hrows) (by
      intro row hrow
      simp only [List.mem_map] at hrow
      obtain ⟨r, hr, rfl⟩ := hrow
      simpa using hcols r hr)]
    simp [List.map_map, Function.comp_def]

/-- The updates of a list of calls `setUniversePointer` keep the declared id of an entry,
and keep a pointer to a universe with the declared id once it is set. -/
theorem bindAll_bound (ps : List UniversePtr) :
    ∀ (e : Int × Option UniversePtr), (∃ q, e.2 = some q ∧ q.id = e.1) →
      (ps.foldl (fun a p => if a.1 = p.id then (a.1, some p) else a) e).1 = e.1 ∧
      ∃ q, (ps.foldl (fun a p => if a.1 = p.id then (a.1, some p) else a) e).2 = some q ∧
        q.id = e.1 := by
  induction ps with
  | nil =>
    intro e h
    exact ⟨rfl, h⟩
  | cons p rest ih =>
    intro e h
    simp only [List.foldl_cons]
    by_cases hp : e.1 = p.id
    · rw [if_pos hp]
      obtain ⟨h1, q, h2, h3⟩ := ih (e.1, some p) ⟨p, rfl, hp.symm⟩
      exact ⟨h1, q, h2, h3⟩
    · rw [if_neg hp]
      exact ih e h

/-- The updates of a list of calls `setUniversePointer` keep the declared id of an entry,
and set a pointer to a universe with the declared id when the list has one. -/
theorem bindAll_covered (ps : List UniversePtr) :
    ∀ (e : Int × Option UniversePtr),
      (ps.foldl (fun a p => if a.1 = p.id then (a.1, some p) else a) e).1 = e.1 ∧
      ((∃ p ∈ ps, p.id = e.1) →
        ∃ q, (ps.foldl (fun a p => if a.1 = p.id then (a.1, some p) else a) e).2 = some q ∧
          q.id = e.1) := by
  induction ps with
  | nil =>
    intro e
    exact ⟨rfl, fun h => by simp at h⟩
  | cons p rest ih =>
    intro e
    simp only [List.foldl_cons]
    by_cases hp : e.1 = p.id
    · rw [if_pos hp]
      obtain ⟨h1, q, h2, h3⟩ := bindAll_bound rest (e.1, some p) ⟨p, rfl, hp.symm⟩
      exact ⟨h1, fun _ => ⟨q, h2, h3⟩⟩
    · rw [if_neg hp]
      obtain ⟨h1, h2⟩ := ih e
      refine ⟨h1, fun h => h2 ?_⟩
      obtain ⟨q, hq, hqe⟩ := h
      rcases List.mem_cons.mp hq with rfl | hq
      · exact absurd hqe.symm hp
      · exact ⟨q, hq, hqe⟩

/-- The inner loop of `Lattice::getNestedUniverseIds` on a row of the declared length whose
entries all point to a universe with the declared id: the declared ids of the row. -/
theorem rowUniverseIds_eq :
    ∀ (n : Nat) (row : List (Int × Option UniversePtr)), row.length = n →
      (∀ e ∈ row, ∃ q, e.2 = some q ∧ q.id = e.1) →
      Lattice.rowUniverseIds n row = .ok (row.map Prod.fst) := by
  intro n
  induction n with
  | zero =>
    intro row h _
    rw [List.length_eq_zero.mp h]
    rfl
  | succ n ih =>
    intro row h hb
    cases row with
    | nil => simp at h
    | cons e rest =>
      obtain ⟨q, hq, hqe⟩ := hb e (List.mem_cons_self _ _)
      rw [Lattice.rowUniverseIds]
      simp only [hq]
      rw [ih rest (by simpa using h) (fun a ha => hb a (List.mem_cons_of_mem _ ha)), hqe]
      rfl

/-- The outer loop of `Lattice::getNestedUniverseIds` on a grid of the declared shape whose
entries all point to a universe with the declared id: the declared ids, row after row. -/
theorem rowsUniverseIds_eq (num_x : Nat) :
    ∀ (n : Nat) (rows : List (List (Int × Option UniversePtr))), rows.length = n →
      (∀ row ∈ rows, row.length = num_x ∧ ∀ e ∈ row, ∃ q, e.2 = some q ∧ q.id = e.1) →
      Lattice.rowsUniverseIds num_x n rows
        = .ok (rows.map (fun row => row.map Prod.fst)).flatten := by
  intro n
  induction n with
  | zero =>
    intro rows h _
    rw [List.length_eq_zero.mp h]
    rfl
  | succ n ih =>
    intro rows h hb
    cases rows with
    | nil => simp at h
    | cons row rest =>
      obtain ⟨h1, h2⟩ := hb row (List.mem_cons_self _ _)
      rw [Lattice.rowsUniverseIds, rowUniverseIds_eq num_x row h1 h2,
        ih rest (by simpa using h) (fun r hr => hb r (List.mem_cons_of_mem _ hr))]
      rfl

/-- The row-major list of a grid given by a function of the row and the column: its length
and its element at the position `i * num_x + j`. -/
theorem flatten_grid {α : Type} (f : Nat → Nat → α) (num_x : Nat) :
    ∀ num_y : Nat,
      ((List.range num_y).map (fun i => (List.range num_x).map (f i))).flatten.length
        = num_y * num_x ∧
      ∀ i j : Nat, i < num_y → j < num_x →
        ((List.range num_y).map (fun i => (List.range num_x).map (f i))).flatten[
          i * num_x + j]? = some (f i j) := by
  intro num_y
  induction num_y with
  | zero => simp
  | succ n ih =>
    obtain ⟨hl, hi⟩ := ih
    rw [List.range_succ, List.map_append, List.flatten_append]
    simp only [List.map_cons, List.map_nil, List.flatten_cons, List.flatten_nil,
      List.append_nil]
    constructor
    · rw [List.length_append, hl]
      simp
      ring
    · intro i j hin hj
      by_cases hlt : i < n
      · have hb : i * num_x + j < n * num_x := by
          have : (i + 1) * num_x ≤ n * num_x := Nat.mul_le_mul_right _ hlt
          have e : (i + 1) * num_x = i * num_x + num_x := by ring
          omega
        rw [List.getElem?_append_left (by rw [hl]; exact hb)]
        exact hi i j hlt hj
      · have hin2 : i = n := by omega
        subst hin2
        rw [List.getElem?_append_right (by rw [hl]; omega), hl]
        simp [List.getElem?_map, List.getElem?_range hj]

/-- The index computation shared by `getLatX` and `getLatY`, for a distance `d` to the low
edge that lies strictly inside cell `i` of `n` cells of width `w`, the threshold being at
most the cell width: the index is `i`. -/
theorem clamp_of_cell {thresh w d : K} {n i : Int} (hw : 0 < w) (htw : thresh ≤ w)
    (hi0 : 0 ≤ i) (hi1 : i < n) (h0 : i * w < d) (h1 : d < (i + 1) * w) :
    (if |d| < thresh then Except.ok 0
      else if |d - n * w| < thresh then Except.ok (n - 1)
      else if ⌊d / w⌋ < 0 ∨ ⌊d / w⌋ > n - 1 then Except.error Error.latticeBounds
      else Except.ok ⌊d / w⌋) = Except.ok i := by
  have hfloor : ⌊d / w⌋ = i := by
    rw [Int.floor_eq_iff]
    constructor
    · rw [le_div_iff₀ hw]
      exact h0.le
    · rw [div_lt_iff₀ hw]
      exact h1
  have hiK : (0 : K) ≤ i := by exact_mod_cast hi0
  have hd : 0 < d := lt_of_le_of_lt (mul_nonneg hiK hw.le) h0
  split_ifs with c1 c2 c3
  · rw [abs_of_pos hd] at c1
    by_contra hne
    have h1i : (1 : K) ≤ i := by
      have : 1 ≤ i := by
        by_contra hlt
        apply hne
        have : i = 0 := by omega
        rw [this]
      exact_mod_cast this
    have : w ≤ i * w := le_mul_of_one_le_left hw.le h1i
    linarith
  · by_contra hne
    have hin : (i : K) + 1 ≤ n - 1 := by
      have : i + 1 ≤ n - 1 := by
        by_contra hlt
        apply hne
        have : i = n - 1 := by omega
        rw [this]
      exact_mod_cast this
    have hm : (i + 1) * w ≤ (n - 1) * w := mul_le_mul_of_nonneg_right hin hw.le
    rw [abs_lt] at c2
    linarith [c2.1]
  · rw [hfloor] at c3
    omega
  · rw [hfloor]

/-- `Lattice::getLatX` for a point strictly inside column `i`, the threshold being at most
the cell width. -/
theorem getLatX_of_cell (thresh : K) (l : Lattice K) (p : Point K) (i : Int)
    (hw : 0 < l.width_x) (htw : thresh ≤ l.width_x) (hi0 : 0 ≤ i) (hi1 : i < l.num_x)
    (h0 : i * l.width_x - l.width_x * l.num_x / 2 + l.offset.x < p.x)
    (h1 : p.x < (i + 1) * l.width_x - l.width_x * l.num_x / 2 + l.offset.x) :
    l.getLatX thresh p = .ok i := by
  have e : p.x + l.width_x * l.num_x / 2 - l.offset.x
      = p.x + l.num_x * l.width_x / 2 - l.offset.x := by ring
  unfold Lattice.getLatX
  simp only [e]
  exact clamp_of_cell hw htw hi0 hi1 (by linarith) (by linarith)

/-- `Lattice::getLatY` for a point strictly inside row `j`, the threshold being at most the
cell width. -/
theorem getLatY_of_cell (thresh : K) (l : Lattice K) (p : Point K) (j : Int)
    (hw : 0 < l.width_y) (htw : thresh ≤ l.width_y) (hj0 : 0 ≤ j) (hj1 : j < l.num_y)
    (h0 : j * l.width_y - l.width_y * l.num_y / 2 + l.offset.y < p.y)
    (h1 : p.y < (j + 1) * l.width_y - l.width_y * l.num_y / 2 + l.offset.y) :
    l.getLatY thresh p = .ok j := by
  have e : p.y + l.width_y * l.num_y / 2 - l.offset.y
      = p.y + l.num_y * l.width_y / 2 - l.offset.y := by ring
  unfold Lattice.getLatY
  simp only [e]
  have := @clamp_of_cell K _ _ thresh l.width_y (p.y + l.num_y * l.width_y / 2 - l.offset.y)
    l.num_y j hw htw hj0 hj1 (by linarith) (by linarith)
  simpa [e] using this

/-- The straight-line distance of the row crossing in `Lattice::minSurfaceDist`: over the
reals, `sqrt(a^2 + (tan(angle) * a)^2)` is `|a| / |cos(angle)|`. -/
theorem dist_row_eq (a angle : ℝ) (hc : Real.cos angle ≠ 0) :
    Real.sqrt (|a| ^ 2 + |Real.tan angle * a| ^ 2) = |a| / |Real.cos angle| := by
  have h : |a| ^ 2 + |Real.tan angle * a| ^ 2 = (a / Real.cos angle) ^ 2 := by
    rw [sq_abs, sq_abs, Real.tan_eq_sin_div_cos]
    have hs := Real.sin_sq_add_cos_sq angle
    field_simp
    linear_combination a ^ 2 * hs
  rw [h, Real.sqrt_sq_eq_abs, abs_div]

/-- The straight-line distance of the column crossing in `Lattice::minSurfaceDist`: over
the reals, `sqrt((b / tan(angle))^2 + b^2)` is `|b| / |sin(angle)|`. -/
theorem dist_col_eq (b angle : ℝ) (hs : Real.sin angle ≠ 0) :
    Real.sqrt (|b / Real.tan angle| ^ 2 + |b| ^ 2) = |b| / |Real.sin angle| := by
  have h : |b / Real.tan angle| ^ 2 + |b| ^ 2 = (b / Real.sin angle) ^ 2 := by
    rw [sq_abs, sq_abs, Real.tan_eq_sin_div_cos]
    have hcs := Real.sin_sq_add_cos_sq angle
    field_simp
    linear_combination b ^ 2 * hcs
  rw [h, Real.sqrt_sq_eq_abs, abs_div]

/-- `Lattice::minSurfaceDist` over the reals, in terms of the lattice indices that
`getLatX` and `getLatY` return. -/
theorem minSurfaceDist_of_indices (thresh : ℝ) (l : Lattice ℝ) (p : Point ℝ) (angle : ℝ)
    (i j : Int) (hi : l.getLatX thresh p = .ok i) (hj : l.getLatY thresh p = .ok j)
    (hc : Real.cos angle ≠ 0) (hs : 0 < Real.sin angle) :
    l.minSurfaceDist thresh Real.pi Real.tan Real.sqrt p angle
      = .ok (min
          (|(if angle < Real.pi / 2
              then (i + 1) * l.width_x - l.width_x * l.num_x / 2 + l.offset.x
              else i * l.width_x - l.width_x * l.num_x / 2 + l.offset.x) - p.x|
            / |Real.cos angle|)
          (|(j + 1) * l.width_y - l.width_y * l.num_y / 2 + l.offset.y - p.y|
            / Real.sin angle)) := by
  unfold Lattice.minSurfaceDist
  simp only [hi, hj, bind, Except.bind, pure, Except.pure]
  have e1 : ∀ a : ℝ, p.y + Real.tan angle * a - p.y = Real.tan angle * a := by
    intro a
    ring
  have e2 : ∀ b : ℝ, p.x + b / Real.tan angle - p.x = b / Real.tan angle := by
    intro b
    ring
  rw [e1, e2, dist_row_eq _ angle hc, dist_col_eq _ angle hs.ne', abs_of_pos hs]

/-- The call `insert` under a key that the map does not have adds one entry, up to the
order of the entries. -/
theorem mapInsert_perm {α : Type} (k : Int) (v : α) (m : List (Int × α))
    (h : mapFind m k = none) : (mapInsert k v m).Perm ((k, v) :: m) := by
  induction m with
  | nil => simp [mapInsert]
  | cons a rest ih =>
    unfold mapFind at h
    split_ifs at h with hk
    unfold mapInsert
    split_ifs with h1
    · exact List.Perm.refl _
    · exact ((ih h).cons a).trans (List.Perm.swap _ _ _)

/-- The loop of `Universe::clone` over MATERIAL type Cells whose copies have pairwise
distinct ids that are not yet keys of the clone: it succeeds, and the registry of the
clone holds the copies next to its earlier entries; the ids of the clone are kept. -/
theorem cloneCells_perm (cloneCell : Cell K → Cell K) (cells : List (Int × Cell K)) :
    ∀ (clone : Universe K), (∀ e ∈ cells, e.2.type = cellType.MATERIAL) →
      (cells.map (fun e => (cloneCell e.2).id)).Pairwise (fun a b => a ≠ b) →
      (∀ e ∈ cells, mapFind clone.cells (cloneCell e.2).id = none) →
      ∃ c, Universe.cloneCells cloneCell cells clone = .ok c ∧
        c.cells.Perm
          (cells.map (fun e => ((cloneCell e.2).id, cloneCell e.2)) ++ clone.cells) ∧
        c.id = clone.id ∧ c.uid = clone.uid := by
  induction cells with
  | nil =>
    intro clone _ _ _
    exact ⟨clone, rfl, by simp, rfl, rfl⟩
  | cons a rest ih =>
    intro clone hm hd hf
    rw [List.map_cons, List.pairwise_cons] at hd
    have hf1 : ∀ e ∈ rest,
        mapFind (clone.addCell (cloneCell a.2)).cells (cloneCell e.2).id = none := by
      intro e he
      have hne : (cloneCell e.2).id ≠ (cloneCell a.2).id := by
        intro h
        exact hd.1 (cloneCell e.2).id (List.mem_map.mpr ⟨e, he, rfl⟩) h.symm
      simp only [Universe.addCell]
      rw [mapFind_mapInsert_ne _ _ _ _ hne]
      exact hf e (List.mem_cons_of_mem _ he)
    obtain ⟨c, h1, h2, h3, h4⟩ := ih (clone.addCell (cloneCell a.2))
      (fun e he => hm e (List.mem_cons_of_mem _ he)) hd.2 hf1
    refine ⟨c, ?_, ?_, h3, h4⟩
    · rw [Universe.cloneCells, if_pos (hm a (List.mem_cons_self _ _))]
      exact h1
    · refine h2.trans ?_
      simp only [Universe.addCell, List.map_cons, List.cons_append]
      have hp := mapInsert_perm (cloneCell a.2).id (cloneCell a.2) clone.cells
        (hf a (List.mem_cons_self _ _))
      exact ((List.Perm.append_left _ hp).trans List.perm_middle)

/-- The loop of `Universe::clone` over Cells of which one is not of MATERIAL type fails
with the error of its `log_printf(ERROR, ...)`. -/
theorem cloneCells_fill (cloneCell : Cell K → Cell K) (cells : List (Int × Cell K)) :
    ∀ (clone : Universe K), (∃ e ∈ cells, e.2.type = cellType.FILL) →
      Universe.cloneCells cloneCell cells clone = .error .cloneFillCell := by
  induction cells with
  | nil =>
    intro clone h
    obtain ⟨e, he, -⟩ := h
    simp at he
  | cons a rest ih =>
    intro clone h
    rw [Universe.cloneCells]
    by_cases ha : a.2.type = cellType.MATERIAL
    · rw [if_pos ha]
      apply ih
      obtain ⟨e, he, hf⟩ := h
      rcases List.mem_cons.mp he with rfl | he
      · rw [ha] at hf
        cases hf
      · exact ⟨e, he, hf⟩
    · rw [if_neg ha]

/-- The reduction to 32 bits leaves a value of the 32-bit range as it is. -/
theorem int32_of_range (z : Int) (h0 : -2147483648 ≤ z) (h1 : z ≤ 2147483647) :
    int32 z = z := by
  unfold int32
  omega

/-- The ids returned by `k` calls of `universe_id` that stay below the 32-bit overflow are
the `k` successive integers from the value of `auto_id` before the calls. -/
theorem universe_id_calls_eq :
    ∀ (k : Nat) (a : Int), -2147483648 ≤ a → a + (k : Int) - 1 ≤ 2147483647 →
      (universe_id_calls k a).1 = (List.range k).map (fun (i : Nat) => a + (i : Int)) := by
  intro k
  induction k with
  | zero =>
    intro a _ _
    rfl
  | succ k ih =>
    intro a h0 h1
    rw [universe_id_calls, List.range_succ_eq_map]
    simp only [universe_id, List.map_cons, List.map_map]
    cases k with
    | zero => simp [universe_id_calls]
    | succ k =>
      rw [int32_of_range (a + 1) (by omega) (by push_cast at h1; omega),
        ih (a + 1) (by omega) (by push_cast at h1 ⊢; omega)]
      simp only [Nat.cast_zero, add_zero, List.cons.injEq, true_and]
      apply List.map_congr_left
      intro i _
      simp only [Function.comp, Nat.succ_eq_add_one]
      push_cast
      ring

/-- The index computation shared by `getLatX` and `getLatY`, for a distance `d` to the low
edge with `0 < d < n * w` and a threshold of at most the cell width: `d` lies in the
half-open interval of the selected cell. -/
theorem clamp_half_open {thresh w d : K} {n i : Int} (hw : 0 < w) (htw : thresh ≤ w)
    (h0 : 0 < d) (h1 : d < n * w)
    (hi : (if |d| < thresh then Except.ok 0
          else if |d - n * w| < thresh then Except.ok (n - 1)
          else if ⌊d / w⌋ < 0 ∨ ⌊d / w⌋ > n - 1 then Except.error Error.latticeBounds
          else Except.ok ⌊d / w⌋) = Except.ok i) :
    (i : K) * w ≤ d ∧ d < ((i : K) + 1) * w := by
  split_ifs at hi with c1 c2 c3
  · cases hi
    rw [abs_lt] at c1
    push_cast
    constructor <;> linarith [c1.2]
  · cases hi
    rw [abs_lt] at c2
    push_cast
    constructor <;> linarith [c2.1]
  · cases hi
    have hf1 : (⌊d / w⌋ : K) ≤ d / w := Int.floor_le _
    have hf2 : d / w < ⌊d / w⌋ + 1 := Int.lt_floor_add_one _
    rw [le_div_iff₀ hw] at hf1
    rw [div_lt_iff₀ hw] at hf2
    exact ⟨hf1, hf2⟩

/-- `Lattice::getLatX` for a point strictly inside the x bounds, the threshold being at most
the cell width: the x coordinate lies in the half-open interval of the returned column. -/
theorem getLatX_half_open (thresh : K) (l : Lattice K) (p : Point K) (i : Int)
    (hw : 0 < l.width_x) (htw : thresh ≤ l.width_x)
    (h1 : l.offset.x - l.num_x * l.width_x / 2 < p.x)
    (h2 : p.x < l.offset.x + l.num_x * l.width_x / 2)
    (hi : l.getLatX thresh p = .ok i) :
    (i : K) * l.width_x - l.width_x * l.num_x / 2 + l.offset.x ≤ p.x ∧
      p.x < ((i : K) + 1) * l.width_x - l.width_x * l.num_x / 2 + l.offset.x := by
  have e : p.x + l.width_x * l.num_x / 2 - l.offset.x
      = p.x + l.num_x * l.width_x / 2 - l.offset.x := by ring
  unfold Lattice.getLatX at hi
  simp only [e] at hi
  have h := clamp_half_open hw htw (by linarith) (by linarith) hi
  constructor <;> linarith [h.1, h.2]

/-- `Lattice::getLatY` for a point strictly inside the y bounds, the threshold being at most
the cell width: the y coordinate lies in the half-open interval of the returned row. -/
theorem getLatY_half_open (thresh : K) (l : Lattice K) (p : Point K) (j : Int)
    (hw : 0 < l.width_y) (htw : thresh ≤ l.width_y)
    (h1 : l.offset.y - l.num_y * l.width_y / 2 < p.y)
    (h2 : p.y < l.offset.y + l.num_y * l.width_y / 2)
    (hj : l.getLatY thresh p = .ok j) :
    (j : K) * l.width_y - l.width_y * l.num_y / 2 + l.offset.y ≤ p.y ∧
      p.y < ((j : K) + 1) * l.width_y - l.width_y * l.num_y / 2 + l.offset.y := by
  have e : p.y + l.width_y * l.num_y / 2 - l.offset.y
      = p.y + l.num_y * l.width_y / 2 - l.offset.y := by ring
  unfold Lattice.getLatY at hj
  simp only [e] at hj
  have h := @clamp_half_open K _ _ thresh l.width_y
    (p.y + l.num_y * l.width_y / 2 - l.offset.y) l.num_y j hw htw (by linarith)
    (by linarith) (by simpa [e] using hj)
  constructor <;> linarith [h.1, h.2]

/-- Truncating remainder and division of the cell index `j * n + i` of column `i` and row
`j` in a grid of `n` columns. -/
theorem tmod_tdiv_of_cell {i j n : Int} (hi0 : 0 ≤ i) (hi1 : i < n) (hj0 : 0 ≤ j) :
    Int.tmod (j * n + i) n = i ∧ Int.tdiv (j * n + i) n = j := by
  have hn0 : 0 ≤ n := by omega
  have hc : 0 ≤ j * n + i := add_nonneg (mul_nonneg hj0 hn0) hi0
  rw [Int.tmod_eq_emod hc hn0, Int.tdiv_eq_ediv hc hn0]
  have h := (Int.ediv_emod_unique (a := j * n + i) (q := j) (r := i) (by omega)).mpr
    ⟨by ring, hi0, hi1⟩
  exact ⟨h.2, h.1⟩

/-- Consecutive multiples: an integer multiple `k * w` of a positive width inside the
half-open interval from `i * w` to `(i + 1) * w` is its lower end. -/
theorem grid_line_index {w : K} {i k : Int} (hw : 0 < w) (h0 : (i : K) * w ≤ k * w)
    (h1 : (k : K) * w < ((i : K) + 1) * w) : i = k := by
  have a : (i : K) ≤ k := le_of_mul_le_mul_right h0 hw
  have b : (k : K) < (i : K) + 1 := lt_of_mul_lt_mul_right h1 hw.le
  have a1 : i ≤ k := by exact_mod_cast a
  have b1 : k < i + 1 := by exact_mod_cast b
  omega

/-- The access `v.at(i)` fails only with `std::out_of_range`. -/
theorem vectorAt_error {α : Type} (v : List α) (i : Int) (e : Error)
    (h : vectorAt v i = .error e) : e = Error.outOfRange := by
  unfold vectorAt at h
  split_ifs at h
  · cases h
    rfl
  · split at h
    · cases h
    · cases h
      rfl

/-- A loop of `.at` accesses that reaches an index outside the vector ends in
`std::out_of_range`. -/
theorem mapM_vectorAt_error {α : Type} (v : List α) (idx : List Nat)
    (h : ∃ i ∈ idx, v.length ≤ i) :
    idx.mapM (fun (i : Nat) => vectorAt v (i : Int)) = .error Error.outOfRange := by
  induction idx with
  | nil =>
    obtain ⟨i, hi, -⟩ := h
    simp at hi
  | cons a rest ih =>
    rw [List.mapM_cons]
    cases ha : vectorAt v (a : Int) with
    | error e =>
      rw [vectorAt_error v a e ha]
      rfl
    | ok b =>
      have hrest : ∃ i ∈ rest, v.length ≤ i := by
        obtain ⟨i, hi, hlen⟩ := h
        rcases List.mem_cons.mp hi with rfl | hi
        · exfalso
          unfold vectorAt at ha
          rw [if_neg (by omega)] at ha
          simp only [Int.toNat_ofNat, List.get?_eq_getElem?] at ha
          rw [List.getElem?_eq_none hlen] at ha
          cases ha
        · exact ⟨i, hi, hlen⟩
      rw [ih hrest]
      rfl

/-- The loop of `Universe::clone` over MATERIAL type Cells is the sequence of `addCell`
calls with the copies. -/
theorem cloneCells_eq_fold (cloneCell : Cell K → Cell K) (cells : List (Int × Cell K)) :
    ∀ (clone : Universe K), (∀ e ∈ cells, e.2.type = cellType.MATERIAL) →
      Universe.cloneCells cloneCell cells clone
        = .ok ((cells.map (fun e => cloneCell e.2)).foldl (fun w cell => w.addCell cell)
            clone) := by
  induction cells with
  | nil =>
    intro clone _
    rfl
  | cons a rest ih =>
    intro clone hm
    rw [Universe.cloneCells, if_pos (hm a (List.mem_cons_self _ _)),
      ih _ (fun e he => hm e (List.mem_cons_of_mem _ he))]
    rfl

/-- A sequence of `addCell` calls changes the registry only. -/
theorem addCells_frame (newcells : List (Cell K)) :
    ∀ (u : Universe K),
      (newcells.foldl (fun w cell => w.addCell cell) u).uid = u.uid ∧
      (newcells.foldl (fun w cell => w.addCell cell) u).id = u.id ∧
      (newcells.foldl (fun w cell => w.addCell cell) u).type = u.type ∧
      (newcells.foldl (fun w cell => w.addCell cell) u).fissionable = u.fissionable := by
  induction newcells with
  | nil =>
    intro u
    exact ⟨rfl, rfl, rfl, rfl⟩
  | cons s rest ih =>
    intro u
    simp only [List.foldl_cons]
    obtain ⟨h1, h2, h3, h4⟩ := ih (u.addCell s)
    exact ⟨h1, h2, h3, h4⟩

/-- `Lattice::findCell` on a cursor that already has a next link `n`, for in-range lattice
indices of a bound Lattice cell: the link `n` is taken as it is, only its universe id is
set, and the search goes on from it; after a successful call the next link is still at the
point `n` had before, which is the local point of the query only when `n` was there
already. -/
theorem Lattice.findCell_reused_link (thresh : K) (universes : Int → Option (UniverseObj K))
    (fuel : Nat) (l : Lattice K) (coords n : LocalCoords K) (rest : List (LocalCoords K))
    (i j : Int) (ptr : UniversePtr) (univ : UniverseObj K)
    (hi : l.getLatX thresh coords.point = .ok i) (hj : l.getLatY thresh coords.point = .ok j)
    (hi0 : 0 ≤ i) (hi1 : i < l.num_x) (hj0 : 0 ≤ j) (hj1 : j < l.num_y)
    (hp : l.getUniverse i j = .ok (some ptr)) (hu : universes ptr.id = some univ) :
    Lattice.findCell thresh universes (fuel + 1) l coords (n :: rest)
      = (UniverseObj.findCell thresh universes fuel univ
          { n with universe_id := some ptr.id } rest).map
          (fun r => (r.1,
            { coords with type := some coordType.LAT, lattice := some l.id,
                          lattice_x := some i, lattice_y := some j } :: r.2)) ∧
    (∀ r ch, Lattice.findCell thresh universes (fuel + 1) l coords (n :: rest) = .ok (r, ch) →
      ∃ c0 c1 tl, ch = c0 :: c1 :: tl ∧ c1.point = n.point ∧
        (c1.point = ⟨l.nextX coords.point i, l.nextY coords.point j⟩ ↔
          n.point = ⟨l.nextX coords.point i, l.nextY coords.point j⟩)) := by
  have heq := Lattice.findCell_descend thresh universes fuel l coords (n :: rest) i j ptr
    univ hi hj hi0 hi1 hj0 hj1 hp hu
  simp only [nextCoords, List.tail_cons] at heq
  refine ⟨heq, ?_⟩
  intro r ch h
  rw [heq] at h
  obtain ⟨a, ha, hr⟩ := except_map_eq_ok _ _ _ h
  obtain ⟨r1, ch1⟩ := a
  obtain ⟨c, tl, hch, hpt⟩ := UniverseObj.findCell_keeps_head thresh universes fuel univ
    _ rest r1 ch1 ha
  simp only [Prod.mk.injEq] at hr
  have hpt1 : c.point = n.point := hpt
  refine ⟨{ coords with type := some coordType.LAT, lattice := some l.id,
                        lattice_x := some i, lattice_y := some j }, c, tl, ?_, hpt1, ?_⟩
  · rw [← hr.2, hch]
  · rw [hpt1]

/-- The test of `Universe::subdivideCells`, spelled out. -/
theorem pending_iff (c : Cell K) :
    c.pending = true ↔
      (c.type = cellType.MATERIAL ∧ (c.num_rings > 0 ∨ c.num_sectors > 0)) := by
  unfold Cell.pending
  exact decide_eq_true_iff

/-- The scan of `Universe::subdivideCells` stops at a registered Cell that passes the
test. -/
theorem firstPending_some (cells : List (Int × Cell K)) (entry : Int × Cell K)
    (h : Universe.firstPending cells = some entry) :
    entry ∈ cells ∧ entry.2.pending = true := by
  induction cells with
  | nil => simp [Universe.firstPending] at h
  | cons a rest ih =>
    unfold Universe.firstPending at h
    split_ifs at h with hp
    · cases h
      exact ⟨List.mem_cons_self _ _, (pending_iff _).mpr hp⟩
    · obtain ⟨h1, h2⟩ := ih h
      exact ⟨List.mem_cons_of_mem _ h1, h2⟩

/-- The scan of `Universe::subdivideCells` finds nothing only when no Cell passes the
test. -/
theorem firstPending_eq_none (cells : List (Int × Cell K))
    (h : Universe.firstPending cells = none) : ∀ e ∈ cells, e.2.pending = false := by
  induction cells with
  | nil => simp
  | cons a rest ih =>
    unfold Universe.firstPending at h
    split_ifs at h with hp
    intro e he
    rcases List.mem_cons.mp he with rfl | he
    · cases hb : e.2.pending with
      | false => rfl
      | true => exact absurd ((pending_iff _).mp hb) hp
    · exact ih h e he

/-- Inserting a Cell that does not pass the test leaves the number of pending Cells. -/
theorem countP_mapInsert (k : Int) (v : Cell K) (m : List (Int × Cell K))
    (hv : v.pending = false) :
    (mapInsert k v m).countP (fun e => e.2.pending) = m.countP (fun e => e.2.pending) := by
  induction m with
  | nil => simp [mapInsert, hv]
  | cons a rest ih =>
    unfold mapInsert
    split_ifs with h1 h2
    · simp [List.countP_cons, hv]
    · rfl
    · simp only [List.countP_cons, ih]

/-- A sequence of `addCell` calls with Cells that do not pass the test leaves the number of
pending Cells. -/
theorem numPending_addCells (newcells : List (Cell K)) :
    ∀ (u : Universe K), (∀ s ∈ newcells, s.pending = false) →
      (newcells.foldl (fun w cell => w.addCell cell) u).numPending = u.numPending := by
  induction newcells with
  | nil =>
    intro u _
    rfl
  | cons s rest ih =>
    intro u h
    simp only [List.foldl_cons]
    rw [ih (u.addCell s) (fun t ht => h t (List.mem_cons_of_mem _ ht))]
    unfold Universe.numPending Universe.addCell
    exact countP_mapInsert s.id s u.cells (h s (List.mem_cons_self _ _))

/-- Erasing the entry of a pending Cell lowers the number of pending Cells by one. -/
theorem countP_mapErase (k : Int) (c : Cell K) (m : List (Int × Cell K))
    (hf : mapFind m k = some c) (hc : c.pending = true) :
    (mapErase k m).countP (fun e => e.2.pending) + 1 = m.countP (fun e => e.2.pending) := by
  induction m with
  | nil => simp [mapFind] at hf
  | cons a rest ih =>
    unfold mapFind at hf
    unfold mapErase
    split_ifs at hf with hk
    · cases hf
      rw [if_pos hk]
      simp [List.countP_cons, hc]
    · rw [if_neg hk]
      simp only [List.countP_cons]
      have := ih hf
      omega

/-- Two entries of a registry with strictly ascending keys that have the same key are
equal. -/
theorem sorted_key_unique {α : Type} (m : List (Int × α))
    (hs : m.Pairwise (fun a b => a.1 < b.1)) (a b : Int × α) (ha : a ∈ m) (hb : b ∈ m)
    (hk : a.1 = b.1) : a = b := by
  have h1 := mapFind_of_mem m a.1 a.2 hs ha
  have h2 := mapFind_of_mem m b.1 b.2 hs hb
  rw [hk, h2] at h1
  cases a with
  | mk a1 a2 =>
    cases b with
    | mk b1 b2 =>
      simp only [] at hk h1
      cases h1
      rw [hk]

/-- `Universe::subdivideCells` on a registry with strictly ascending keys in which every
pending Cell yields new Cells that are not pending, the ids of all new Cells being
pairwise distinct and none of them a key of the registry: with one pass per pending Cell
and one more, the method ends.  Every entry of the final registry is an entry that was
not pending or a new Cell under its id; the entries that were not pending are unchanged
and every new Cell is stored. -/
theorem subdivideCells_all (subdivideCell : Cell K → List (Cell K)) :
    ∀ (k : Nat) (u : Universe K) (fuel : Nat),
      u.numPending = k → k + 1 ≤ fuel →
      u.cells.Pairwise (fun a b => a.1 < b.1) →
      (∀ p ∈ u.cells, p.2.pending = true → ∀ s ∈ subdivideCell p.2, s.pending = false) →
      (∀ p ∈ u.cells, p.2.pending = true →
        (subdivideCell p.2).Pairwise (fun a b => a.id ≠ b.id)) →
      (∀ p ∈ u.cells, p.2.pending = true → ∀ q ∈ u.cells, q.2.pending = true →
        p.1 ≠ q.1 →
        ∀ s ∈ subdivideCell p.2, ∀ t ∈ subdivideCell q.2, s.id ≠ t.id) →
      (∀ p ∈ u.cells, p.2.pending = true →
        ∀ s ∈ subdivideCell p.2, s.id ∉ u.cells.map Prod.fst) →
      ∃ v, Universe.subdivideCells subdivideCell fuel u = .ok v ∧
        v.cells.Pairwise (fun a b => a.1 < b.1) ∧
        (∀ e ∈ v.cells, (e ∈ u.cells ∧ e.2.pending = false) ∨
          ∃ p ∈ u.cells, p.2.pending = true ∧ ∃ s ∈ subdivideCell p.2, e = (s.id, s)) ∧
        (∀ e ∈ u.cells, e.2.pending = false → mapFind v.cells e.1 = some e.2) ∧
        (∀ p ∈ u.cells, p.2.pending = true →
          ∀ s ∈ subdivideCell p.2, mapFind v.cells s.id = some s) := by
  intro k
  induction k with
  | zero =>
    intro u fuel hk hfuel hs _ _ _ _
    obtain ⟨f, rfl⟩ : ∃ f, fuel = f + 1 := ⟨fuel - 1, by omega⟩
    have hnone : ∀ e ∈ u.cells, e.2.pending = false := by
      intro e he
      unfold Universe.numPending at hk
      rw [List.countP_eq_zero] at hk
      simpa using hk e he
    have hfirst : Universe.firstPending u.cells = none :=
      firstPending_none u.cells
        (fun e he hp => by
          have := hnone e he
          rw [(pending_iff _).mpr hp] at this
          cases this)
    refine ⟨u, ?_, hs, ?_, ?_, ?_⟩
    · rw [Universe.subdivideCells]
      simp only [hfirst]
    · intro e he
      exact Or.inl ⟨he, hnone e he⟩
    · intro e he _
      exact mapFind_of_mem u.cells e.1 e.2 hs he
    · intro p hp hpp
      rw [hnone p hp] at hpp
      cases hpp
  | succ k ih =>
    intro u fuel hk hfuel hs hsib hdist hcross hfresh
    obtain ⟨f, rfl⟩ : ∃ f, fuel = f + 1 := ⟨fuel - 1, by omega⟩
    cases hfirst : Universe.firstPending u.cells with
    | none =>
      have hnone := firstPending_eq_none u.cells hfirst
      exfalso
      unfold Universe.numPending at hk
      have hz : u.cells.countP (fun e => e.2.pending) = 0 := by
        rw [List.countP_eq_zero]
        intro e he
        simp [hnone e he]
      omega
    | some e =>
      obtain ⟨he, hep⟩ := firstPending_some u.cells e hfirst
      have hfe : mapFind u.cells e.1 = some e.2 := mapFind_of_mem u.cells e.1 e.2 hs he
      have hfresh_e : ∀ s ∈ subdivideCell e.2, mapFind u.cells s.id = none :=
        fun s hs' => (mapFind_eq_none_iff u.cells s.id).mpr (hfresh e he hep s hs')
      obtain ⟨f1, f2, f3, f4⟩ := addCells_fold (subdivideCell e.2) u hs (hdist e he hep)
        hfresh_e
      have hsne : ∀ s ∈ subdivideCell e.2, s.id ≠ e.1 := by
        intro s hs' h
        have := hfresh_e s hs'
        rw [h, hfe] at this
        cases this
      have hwe : mapFind ((subdivideCell e.2).foldl (fun w cell => w.addCell cell) u).cells
          e.1 = some e.2 := by
        rw [f3 e.1 hsne, hfe]
      have hcount : ({ (subdivideCell e.2).foldl (fun w cell => w.addCell cell) u with
          cells := mapErase e.1
            ((subdivideCell e.2).foldl (fun w cell => w.addCell cell) u).cells } :
              Universe K).numPending = k := by
        have h1 := numPending_addCells (subdivideCell e.2) u (hsib e he hep)
        have h2 := countP_mapErase e.1 e.2 _ hwe hep
        unfold Universe.numPending at h1 hk ⊢
        simp only []
        omega
      have hs' := mapErase_sorted e.1
        ((subdivideCell e.2).foldl (fun w cell => w.addCell cell) u).cells f1
      have hself := mapFind_mapErase_self e.1
        ((subdivideCell e.2).foldl (fun w cell => w.addCell cell) u).cells f1
      -- the entries after the pass
      have hent : ∀ x ∈ mapErase e.1
          ((subdivideCell e.2).foldl (fun w cell => w.addCell cell) u).cells,
          x.1 ≠ e.1 ∧ (x ∈ u.cells ∨ ∃ s ∈ subdivideCell e.2, x = (s.id, s)) := by
        intro x hx
        refine ⟨?_, f4 x (mapErase_mem e.1 _ x hx)⟩
        intro hxe
        have := mapFind_of_mem _ x.1 x.2 hs' hx
        rw [hxe, hself] at this
        cases this
      have hpend : ∀ x ∈ mapErase e.1
          ((subdivideCell e.2).foldl (fun w cell => w.addCell cell) u).cells,
          x.2.pending = true → x ∈ u.cells ∧ x.1 ≠ e.1 := by
        intro x hx hxp
        obtain ⟨h1, h2⟩ := hent x hx
        rcases h2 with h2 | ⟨s, hs'', h2⟩
        · exact ⟨h2, h1⟩
        · rw [h2] at hxp
          rw [hsib e he hep s hs''] at hxp
          cases hxp
      have hkeep : ∀ x ∈ u.cells, x.1 ≠ e.1 → x ∈ mapErase e.1
          ((subdivideCell e.2).foldl (fun w cell => w.addCell cell) u).cells := by
        intro x hx hne
        have h1 : mapFind (mapErase e.1
            ((subdivideCell e.2).foldl (fun w cell => w.addCell cell) u).cells) x.1
            = some x.2 := by
          rw [mapFind_mapErase_ne e.1 x.1 _ hne, f3 x.1, mapFind_of_mem u.cells x.1 x.2 hs hx]
          intro s hs'' h
          have := hfresh_e s hs''
          rw [h, mapFind_of_mem u.cells x.1 x.2 hs hx] at this
          cases this
        exact mapFind_mem _ x.1 x.2 h1
      have hnew : ∀ s ∈ subdivideCell e.2, (s.id, s) ∈ mapErase e.1
          ((subdivideCell e.2).foldl (fun w cell => w.addCell cell) u).cells := by
        intro s hs''
        have h1 : mapFind (mapErase e.1
            ((subdivideCell e.2).foldl (fun w cell => w.addCell cell) u).cells) s.id
            = some s := by
          rw [mapFind_mapErase_ne e.1 s.id _ (hsne s hs''), f2 s hs'']
        exact mapFind_mem _ s.id s h1
      obtain ⟨v, v1, v2, v3, v4, v5⟩ := ih
        { (subdivideCell e.2).foldl (fun w cell => w.addCell cell) u with
          cells := mapErase e.1
            ((subdivideCell e.2).foldl (fun w cell => w.addCell cell) u).cells }
        f hcount (by omega) hs'
        (fun p hp hpp => hsib p (hpend p hp hpp).1 hpp)
        (fun p hp hpp => hdist p (hpend p hp hpp).1 hpp)
        (fun p hp hpp q hq hqp hne =>
          hcross p (hpend p hp hpp).1 hpp q (hpend q hq hqp).1 hqp hne)
        (by
          intro p hp hpp s hs'' hmem
          obtain ⟨x, hx, hxs⟩ := List.mem_map.mp hmem
          obtain ⟨-, h2⟩ := hent x hx
          rcases h2 with h2 | ⟨t, ht, h2⟩
          · exact hfresh p (hpend p hp hpp).1 hpp s hs''
              (List.mem_map.mpr ⟨x, h2, hxs⟩)
          · rw [h2] at hxs
            exact hcross p (hpend p hp hpp).1 hpp e he hep (hpend p hp hpp).2 s hs'' t ht
              hxs.symm)
      refine ⟨v, ?_, v2, ?_, ?_, ?_⟩
      · rw [Universe.subdivideCells]
        simp only [hfirst]
        exact v1
      · intro x hx
        rcases v3 x hx with ⟨h1, h2⟩ | ⟨p, hp, hpp, s, hs'', hxe⟩
        · rcases (hent x h1).2 with h3 | ⟨s, hs'', h3⟩
          · exact Or.inl ⟨h3, h2⟩
          · exact Or.inr ⟨e, he, hep, s, hs'', h3⟩
        · exact Or.inr ⟨p, (hpend p hp hpp).1, hpp, s, hs'', hxe⟩
      · intro x hx hxp
        have hne : x.1 ≠ e.1 := by
          intro h
          have := sorted_key_unique u.cells hs x e hx he h
          rw [this, hep] at hxp
          cases hxp
        exact v4 x (hkeep x hx hne) hxp
      · intro p hp hpp s hs''
        by_cases hpe : p.1 = e.1
        · have hpeq := sorted_key_unique u.cells hs p e hp he hpe
          rw [hpeq] at hs''
          exact v4 (s.id, s) (hnew s hs'') (hsib e he hep s hs'')
        · exact v5 p (hkeep p hp hpe) hpp s hs''

/-- The distance from a rational number to its rounding to an integer is at most one
half. -/
theorem roundEven_error (r : ℚ) : |(roundEven r : ℚ) - r| ≤ 1 / 2 := by
  have h1 : (⌊r⌋ : ℚ) ≤ r := Int.floor_le r
  have h2 : r < ⌊r⌋ + 1 := Int.lt_floor_add_one r
  unfold roundEven
  rw [abs_le]
  split_ifs with c1 c2 c3
  · constructor <;> linarith
  · push_cast
    constructor <;> linarith
  · constructor <;> linarith
  · push_cast
    constructor <;> linarith

/-- The exponent that `round64` uses: the `e` with `2^e ≤ |q| < 2^(e+1)`. -/
theorem log_two_eq (q : ℚ) (e : Int) (h1 : (2 : ℚ) ^ e ≤ |q|)
    (h2 : |q| < (2 : ℚ) ^ (e + 1)) :
    Int.log 2 |q| = e := by
  have hpos : 0 < |q| := lt_of_lt_of_le (zpow_pos (by norm_num) e) h1
  have a : e ≤ Int.log 2 |q| :=
    (Int.zpow_le_iff_le_log (by norm_num) hpos).mp (by exact_mod_cast h1)
  have b : Int.log 2 |q| < e + 1 :=
    (Int.lt_zpow_iff_log_lt (by norm_num) hpos).mp (by exact_mod_cast h2)
  omega

/-- The value of `round64` from the exponent and the rounded significand. -/
theorem round64_eq (q : ℚ) (e m : Int) (h1 : (2 : ℚ) ^ e ≤ |q|)
    (h2 : |q| < (2 : ℚ) ^ (e + 1)) (hm : roundEven (q / 2 ^ (e - 52)) = m) :
    round64 q = m * 2 ^ (e - 52) := by
  have hpos : 0 < |q| := lt_of_lt_of_le (zpow_pos (by norm_num) e) h1
  have hq : q ≠ 0 := abs_pos.mp hpos
  unfold round64
  rw [if_neg hq, log_two_eq q e h1 h2, hm]

/-- The relative error of `round64` is at most the unit roundoff. -/
theorem round64_error (q : ℚ) : |round64 q - q| ≤ unit64 * |q| := by
  unfold round64 unit64
  by_cases hq : q = 0
  · rw [if_pos hq, hq]
    simp
  · rw [if_neg hq]
    have hpos : 0 < |q| := abs_pos.mpr hq
    have hs : (0 : ℚ) < 2 ^ (Int.log 2 |q| - 52) := zpow_pos (by norm_num) _
    have hle : (2 : ℚ) ^ (Int.log 2 |q|) ≤ |q| := by
      have := Int.zpow_log_le_self (b := 2) (r := |q|) (by norm_num) hpos
      exact_mod_cast this
    have herr := roundEven_error (q / 2 ^ (Int.log 2 |q| - 52))
    have heq : (roundEven (q / 2 ^ (Int.log 2 |q| - 52)) : ℚ) * 2 ^ (Int.log 2 |q| - 52) - q
        = ((roundEven (q / 2 ^ (Int.log 2 |q| - 52)) : ℚ) - q / 2 ^ (Int.log 2 |q| - 52))
          * 2 ^ (Int.log 2 |q| - 52) := by
      field_simp
    rw [heq, abs_mul, abs_of_pos hs]
    have hsplit : (2 : ℚ) ^ (Int.log 2 |q| - 52) = 2 ^ (Int.log 2 |q|) / 2 ^ 52 := by
      rw [zpow_sub₀ (by norm_num)]
      norm_num
    calc |(roundEven (q / 2 ^ (Int.log 2 |q| - 52)) : ℚ) - q / 2 ^ (Int.log 2 |q| - 52)|
          * 2 ^ (Int.log 2 |q| - 52)
        ≤ 1 / 2 * 2 ^ (Int.log 2 |q| - 52) := mul_le_mul_of_nonneg_right herr hs.le
      _ = 1 / 2 ^ 53 * 2 ^ (Int.log 2 |q|) := by
        rw [hsplit]
        ring
      _ ≤ 1 / 2 ^ 53 * |q| := mul_le_mul_of_nonneg_left hle (by norm_num)

/-- Accumulation of four relative rounding errors, of at most `u ≤ 1/16` each, in the
evaluation of `x + W / 2 - off` for `W ≥ 0`: `t1` for `W`, `t2` for `t1 / 2`, `t3` for
`x + t2` and `t4` for `t3 - off`. -/
theorem dist_error_chain {u W x off t1 t2 t3 t4 : K} (hu0 : 0 ≤ u) (hu : u ≤ 1 / 16)
    (hW : 0 ≤ W) (h1 : |t1 - W| ≤ u * |W|) (h2 : |t2 - t1 / 2| ≤ u * |t1 / 2|)
    (h3 : |t3 - (x + t2)| ≤ u * |x + t2|) (h4 : |t4 - (t3 - off)| ≤ u * |t3 - off|) :
    |t1 - W| ≤ u * W ∧ |t4 - (x + W / 2 - off)| ≤ 3 * u * (W + |x| + |off|) := by
  have hP : 0 ≤ u * W := mul_nonneg hu0 hW
  have hQ : 0 ≤ u * |x| := mul_nonneg hu0 (abs_nonneg x)
  have hR : 0 ≤ u * |off| := mul_nonneg hu0 (abs_nonneg off)
  have hPW : u * W ≤ 1 / 16 * W := mul_le_mul_of_nonneg_right hu hW
  have hQx : u * |x| ≤ 1 / 16 * |x| := mul_le_mul_of_nonneg_right hu (abs_nonneg x)
  have hx0 : 0 ≤ |x| := abs_nonneg x
  have e1 : |t1 - W| ≤ u * W := by
    rwa [abs_of_nonneg hW] at h1
  have e1' := abs_le.mp e1
  have b1 : |t1| ≤ 17 / 16 * W :=
    abs_le.mpr ⟨by linarith only [e1'.1, hPW, hW], by linarith only [e1'.2, hPW]⟩
  have a2 : |t1 / 2| ≤ 17 / 32 * W := by
    rw [abs_div, abs_of_pos (by norm_num : (0 : K) < 2)]
    linarith only [b1]
  have e2 : |t2 - t1 / 2| ≤ 17 / 32 * (u * W) := by
    have h' : u * |t1 / 2| ≤ u * (17 / 32 * W) := mul_le_mul_of_nonneg_left a2 hu0
    linarith only [h2, h']
  have e2' := abs_le.mp e2
  have b2 : |t2| ≤ 5 / 8 * W :=
    abs_le.mpr ⟨by linarith only [e1'.1, e2'.1, hPW, hW],
      by linarith only [e1'.2, e2'.2, hPW, hW]⟩
  have a3 : |x + t2| ≤ |x| + 5 / 8 * W :=
    le_trans (abs_add _ _) (by linarith only [b2])
  have e3 : |t3 - (x + t2)| ≤ u * |x| + 5 / 8 * (u * W) := by
    have h' : u * |x + t2| ≤ u * (|x| + 5 / 8 * W) := mul_le_mul_of_nonneg_left a3 hu0
    linarith only [h3, h']
  have e3' := abs_le.mp e3
  have a3' := abs_le.mp a3
  have b3 : |t3| ≤ 17 / 16 * |x| + 85 / 128 * W :=
    abs_le.mpr ⟨by linarith only [e3'.1, a3'.1, hPW, hQx, hW, hx0],
      by linarith only [e3'.2, a3'.2, hPW, hQx, hW, hx0]⟩
  have a4 : |t3 - off| ≤ 17 / 16 * |x| + 85 / 128 * W + |off| :=
    le_trans (abs_sub _ _) (by linarith only [b3])
  have e4 : |t4 - (t3 - off)| ≤ 17 / 16 * (u * |x|) + 85 / 128 * (u * W) + u * |off| := by
    have h' : u * |t3 - off| ≤ u * (17 / 16 * |x| + 85 / 128 * W + |off|) :=
      mul_le_mul_of_nonneg_left a4 hu0
    linarith only [h4, h']
  have e4' := abs_le.mp e4
  refine ⟨e1, abs_le.mpr ⟨?_, ?_⟩⟩
  · linarith only [e1'.1, e2'.1, e3'.1, e4'.1, hP, hQ, hR]
  · linarith only [e1'.2, e2'.2, e3'.2, e4'.2, hP, hQ, hR]

/-- The rounding error of the distance `x + n * w / 2 - offset` to the low edge, as
`getLatX` and `getLatY` evaluate it, for the extent `W = n * w ≥ 0` and a unit roundoff of
at most `1/16`: the product `W` is off by at most `u * W` and the distance by at most
`3 * u * (W + |x| + |offset|)`. -/
theorem fl_dist_error (fl : K → K) (u W x off : K) (hu0 : 0 ≤ u) (hu : u ≤ 1 / 16)
    (hfl : ∀ a, |fl a - a| ≤ u * |a|) (hW : 0 ≤ W) :
    |fl W - W| ≤ u * W ∧
    |fl (fl (x + fl (fl W / 2)) - off) - (x + W / 2 - off)| ≤ 3 * u * (W + |x| + |off|) :=
  dist_error_chain hu0 hu hW (hfl W) (hfl _) (hfl _) (hfl _)

/-- A point inside the bounds of an axis by more than the rounding bound: the rounded
quotient `q` of the rounded distance `D` by the width lies in `[0, n)`, stated as
`0 ≤ q` and `q * w < W` for the extent `W = n * w`. -/
theorem axis_inside {u w W x off T D q : K} (hu0 : 0 ≤ u) (hu : u ≤ 1 / 16) (hw : 0 < w)
    (hW : 0 ≤ W) (hT : 0 ≤ T)
    (hD : |D - (x + W / 2 - off)| ≤ 3 * u * (W + |x| + |off|))
    (hq : |q - D / w| ≤ u * |D / w|)
    (h1 : off - W / 2 + 8 * u * (W + |x| + |off| + T) < x)
    (h2 : x < off + W / 2 - 8 * u * (W + |x| + |off| + T)) :
    0 < D ∧ D ≤ W ∧ 0 ≤ q ∧ q * w < W := by
  have pW : 0 ≤ u * W := mul_nonneg hu0 hW
  have pX : 0 ≤ u * |x| := mul_nonneg hu0 (abs_nonneg x)
  have pO : 0 ≤ u * |off| := mul_nonneg hu0 (abs_nonneg off)
  have pT : 0 ≤ u * T := mul_nonneg hu0 hT
  have hD' := abs_le.mp hD
  have D0' : 0 < D := by linarith only [hD'.1, h1, pW, pX, pO, pT]
  have D1 : D ≤ W := by linarith only [hD'.2, h2, pW, pX, pO, pT]
  have hDw0 : 0 ≤ D / w := div_nonneg D0'.le hw.le
  rw [abs_of_nonneg hDw0] at hq
  have hq' := abs_le.mp hq
  have huD : u * (D / w) ≤ 1 / 16 * (D / w) := mul_le_mul_of_nonneg_right hu hDw0
  refine ⟨D0', D1, by linarith only [hq'.1, huD, hDw0], ?_⟩
  have hqw : q * w ≤ (D / w + u * (D / w)) * w :=
    mul_le_mul_of_nonneg_right (by linarith only [hq'.2]) hw.le
  have e : (D / w + u * (D / w)) * w = D + u * D := by
    field_simp
  have huD1 : u * D ≤ u * W := mul_le_mul_of_nonneg_left D1 hu0
  rw [e] at hqw
  linarith only [hqw, huD1, hD'.2, h2, pW, pX, pO, pT]

/-- A coordinate nearer to the low edge than the threshold less the rounding bound: the
rounded distance is below the threshold. -/
theorem axis_low {u W x off T D : K} (hu0 : 0 ≤ u) (hW : 0 ≤ W) (hT : 0 ≤ T)
    (hD : |D - (x + W / 2 - off)| ≤ 3 * u * (W + |x| + |off|))
    (h : |x - (off - W / 2)| < T - 8 * u * (W + |x| + |off| + T)) : |D| < T := by
  have pW : 0 ≤ u * W := mul_nonneg hu0 hW
  have pX : 0 ≤ u * |x| := mul_nonneg hu0 (abs_nonneg x)
  have pO : 0 ≤ u * |off| := mul_nonneg hu0 (abs_nonneg off)
  have pT : 0 ≤ u * T := mul_nonneg hu0 hT
  have hD' := abs_le.mp hD
  have h' := abs_lt.mp h
  rw [abs_lt]
  constructor
  · linarith only [hD'.1, h'.1, pW, pX, pO, pT]
  · linarith only [hD'.2, h'.2, pW, pX, pO, pT]

/-- A coordinate nearer to the high edge than the threshold less the rounding bound, on an
axis of extent at least twice the threshold: the rounded distance to the low edge is not
below the threshold, and the rounded distance to the high edge is. -/
theorem axis_high {u W x off T D t1 g : K} (hu0 : 0 ≤ u) (hW : 0 ≤ W) (hT : 0 ≤ T)
    (hD : |D - (x + W / 2 - off)| ≤ 3 * u * (W + |x| + |off|))
    (ht1 : |t1 - W| ≤ u * W) (hg : |g - (D - t1)| ≤ u * |D - t1|)
    (h : |x - (off + W / 2)| < T - 8 * u * (W + |x| + |off| + T)) (h2T : 2 * T ≤ W) :
    ¬ |D| < T ∧ |g| < T := by
  have pW : 0 ≤ u * W := mul_nonneg hu0 hW
  have pX : 0 ≤ u * |x| := mul_nonneg hu0 (abs_nonneg x)
  have pO : 0 ≤ u * |off| := mul_nonneg hu0 (abs_nonneg off)
  have pT : 0 ≤ u * T := mul_nonneg hu0 hT
  have hD' := abs_le.mp hD
  have ht1' := abs_le.mp ht1
  have h' := abs_lt.mp h
  constructor
  · rw [not_lt]
    exact le_trans (by linarith only [hD'.1, h'.1, h2T, pW, pX, pO, pT]) (le_abs_self D)
  · have hY : |D - t1| < T - 8 * (u * T) := by
      rw [abs_lt]
      constructor
      · linarith only [hD'.1, ht1'.2, h'.1, pW, pX, pO, pT]
      · linarith only [hD'.2, ht1'.1, h'.2, pW, pX, pO, pT]
    have huY : u * |D - t1| ≤ u * T :=
      mul_le_mul_of_nonneg_left (by linarith only [hY, pT]) hu0
    have hg1 : |g| ≤ |g - (D - t1)| + |D - t1| := by
      have := abs_add (g - (D - t1)) (D - t1)
      simpa using this
    linarith only [hg1, hg, huY, hY, pT]

/-- A coordinate outside the bounds of an axis by more than the threshold plus the rounding
bound: neither rounded distance is below the threshold, and the rounded quotient is
negative or at least `n` (stated as `W ≤ q * w` for the extent `W = n * w`). -/
theorem axis_outside {u w W x off T D t1 g q : K} (hu0 : 0 ≤ u) (hu : u ≤ 1 / 16)
    (hw : 0 < w) (hW : 0 ≤ W) (hT : 0 ≤ T)
    (hD : |D - (x + W / 2 - off)| ≤ 3 * u * (W + |x| + |off|))
    (ht1 : |t1 - W| ≤ u * W) (hg : |g - (D - t1)| ≤ u * |D - t1|)
    (hq : |q - D / w| ≤ u * |D / w|)
    (h : x < off - W / 2 - T - 8 * u * (W + |x| + |off| + T) ∨
      off + W / 2 + T + 8 * u * (W + |x| + |off| + T) < x) :
    ¬ |D| < T ∧ ¬ |g| < T ∧ (q < 0 ∨ W ≤ q * w) := by
  have pW : 0 ≤ u * W := mul_nonneg hu0 hW
  have pX : 0 ≤ u * |x| := mul_nonneg hu0 (abs_nonneg x)
  have pO : 0 ≤ u * |off| := mul_nonneg hu0 (abs_nonneg off)
  have pT : 0 ≤ u * T := mul_nonneg hu0 hT
  have puT : u * (u * T) ≤ 1 / 16 * (u * T) := mul_le_mul_of_nonneg_right hu pT
  have puW : u * (u * W) ≤ 1 / 16 * (u * W) := mul_le_mul_of_nonneg_right hu pW
  have h1u : 0 ≤ 1 - u := by linarith only [hu]
  have hD' := abs_le.mp hD
  have ht1' := abs_le.mp ht1
  have hg' := abs_le.mp hg
  have hq' := abs_le.mp hq
  rcases h with h | h
  · -- below the low edge
    have DT : D < -T := by linarith only [hD'.2, h, pW, pX, pO, pT]
    have Dneg : D < 0 := by linarith only [DT, hT]
    have hY : D - t1 ≤ -(T + 8 * (u * T)) := by
      linarith only [hD'.2, ht1'.1, h, pW, pX, pO, pT, hW]
    have hYneg : D - t1 ≤ 0 := by linarith only [hY, hT, pT]
    rw [abs_of_nonpos hYneg] at hg'
    have key : T ≤ (1 - u) * (-(D - t1)) := by
      have := mul_le_mul_of_nonneg_left (show T + 8 * (u * T) ≤ -(D - t1) by
        linarith only [hY]) h1u
      have e : (1 - u) * (T + 8 * (u * T)) = T + 7 * (u * T) - 8 * (u * (u * T)) := by ring
      rw [e] at this
      linarith only [this, puT, pT]
    have e2 : (1 - u) * (-(D - t1)) = -(D - t1) - u * (-(D - t1)) := by ring
    rw [e2] at key
    have hDw : D / w < 0 := div_neg_of_neg_of_pos Dneg hw
    rw [abs_of_neg hDw] at hq'
    refine ⟨?_, ?_, Or.inl ?_⟩
    · rw [not_lt]
      exact le_trans (by linarith only [DT]) (neg_le_abs D)
    · rw [not_lt]
      exact le_trans (by linarith only [key, hg'.2]) (neg_le_abs g)
    · have huq : u * -(D / w) ≤ 1 / 16 * -(D / w) :=
        mul_le_mul_of_nonneg_right hu (by linarith only [hDw])
      linarith only [hq'.2, huq, hDw]
  · -- above the high edge
    have DT : W + T + 5 * (u * W) ≤ D := by linarith only [hD'.1, h, pW, pX, pO, pT]
    have D0 : 0 ≤ D := by linarith only [DT, hW, hT, pW]
    have hY : T + 8 * (u * T) ≤ D - t1 := by
      linarith only [hD'.1, ht1'.2, h, pW, pX, pO, pT]
    have hYpos : 0 ≤ D - t1 := by linarith only [hY, hT, pT]
    rw [abs_of_nonneg hYpos] at hg'
    have key : T ≤ (1 - u) * (D - t1) := by
      have := mul_le_mul_of_nonneg_left hY h1u
      have e : (1 - u) * (T + 8 * (u * T)) = T + 7 * (u * T) - 8 * (u * (u * T)) := by ring
      rw [e] at this
      linarith only [this, puT, pT]
    have e2 : (1 - u) * (D - t1) = (D - t1) - u * (D - t1) := by ring
    rw [e2] at key
    have hDw : 0 ≤ D / w := div_nonneg D0 hw.le
    rw [abs_of_nonneg hDw] at hq'
    refine ⟨?_, ?_, Or.inr ?_⟩
    · rw [not_lt]
      exact le_trans (by linarith only [DT, hW, pW]) (le_abs_self D)
    · rw [not_lt]
      exact le_trans (by linarith only [key, hg'.1]) (le_abs_self g)
    · have hqw : (D / w - u * (D / w)) * w ≤ q * w :=
        mul_le_mul_of_nonneg_right (by linarith only [hq'.1]) hw.le
      have e : (D / w - u * (D / w)) * w = (1 - u) * D := by
        field_simp
        ring
      rw [e] at hqw
      have := mul_le_mul_of_nonneg_left DT h1u
      have e3 : (1 - u) * (W + T + 5 * (u * W))
          = W + 4 * (u * W) - 5 * (u * (u * W)) + (1 - u) * T := by ring
      rw [e3] at this
      have hT1 : 0 ≤ (1 - u) * T := mul_nonneg h1u hT
      linarith only [hqw, this, puW, pW, hT1]

/-- The cell of the low clamp: a point inside the bounds whose rounded distance `D` to the
low edge is below a threshold of at most the width is, up to the rounding bound, in the
first cell. -/
theorem box_low {u w W x off T D : K}
    (hD : |D - (x + W / 2 - off)| ≤ 3 * u * (W + |x| + |off|))
    (hTw : T ≤ w) (hc : |D| < T) :
    x + W / 2 - off < w + 3 * u * (W + |x| + |off|) := by
  have hD' := abs_le.mp hD
  have hc' := abs_lt.mp hc
  linarith only [hD'.1, hc'.2, hTw]

/-- The cell of the high clamp: a point whose rounded distance `g` to the high edge is
below a threshold of at most the width is, up to the rounding bound, not below the last
cell. -/
theorem box_high {u w W x off T D t1 g : K} (hu0 : 0 ≤ u) (hu : u ≤ 1 / 16) (hW : 0 ≤ W)
    (hwW : w ≤ W)
    (hD : |D - (x + W / 2 - off)| ≤ 3 * u * (W + |x| + |off|))
    (ht1 : |t1 - W| ≤ u * W) (hg : |g - (D - t1)| ≤ u * |D - t1|)
    (hTw : T ≤ w) (hc : |g| < T) :
    W - w - 6 * u * (W + |x| + |off|) ≤ x + W / 2 - off := by
  have pW : 0 ≤ u * W := mul_nonneg hu0 hW
  have pX : 0 ≤ u * |x| := mul_nonneg hu0 (abs_nonneg x)
  have pO : 0 ≤ u * |off| := mul_nonneg hu0 (abs_nonneg off)
  have hD' := abs_le.mp hD
  have ht1' := abs_le.mp ht1
  have hY0 : 0 ≤ |D - t1| := abs_nonneg _
  have hYg : |D - t1| ≤ |g| + u * |D - t1| := by
    have h1 := abs_add (D - t1 - g) g
    have h2 : |D - t1 - g| = |g - (D - t1)| := abs_sub_comm _ _
    have e : D - t1 - g + g = D - t1 := by ring
    rw [e, h2] at h1
    linarith only [h1, hg]
  have huY : u * |D - t1| ≤ 1 / 16 * |D - t1| := mul_le_mul_of_nonneg_right hu hY0
  have hY1 : |D - t1| ≤ 2 * w := by linarith only [hYg, huY, hc, hTw, hY0]
  have huY2 : u * |D - t1| ≤ u * (2 * w) := mul_le_mul_of_nonneg_left hY1 hu0
  have huw : u * w ≤ u * W := mul_le_mul_of_nonneg_left hwW hu0
  have hY2 := (abs_le.mp (show |D - t1| ≤ w + 2 * (u * W) by
    linarith only [hYg, huY2, hc, hTw, huw])).1
  linarith only [hY2, hD'.2, ht1'.1, pW, pX, pO]

/-- The cell of the floor: when the integer `i` is the floor of the rounded quotient `q` of
the rounded distance `D` by the width, the point is in cell `i` up to the rounding
bound. -/
theorem box_floor {u w W x off D q i : K} (hu0 : 0 ≤ u) (hw : 0 < w)
    (hW : 0 ≤ W)
    (hD : |D - (x + W / 2 - off)| ≤ 3 * u * (W + |x| + |off|))
    (hq : |q - D / w| ≤ u * |D / w|) (hD0 : 0 ≤ D) (hDW : D ≤ W)
    (hi0 : i ≤ q) (hi1 : q < i + 1) :
    i * w - 5 * u * (W + |x| + |off|) ≤ x + W / 2 - off ∧
    x + W / 2 - off < (i + 1) * w + 5 * u * (W + |x| + |off|) := by
  have pW : 0 ≤ u * W := mul_nonneg hu0 hW
  have pX : 0 ≤ u * |x| := mul_nonneg hu0 (abs_nonneg x)
  have pO : 0 ≤ u * |off| := mul_nonneg hu0 (abs_nonneg off)
  have hD' := abs_le.mp hD
  have hDw0 : 0 ≤ D / w := div_nonneg hD0 hw.le
  rw [abs_of_nonneg hDw0] at hq
  have hq' := abs_le.mp hq
  have huD : u * D ≤ u * W := mul_le_mul_of_nonneg_left hDW hu0
  have huD0 : 0 ≤ u * D := mul_nonneg hu0 hD0
  have e1 : (D / w + u * (D / w)) * w = D + u * D := by
    field_simp
  have e2 : (D / w - u * (D / w)) * w = D - u * D := by
    field_simp
  have h1 : q * w ≤ D + u * D := by
    rw [← e1]
    exact mul_le_mul_of_nonneg_right (by linarith only [hq'.2]) hw.le
  have h2 : D - u * D ≤ q * w := by
    rw [← e2]
    exact mul_le_mul_of_nonneg_right (by linarith only [hq'.1]) hw.le
  have h3 : i * w ≤ q * w := mul_le_mul_of_nonneg_right hi0 hw.le
  have h4 : q * w < (i + 1) * w := mul_lt_mul_of_pos_right hi1 hw
  constructor
  · linarith only [h1, h3, huD, hD'.2, pW, pX, pO]
  · linarith only [h2, h4, huD, hD'.1, pW, pX, pO]

/-- Accumulation of the relative rounding errors, of at most `u ≤ 1/16` each, in the
evaluation of an edge `I - W / 2 + off` of `getLatticeSurface`, for `0 ≤ I ≤ W`: `s1` for
`I`, `t1` for `W`, `t2` for `t1 / 2`, `a` for `s1 - t2` and `e` for `a + off`. -/
theorem edge_error_chain {u W I off s1 t1 t2 a e : K} (hu0 : 0 ≤ u) (hu : u ≤ 1 / 16)
    (hI0 : 0 ≤ I) (hIW : I ≤ W)
    (hs1 : |s1 - I| ≤ u * |I|) (h1 : |t1 - W| ≤ u * |W|) (h2 : |t2 - t1 / 2| ≤ u * |t1 / 2|)
    (ha : |a - (s1 - t2)| ≤ u * |s1 - t2|) (he : |e - (a + off)| ≤ u * |a + off|) :
    |e - (I - W / 2 + off)| ≤ 6 * u * (W + |off|) := by
  have hW : 0 ≤ W := le_trans hI0 hIW
  have pW : 0 ≤ u * W := mul_nonneg hu0 hW
  have pO : 0 ≤ u * |off| := mul_nonneg hu0 (abs_nonneg off)
  have hPW : u * W ≤ 1 / 16 * W := mul_le_mul_of_nonneg_right hu hW
  have pI : u * I ≤ u * W := mul_le_mul_of_nonneg_left hIW hu0
  have pI0 : 0 ≤ u * I := mul_nonneg hu0 hI0
  rw [abs_of_nonneg hI0] at hs1
  rw [abs_of_nonneg hW] at h1
  have hs1' := abs_le.mp hs1
  have h1' := abs_le.mp h1
  have b1 : |t1| ≤ 17 / 16 * W :=
    abs_le.mpr ⟨by linarith only [h1'.1, hPW, hW], by linarith only [h1'.2, hPW]⟩
  have a2 : |t1 / 2| ≤ 17 / 32 * W := by
    rw [abs_div, abs_of_pos (by norm_num : (0 : K) < 2)]
    linarith only [b1]
  have e2 : |t2 - t1 / 2| ≤ 17 / 32 * (u * W) := by
    have h' : u * |t1 / 2| ≤ u * (17 / 32 * W) := mul_le_mul_of_nonneg_left a2 hu0
    linarith only [h2, h']
  have e2' := abs_le.mp e2
  have b3 : |s1 - t2| ≤ 27 / 16 * W :=
    abs_le.mpr ⟨by linarith only [hs1'.1, h1'.2, e2'.2, hPW, hW, pI, hI0, hIW, pI0],
      by linarith only [hs1'.2, h1'.1, e2'.1, hPW, hW, pI, hI0, hIW, pI0]⟩
  have e3 : |a - (s1 - t2)| ≤ 27 / 16 * (u * W) := by
    have h' : u * |s1 - t2| ≤ u * (27 / 16 * W) := mul_le_mul_of_nonneg_left b3 hu0
    linarith only [ha, h']
  have e3' := abs_le.mp e3
  have b3' := abs_le.mp b3
  have b4 : |a| ≤ 2 * W :=
    abs_le.mpr ⟨by linarith only [e3'.1, b3'.1, hPW, hW],
      by linarith only [e3'.2, b3'.2, hPW, hW]⟩
  have a5 : |a + off| ≤ 2 * W + |off| := le_trans (abs_add _ _) (by linarith only [b4])
  have e5 : |e - (a + off)| ≤ 2 * (u * W) + u * |off| := by
    have h' : u * |a + off| ≤ u * (2 * W + |off|) := mul_le_mul_of_nonneg_left a5 hu0
    linarith only [he, h']
  have e5' := abs_le.mp e5
  rw [abs_le]
  constructor
  · linarith only [hs1'.1, h1'.2, e2'.2, e3'.1, e5'.1, pW, pO, pI, pI0]
  · linarith only [hs1'.2, h1'.1, e2'.1, e3'.2, e5'.2, pW, pO, pI, pI0]

/-- Accumulation of the relative rounding errors, of at most `u ≤ 1/16` each, in the
evaluation of the bounds `off ± N / 2 * w` of `withinBounds`, for `N, w ≥ 0`: `h1` for
`N / 2`, `h2` for `h1 * w`, `bmax` for `off + h2` and `bmin` for `off - h2`. -/
theorem bound_error_chain {u N w off h1 h2 bmax bmin : K} (hu0 : 0 ≤ u) (hu : u ≤ 1 / 16)
    (hN : 0 ≤ N) (hw : 0 ≤ w)
    (k1 : |h1 - N / 2| ≤ u * |N / 2|) (k2 : |h2 - h1 * w| ≤ u * |h1 * w|)
    (kmax : |bmax - (off + h2)| ≤ u * |off + h2|)
    (kmin : |bmin - (off - h2)| ≤ u * |off - h2|) :
    |bmax - (off + N * w / 2)| ≤ 2 * u * (N * w + |off|) ∧
    |bmin - (off - N * w / 2)| ≤ 2 * u * (N * w + |off|) := by
  have hW : 0 ≤ N * w := mul_nonneg hN hw
  have pW : 0 ≤ u * (N * w) := mul_nonneg hu0 hW
  have pO : 0 ≤ u * |off| := mul_nonneg hu0 (abs_nonneg off)
  have hPW : u * (N * w) ≤ 1 / 16 * (N * w) := mul_le_mul_of_nonneg_right hu hW
  rw [abs_of_nonneg (div_nonneg hN (by norm_num))] at k1
  have c1 : |h1 * w - N * w / 2| ≤ u * (N * w) / 2 := by
    have e : h1 * w - N * w / 2 = (h1 - N / 2) * w := by ring
    rw [e, abs_mul, abs_of_nonneg hw]
    have := mul_le_mul_of_nonneg_right k1 hw
    have e' : u * (N / 2) * w = u * (N * w) / 2 := by ring
    rw [e'] at this
    exact this
  have c1' := abs_le.mp c1
  have b1 : |h1 * w| ≤ 17 / 32 * (N * w) :=
    abs_le.mpr ⟨by linarith only [c1'.1, hPW, hW], by linarith only [c1'.2, hPW, hW]⟩
  have c2 : |h2 - h1 * w| ≤ 17 / 32 * (u * (N * w)) := by
    have h' : u * |h1 * w| ≤ u * (17 / 32 * (N * w)) := mul_le_mul_of_nonneg_left b1 hu0
    linarith only [k2, h']
  have c2' := abs_le.mp c2
  have b2 : |h2| ≤ 5 / 8 * (N * w) :=
    abs_le.mpr ⟨by linarith only [c1'.1, c2'.1, hPW, hW],
      by linarith only [c1'.2, c2'.2, hPW, hW]⟩
  have a3 : |off + h2| ≤ |off| + 5 / 8 * (N * w) :=
    le_trans (abs_add _ _) (by linarith only [b2])
  have a4 : |off - h2| ≤ |off| + 5 / 8 * (N * w) :=
    le_trans (abs_sub _ _) (by linarith only [b2])
  have c3 : |bmax - (off + h2)| ≤ u * |off| + 5 / 8 * (u * (N * w)) := by
    have h' : u * |off + h2| ≤ u * (|off| + 5 / 8 * (N * w)) :=
      mul_le_mul_of_nonneg_left a3 hu0
    linarith only [kmax, h']
  have c4 : |bmin - (off - h2)| ≤ u * |off| + 5 / 8 * (u * (N * w)) := by
    have h' : u * |off - h2| ≤ u * (|off| + 5 / 8 * (N * w)) :=
      mul_le_mul_of_nonneg_left a4 hu0
    linarith only [kmin, h']
  have c3' := abs_le.mp c3
  have c4' := abs_le.mp c4
  constructor
  · rw [abs_le]
    constructor
    · linarith only [c1'.1, c2'.1, c3'.1, pW, pO]
    · linarith only [c1'.2, c2'.2, c3'.2, pW, pO]
  · rw [abs_le]
    constructor
    · linarith only [c1'.2, c2'.2, c4'.1, pW, pO]
    · linarith only [c1'.1, c2'.1, c4'.2, pW, pO]

/-- `Lattice.getLatY_fl` is `Lattice.getLatX_fl` with the two axes exchanged. -/
theorem getLatY_fl_swap (fl : K → K) (thresh : K) (l : Lattice K) (p : Point K) :
    l.getLatY_fl fl thresh p
      = Lattice.getLatX_fl fl thresh
          { l with width_x := l.width_y, num_x := l.num_y,
                   offset := { x := l.offset.y, y := l.offset.x } }
          { x := p.y, y := p.x } := by
  unfold Lattice.getLatY_fl Lattice.getLatX_fl
  simp only [mul_comm l.width_y (l.num_y : K)]

/-- With the identity for the rounding, `Lattice.getLatX_fl` is `Lattice.getLatX`. -/
theorem getLatX_fl_id (thresh : K) (l : Lattice K) (p : Point K) :
    l.getLatX_fl id thresh p = l.getLatX thresh p := by
  unfold Lattice.getLatX_fl Lattice.getLatX
  simp only [id]

/-- With the identity for the rounding, `Lattice.getLatY_fl` is `Lattice.getLatY`. -/
theorem getLatY_fl_id (thresh : K) (l : Lattice K) (p : Point K) :
    l.getLatY_fl id thresh p = l.getLatY thresh p := by
  unfold Lattice.getLatY_fl Lattice.getLatY
  simp only [id, mul_comm l.width_y (l.num_y : K)]

/-- `Lattice.getLatX_fl` for a point inside the x bounds by more than the rounding bound: an
index in `[0, num_x - 1]`. -/
theorem getLatX_fl_inside (fl : K → K) (u thresh : K) (l : Lattice K) (p : Point K)
    (hu0 : 0 ≤ u) (hu : u ≤ 1 / 16) (hfl : ∀ a, |fl a - a| ≤ u * |a|) (ht : 0 ≤ thresh)
    (hw : 0 < l.width_x) (hn : 1 ≤ l.num_x)
    (h1 : l.offset.x - l.num_x * l.width_x / 2
      + roundoff u l.width_x l.num_x p.x l.offset.x thresh < p.x)
    (h2 : p.x < l.offset.x + l.num_x * l.width_x / 2
      - roundoff u l.width_x l.num_x p.x l.offset.x thresh) :
    ∃ i, l.getLatX_fl fl thresh p = .ok i ∧ 0 ≤ i ∧ i ≤ l.num_x - 1 := by
  have hN : (0 : K) ≤ l.num_x := by exact_mod_cast (by omega : (0 : Int) ≤ l.num_x)
  have hW : 0 ≤ (l.num_x : K) * l.width_x := mul_nonneg hN hw.le
  obtain ⟨-, hD⟩ := fl_dist_error fl u ((l.num_x : K) * l.width_x) p.x l.offset.x hu0 hu hfl hW
  obtain ⟨-, -, hq0, hq1⟩ := axis_inside hu0 hu hw hW ht hD (hfl _) h1 h2
  have hf0 : 0 ≤ ⌊fl (fl (fl (p.x + fl (fl ((l.num_x : K) * l.width_x) / 2)) - l.offset.x)
      / l.width_x)⌋ := Int.floor_nonneg.mpr hq0
  have hf1 : ⌊fl (fl (fl (p.x + fl (fl ((l.num_x : K) * l.width_x) / 2)) - l.offset.x)
      / l.width_x)⌋ < l.num_x := by
    rw [Int.floor_lt]
    exact lt_of_mul_lt_mul_right hq1 hw.le
  unfold Lattice.getLatX_fl
  simp only [mul_comm l.width_x (l.num_x : K)]
  split_ifs with c1 c2 c3
  · exact ⟨0, rfl, le_refl _, by omega⟩
  · exact ⟨l.num_x - 1, rfl, by omega, le_refl _⟩
  · omega
  · exact ⟨_, rfl, hf0, by omega⟩

/-- `Lattice.getLatX_fl` for an x coordinate nearer to the outer low edge than the threshold
less the rounding bound: index 0. -/
theorem getLatX_fl_low (fl : K → K) (u thresh : K) (l : Lattice K) (p : Point K)
    (hu0 : 0 ≤ u) (hu : u ≤ 1 / 16) (hfl : ∀ a, |fl a - a| ≤ u * |a|) (ht : 0 ≤ thresh)
    (hw : 0 ≤ l.width_x) (hn : 0 ≤ l.num_x)
    (h : |p.x - (l.offset.x - l.num_x * l.width_x / 2)|
      < thresh - roundoff u l.width_x l.num_x p.x l.offset.x thresh) :
    l.getLatX_fl fl thresh p = .ok 0 := by
  have hN : (0 : K) ≤ l.num_x := by exact_mod_cast hn
  have hW : 0 ≤ (l.num_x : K) * l.width_x := mul_nonneg hN hw
  obtain ⟨-, hD⟩ := fl_dist_error fl u ((l.num_x : K) * l.width_x) p.x l.offset.x hu0 hu hfl hW
  have hc := axis_low hu0 hW ht hD h
  unfold Lattice.getLatX_fl
  simp only []
  rw [if_pos hc]

/-- `Lattice.getLatX_fl` for an x coordinate nearer to the outer high edge than the
threshold less the rounding bound, the extent being at least twice the threshold: index
`num_x - 1`. -/
theorem getLatX_fl_high (fl : K → K) (u thresh : K) (l : Lattice K) (p : Point K)
    (hu0 : 0 ≤ u) (hu : u ≤ 1 / 16) (hfl : ∀ a, |fl a - a| ≤ u * |a|) (ht : 0 ≤ thresh)
    (hw : 0 ≤ l.width_x) (hn : 0 ≤ l.num_x) (h2T : 2 * thresh ≤ l.num_x * l.width_x)
    (h : |p.x - (l.offset.x + l.num_x * l.width_x / 2)|
      < thresh - roundoff u l.width_x l.num_x p.x l.offset.x thresh) :
    l.getLatX_fl fl thresh p = .ok (l.num_x - 1) := by
  have hN : (0 : K) ≤ l.num_x := by exact_mod_cast hn
  have hW : 0 ≤ (l.num_x : K) * l.width_x := mul_nonneg hN hw
  obtain ⟨ht1, hD⟩ := fl_dist_error fl u ((l.num_x : K) * l.width_x) p.x l.offset.x hu0 hu
    hfl hW
  obtain ⟨c1, c2⟩ := axis_high hu0 hW ht hD ht1 (hfl _) h h2T
  unfold Lattice.getLatX_fl
  simp only []
  rw [if_neg c1, if_pos c2]

/-- `Lattice.getLatX_fl` for an x coordinate outside the bounds by more than the threshold
plus the rounding bound: the outside-lattice-bounds error. -/
theorem getLatX_fl_outside (fl : K → K) (u thresh : K) (l : Lattice K) (p : Point K)
    (hu0 : 0 ≤ u) (hu : u ≤ 1 / 16) (hfl : ∀ a, |fl a - a| ≤ u * |a|) (ht : 0 ≤ thresh)
    (hw : 0 < l.width_x) (hn : 0 ≤ l.num_x)
    (h : p.x < l.offset.x - l.num_x * l.width_x / 2 - thresh
        - roundoff u l.width_x l.num_x p.x l.offset.x thresh ∨
      l.offset.x + l.num_x * l.width_x / 2 + thresh
        + roundoff u l.width_x l.num_x p.x l.offset.x thresh < p.x) :
    l.getLatX_fl fl thresh p = .error .latticeBounds := by
  have hN : (0 : K) ≤ l.num_x := by exact_mod_cast hn
  have hW : 0 ≤ (l.num_x : K) * l.width_x := mul_nonneg hN hw.le
  obtain ⟨ht1, hD⟩ := fl_dist_error fl u ((l.num_x : K) * l.width_x) p.x l.offset.x hu0 hu
    hfl hW
  obtain ⟨c1, c2, c3⟩ := axis_outside hu0 hu hw hW ht hD ht1 (hfl _) (hfl _) h
  have hf : ⌊fl (fl (fl (p.x + fl (fl ((l.num_x : K) * l.width_x) / 2)) - l.offset.x)
      / l.width_x)⌋ < 0 ∨
      ⌊fl (fl (fl (p.x + fl (fl ((l.num_x : K) * l.width_x) / 2)) - l.offset.x)
      / l.width_x)⌋ > l.num_x - 1 := by
    rcases c3 with c3 | c3
    · left
      rw [Int.floor_lt]
      exact_mod_cast c3
    · right
      have : (l.num_x : K) ≤ fl (fl (fl (p.x + fl (fl ((l.num_x : K) * l.width_x) / 2))
          - l.offset.x) / l.width_x) := le_of_mul_le_mul_right c3 hw
      have := Int.le_floor.mpr this
      omega
  unfold Lattice.getLatX_fl
  simp only [mul_comm l.width_x (l.num_x : K)]
  rw [if_neg c1, if_neg c2, if_pos hf]

/-- `Lattice.getLatX_fl` for a point inside the x bounds by more than the rounding bound, the
threshold being at most the cell width: up to the rounding bound the x coordinate lies in
the half-open interval of the returned column. -/
theorem getLatX_fl_box (fl : K → K) (u thresh : K) (l : Lattice K) (p : Point K)
    (hu0 : 0 ≤ u) (hu : u ≤ 1 / 16) (hfl : ∀ a, |fl a - a| ≤ u * |a|) (ht : 0 ≤ thresh)
    (hw : 0 < l.width_x) (htw : thresh ≤ l.width_x) (hn : 1 ≤ l.num_x)
    (h1 : l.offset.x - l.num_x * l.width_x / 2
      + roundoff u l.width_x l.num_x p.x l.offset.x thresh < p.x)
    (h2 : p.x < l.offset.x + l.num_x * l.width_x / 2
      - roundoff u l.width_x l.num_x p.x l.offset.x thresh)
    (i : Int) (hi : l.getLatX_fl fl thresh p = .ok i) :
    (i : K) * l.width_x - l.num_x * l.width_x / 2 + l.offset.x
        - roundoff u l.width_x l.num_x p.x l.offset.x thresh ≤ p.x ∧
    p.x < ((i : K) + 1) * l.width_x - l.num_x * l.width_x / 2 + l.offset.x
        + roundoff u l.width_x l.num_x p.x l.offset.x thresh := by
  have hN : (1 : K) ≤ l.num_x := by exact_mod_cast hn
  have hW : 0 ≤ (l.num_x : K) * l.width_x := mul_nonneg (by linarith only [hN]) hw.le
  have hwW : l.width_x ≤ (l.num_x : K) * l.width_x := le_mul_of_one_le_left hw.le hN
  obtain ⟨ht1, hD⟩ := fl_dist_error fl u ((l.num_x : K) * l.width_x) p.x l.offset.x hu0 hu
    hfl hW
  obtain ⟨hD0, hDW, -, -⟩ := axis_inside hu0 hu hw hW ht hD (hfl _) h1 h2
  have pW : 0 ≤ u * ((l.num_x : K) * l.width_x) := mul_nonneg hu0 hW
  have pX : 0 ≤ u * |p.x| := mul_nonneg hu0 (abs_nonneg _)
  have pO : 0 ≤ u * |l.offset.x| := mul_nonneg hu0 (abs_nonneg _)
  have pT : 0 ≤ u * thresh := mul_nonneg hu0 ht
  unfold roundoff at h1 h2 ⊢
  unfold Lattice.getLatX_fl at hi
  simp only [mul_comm l.width_x (l.num_x : K)] at hi
  split_ifs at hi with c1 c2 c3
  · cases hi
    have hb := box_low hD htw c1
    push_cast
    constructor
    · linarith only [h1, pW, pX, pO, pT]
    · linarith only [hb, pW, pX, pO, pT]
  · cases hi
    have hb := box_high hu0 hu hW hwW hD ht1 (hfl _) htw c2
    push_cast
    constructor
    · linarith only [hb, pW, pX, pO, pT]
    · linarith only [h2, pW, pX, pO, pT]
  · cases hi
    have hb := box_floor hu0 hw hW hD (hfl _) hD0.le hDW (Int.floor_le _)
      (Int.lt_floor_add_one _)
    constructor
    · linarith only [hb.1, pW, pX, pO, pT]
    · linarith only [hb.2, pW, pX, pO, pT]

/-- The rounding error of an edge of a Lattice cell as `getLatticeSurface` evaluates it, for
an index `0 ≤ i ≤ n` and a unit roundoff of at most `1/16`. -/
theorem cellEdge_fl_error (fl : K → K) (u w off : K) (n i : Int) (hu0 : 0 ≤ u)
    (hu : u ≤ 1 / 16) (hfl : ∀ a, |fl a - a| ≤ u * |a|) (hw : 0 ≤ w) (hi0 : 0 ≤ i)
    (hin : i ≤ n) :
    |fl (fl (fl ((i : K) * w) - fl (fl (w * n) / 2)) + off) - ((i : K) * w - w * n / 2 + off)|
      ≤ 6 * u * (w * n + |off|) := by
  have hi0' : (0 : K) ≤ i := by exact_mod_cast hi0
  have hin' : (i : K) ≤ n := by exact_mod_cast hin
  have hIW : (i : K) * w ≤ w * n := by
    rw [mul_comm w]
    exact mul_le_mul_of_nonneg_right hin' hw
  exact edge_error_chain hu0 hu (mul_nonneg hi0' hw) hIW (hfl _) (hfl _) (hfl _) (hfl _)
    (hfl _)

/-- `Lattice.withinBounds_fl` for a point inside the bounds, on both axes, by more than the
rounding bound: true. -/
theorem withinBounds_fl_inside (fl : K → K) (u thresh : K) (l : Lattice K) (p : Point K)
    (hu0 : 0 ≤ u) (hu : u ≤ 1 / 16) (hfl : ∀ a, |fl a - a| ≤ u * |a|) (ht : 0 ≤ thresh)
    (hwx : 0 ≤ l.width_x) (hwy : 0 ≤ l.width_y) (hnx : 0 ≤ l.num_x) (hny : 0 ≤ l.num_y)
    (hx1 : l.offset.x - l.num_x * l.width_x / 2
      + roundoff u l.width_x l.num_x p.x l.offset.x thresh < p.x)
    (hx2 : p.x < l.offset.x + l.num_x * l.width_x / 2
      - roundoff u l.width_x l.num_x p.x l.offset.x thresh)
    (hy1 : l.offset.y - l.num_y * l.width_y / 2
      + roundoff u l.width_y l.num_y p.y l.offset.y thresh < p.y)
    (hy2 : p.y < l.offset.y + l.num_y * l.width_y / 2
      - roundoff u l.width_y l.num_y p.y l.offset.y thresh) :
    l.withinBounds_fl fl p = true := by
  have hNx : (0 : K) ≤ l.num_x := by exact_mod_cast hnx
  have hNy : (0 : K) ≤ l.num_y := by exact_mod_cast hny
  obtain ⟨bx1, bx2⟩ := bound_error_chain hu0 hu hNx hwx (hfl _) (hfl _)
    (hfl (l.offset.x + fl (fl ((l.num_x : K) / 2) * l.width_x)))
    (hfl (l.offset.x - fl (fl ((l.num_x : K) / 2) * l.width_x)))
  obtain ⟨by1, by2⟩ := bound_error_chain hu0 hu hNy hwy (hfl _) (hfl _)
    (hfl (l.offset.y + fl (fl ((l.num_y : K) / 2) * l.width_y)))
    (hfl (l.offset.y - fl (fl ((l.num_y : K) / 2) * l.width_y)))
  have pWx : 0 ≤ u * ((l.num_x : K) * l.width_x) := mul_nonneg hu0 (mul_nonneg hNx hwx)
  have pWy : 0 ≤ u * ((l.num_y : K) * l.width_y) := mul_nonneg hu0 (mul_nonneg hNy hwy)
  have pX : 0 ≤ u * |p.x| := mul_nonneg hu0 (abs_nonneg _)
  have pY : 0 ≤ u * |p.y| := mul_nonneg hu0 (abs_nonneg _)
  have pOx : 0 ≤ u * |l.offset.x| := mul_nonneg hu0 (abs_nonneg _)
  have pOy : 0 ≤ u * |l.offset.y| := mul_nonneg hu0 (abs_nonneg _)
  have pT : 0 ≤ u * thresh := mul_nonneg hu0 ht
  unfold roundoff at hx1 hx2 hy1 hy2
  have bx1' := abs_le.mp bx1
  have bx2' := abs_le.mp bx2
  have by1' := abs_le.mp by1
  have by2' := abs_le.mp by2
  unfold Lattice.withinBounds_fl
  simp only []
  rw [if_neg, if_neg]
  · rw [not_or, not_lt, not_lt]
    constructor
    · linarith only [by1'.1, hy2, pWy, pY, pOy, pT]
    · linarith only [by2'.2, hy1, pWy, pY, pOy, pT]
  · rw [not_or, not_lt, not_lt]
    constructor
    · linarith only [bx1'.1, hx2, pWx, pX, pOx, pT]
    · linarith only [bx2'.2, hx1, pWx, pX, pOx, pT]

/-- `Lattice.withinBounds_fl` for a point outside the bounds of one axis by more than the
rounding bound: false. -/
theorem withinBounds_fl_outside (fl : K → K) (u thresh : K) (l : Lattice K) (p : Point K)
    (hu0 : 0 ≤ u) (hu : u ≤ 1 / 16) (hfl : ∀ a, |fl a - a| ≤ u * |a|) (ht : 0 ≤ thresh)
    (hwx : 0 ≤ l.width_x) (hwy : 0 ≤ l.width_y) (hnx : 0 ≤ l.num_x) (hny : 0 ≤ l.num_y)
    (h : (p.x < l.offset.x - l.num_x * l.width_x / 2
          - roundoff u l.width_x l.num_x p.x l.offset.x thresh ∨
        l.offset.x + l.num_x * l.width_x / 2
          + roundoff u l.width_x l.num_x p.x l.offset.x thresh < p.x) ∨
      (p.y < l.offset.y - l.num_y * l.width_y / 2
          - roundoff u l.width_y l.num_y p.y l.offset.y thresh ∨
        l.offset.y + l.num_y * l.width_y / 2
          + roundoff u l.width_y l.num_y p.y l.offset.y thresh < p.y)) :
    l.withinBounds_fl fl p = false := by
  have hNx : (0 : K) ≤ l.num_x := by exact_mod_cast hnx
  have hNy : (0 : K) ≤ l.num_y := by exact_mod_cast hny
  obtain ⟨bx1, bx2⟩ := bound_error_chain hu0 hu hNx hwx (hfl _) (hfl _)
    (hfl (l.offset.x + fl (fl ((l.num_x : K) / 2) * l.width_x)))
    (hfl (l.offset.x - fl (fl ((l.num_x : K) / 2) * l.width_x)))
  obtain ⟨by1, by2⟩ := bound_error_chain hu0 hu hNy hwy (hfl _) (hfl _)
    (hfl (l.offset.y + fl (fl ((l.num_y : K) / 2) * l.width_y)))
    (hfl (l.offset.y - fl (fl ((l.num_y : K) / 2) * l.width_y)))
  have pWx : 0 ≤ u * ((l.num_x : K) * l.width_x) := mul_nonneg hu0 (mul_nonneg hNx hwx)
  have pWy : 0 ≤ u * ((l.num_y : K) * l.width_y) := mul_nonneg hu0 (mul_nonneg hNy hwy)
  have pX : 0 ≤ u * |p.x| := mul_nonneg hu0 (abs_nonneg _)
  have pY : 0 ≤ u * |p.y| := mul_nonneg hu0 (abs_nonneg _)
  have pOx : 0 ≤ u * |l.offset.x| := mul_nonneg hu0 (abs_nonneg _)
  have pOy : 0 ≤ u * |l.offset.y| := mul_nonneg hu0 (abs_nonneg _)
  have pT : 0 ≤ u * thresh := mul_nonneg hu0 ht
  unfold roundoff at h
  have bx1' := abs_le.mp bx1
  have bx2' := abs_le.mp bx2
  have by1' := abs_le.mp by1
  have by2' := abs_le.mp by2
  unfold Lattice.withinBounds_fl
  simp only []
  split_ifs with c1 c2
  · rfl
  · rfl
  · exfalso
    rw [not_or, not_lt, not_lt] at c1 c2
    rcases h with (h | h) | (h | h)
    · linarith only [bx2'.1, c1.2, h, pWx, pX, pOx, pT]
    · linarith only [bx1'.2, c1.1, h, pWx, pX, pOx, pT]
    · linarith only [by2'.1, c2.2, h, pWy, pY, pOy, pT]
    · linarith only [by1'.2, c2.1, h, pWy, pY, pOy, pT]

/-- The value of `round64` at 0. -/
@[simp]
theorem round64_zero : round64 0 = 0 := by
  unfold round64
  rw [if_pos rfl]

/-- An integer multiple `k * w` of a positive width that lies, up to less than one width,
in the half-open interval from `i * w` to `(i + 1) * w`, has `k = i` or `k = i + 1`. -/
theorem grid_line_near {w r : K} {i k : Int} (hw : 0 < w) (hr : r < w)
    (h0 : (i : K) * w - r ≤ k * w) (h1 : (k : K) * w < ((i : K) + 1) * w + r) :
    i = k ∨ i = k - 1 := by
  have a : ((i - k : Int) : K) < 1 := by
    push_cast
    have : ((i : K) - k) * w < 1 * w := by linarith only [h0, hr]
    exact lt_of_mul_lt_mul_right this hw.le
  have b : ((k - i - 1 : Int) : K) < 1 := by
    push_cast
    have : ((k : K) - i - 1) * w < 1 * w := by linarith only [h1, hr]
    exact lt_of_mul_lt_mul_right this hw.le
  have a1 : i - k < 1 := by exact_mod_cast a
  have b1 : k - i - 1 < 1 := by exact_mod_cast b
  omega

/-- A value of `round64`, used to evaluate the embedding in `double` arithmetic. -/
@[simp]
theorem round64_val1 :
    round64 (28638671505425697 / 70368744177664)
      = 894958484544553 / 2199023255552 := by
  rw [round64_eq _ (8) (7159667876356424) (by norm_num [abs_of_pos, abs_of_neg])
    (by norm_num [abs_of_pos, abs_of_neg]) (by norm_num [roundEven])]
  norm_num

/-- A value of `round64`, used to evaluate the embedding in `double` arithmetic. -/
@[simp]
theorem round64_val2 :
    round64 (894958484544553 / 4398046511104)
      = 894958484544553 / 4398046511104 := by
  rw [round64_eq _ (7) (7159667876356424) (by norm_num [abs_of_pos, abs_of_neg])
    (by norm_num [abs_of_pos, abs_of_neg]) (by norm_num [roundEven])]
  norm_num

/-- A value of `round64`, used to evaluate the embedding in `double` arithmetic. -/
@[simp]
theorem round64_val3 :
    round64 (72158705127218217 / 4398046511104)
      = 4509919070451139 / 274877906944 := by
  rw [round64_eq _ (14) (4509919070451139) (by norm_num [abs_of_pos, abs_of_neg])
    (by norm_num [abs_of_pos, abs_of_neg]) (by norm_num [roundEven])]
  norm_num

/-- A value of `round64`, used to evaluate the embedding in `double` arithmetic. -/
@[simp]
theorem round64_val4 :
    round64 (223739621136139 / 549755813888)
      = 223739621136139 / 549755813888 := by
  rw [round64_eq _ (8) (7159667876356448) (by norm_num [abs_of_pos, abs_of_neg])
    (by norm_num [abs_of_pos, abs_of_neg]) (by norm_num [roundEven])]
  norm_num

/-- A value of `round64`, used to evaluate the embedding in `double` arithmetic. -/
@[simp]
theorem round64_val5 :
    round64 (28638671505425792 / 1507298500285563)
      = 2674012278751241 / 140737488355328 := by
  rw [round64_eq _ (4) (5348024557502482) (by norm_num [abs_of_pos, abs_of_neg])
    (by norm_num [abs_of_pos, abs_of_neg]) (by norm_num [roundEven])]
  norm_num

/-- A value of `round64`, used to evaluate the embedding in `double` arithmetic. -/
@[simp]
theorem round64_val6 :
    round64 (3 / 2199023255552)
      = 3 / 2199023255552 := by
  rw [round64_eq _ (-40) (6755399441055744) (by norm_num [abs_of_pos, abs_of_neg])
    (by norm_num [abs_of_pos, abs_of_neg]) (by norm_num [roundEven])]
  norm_num

/-- A value of `round64`, used to evaluate the embedding in `double` arithmetic. -/
@[simp]
theorem round64_val7 :
    round64 (1)
      = 1 := by
  rw [round64_eq _ (0) (4503599627370496) (by norm_num [abs_of_pos, abs_of_neg])
    (by norm_num [abs_of_pos, abs_of_neg]) (by norm_num [roundEven])]
  norm_num

/-- A value of `round64`, used to evaluate the embedding in `double` arithmetic. -/
@[simp]
theorem round64_val8 :
    round64 (1 / 2)
      = 1 / 2 := by
  rw [round64_eq _ (-1) (4503599627370496) (by norm_num [abs_of_pos, abs_of_neg])
    (by norm_num [abs_of_pos, abs_of_neg]) (by norm_num [roundEven])]
  norm_num

/-- A value of `round64`, used to evaluate the embedding in `double` arithmetic. -/
@[simp]
theorem round64_val9 :
    round64 (-(1 / 2))
      = -(1 / 2) := by
  rw [round64_eq _ (-1) (-4503599627370496) (by norm_num [abs_of_pos, abs_of_neg])
    (by norm_num [abs_of_pos, abs_of_neg]) (by norm_num [roundEven])]
  norm_num

/-- A value of `round64`, used to evaluate the embedding in `double` arithmetic. -/
@[simp]
theorem round64_val10 :
    round64 (19 / 2)
      = 19 / 2 := by
  rw [round64_eq _ (3) (5348024557502464) (by norm_num [abs_of_pos, abs_of_neg])
    (by norm_num [abs_of_pos, abs_of_neg]) (by norm_num [roundEven])]
  norm_num

/-- A value of `round64`, used to evaluate the embedding in `double` arithmetic. -/
@[simp]
theorem round64_val11 :
    round64 (28638671505425697 / 140737488355328)
      = 894958484544553 / 4398046511104 := by
  rw [round64_eq _ (7) (7159667876356424) (by norm_num [abs_of_pos, abs_of_neg])
    (by norm_num [abs_of_pos, abs_of_neg]) (by norm_num [roundEven])]
  norm_num

/-- A value of `round64`, used to evaluate the embedding in `double` arithmetic. -/
@[simp]
theorem round64_val12 :
    round64 (71263746642673665 / 4398046511104)
      = 32407 / 2 := by
  rw [round64_eq _ (13) (8907968330334208) (by norm_num [abs_of_pos, abs_of_neg])
    (by norm_num [abs_of_pos, abs_of_neg]) (by norm_num [roundEven])]
  norm_num

/-- A value of `round64`, used to evaluate the embedding in `double` arithmetic. -/
@[simp]
theorem round64_val13 :
    round64 (69473829673584559 / 4398046511104)
      = 4342114354599035 / 274877906944 := by
  rw [round64_eq _ (13) (8684228709198070) (by norm_num [abs_of_pos, abs_of_neg])
    (by norm_num [abs_of_pos, abs_of_neg]) (by norm_num [roundEven])]
  norm_num

/-- A value of `round64`, used to evaluate the embedding in `double` arithmetic. -/
@[simp]
theorem round64_val14 :
    round64 (4951760157141521 / 2475880078570760549798248448)
      = 4951760157141521 / 2475880078570760549798248448 := by
  rw [round64_eq _ (-39) (4951760157141521) (by norm_num [abs_of_pos, abs_of_neg])
    (by norm_num [abs_of_pos, abs_of_neg]) (by norm_num [roundEven])]
  norm_num

/-- A value of `round64`, used to evaluate the embedding in `double` arithmetic. -/
@[simp]
theorem round64_val15 :
    round64 (4951760157141521 / 4951760157141521099596496896)
      = 4951760157141521 / 4951760157141521099596496896 := by
  rw [round64_eq _ (-40) (4951760157141521) (by norm_num [abs_of_pos, abs_of_neg])
    (by norm_num [abs_of_pos, abs_of_neg]) (by norm_num [roundEven])]
  norm_num

/-- A value of `round64`, used to evaluate the embedding in `double` arithmetic. -/
@[simp]
theorem round64_val16 :
    round64 (-(4951760157141521 / 4951760157141521099596496896))
      = -(4951760157141521 / 4951760157141521099596496896) := by
  rw [round64_eq _ (-40) (-4951760157141521) (by norm_num [abs_of_pos, abs_of_neg])
    (by norm_num [abs_of_pos, abs_of_neg]) (by norm_num [roundEven])]
  norm_num

/-- A value of `round64`, used to evaluate the embedding in `double` arithmetic. -/
@[simp]
theorem round64_val17 :
    round64 (-(14855280471424563 / 4951760157141521099596496896))
      = -(3713820117856141 / 1237940039285380274899124224) := by
  rw [round64_eq _ (-39) (-7427640235712282) (by norm_num [abs_of_pos, abs_of_neg])
    (by norm_num [abs_of_pos, abs_of_neg]) (by norm_num [roundEven])]
  norm_num

/-- A value of `round64`, used to evaluate the embedding in `double` arithmetic. -/
@[simp]
theorem round64_val18 :
    round64 (2)
      = 2 := by
  rw [round64_eq _ (1) (4503599627370496) (by norm_num [abs_of_pos, abs_of_neg])
    (by norm_num [abs_of_pos, abs_of_neg]) (by norm_num [roundEven])]
  norm_num

/-- A value of `round64`, used to evaluate the embedding in `double` arithmetic. -/
@[simp]
theorem round64_val19 :
    round64 (4398046511105 / 2199023255552)
      = 4398046511105 / 2199023255552 := by
  rw [round64_eq _ (1) (4503599627371520) (by norm_num [abs_of_pos, abs_of_neg])
    (by norm_num [abs_of_pos, abs_of_neg]) (by norm_num [roundEven])]
  norm_num

/-- A value of `round64`, used to evaluate the embedding in `double` arithmetic. -/
@[simp]
theorem round64_val20 :
    round64 (1 / 2199023255552)
      = 1 / 2199023255552 := by
  rw [round64_eq _ (-41) (4503599627370496) (by norm_num [abs_of_pos, abs_of_neg])
    (by norm_num [abs_of_pos, abs_of_neg]) (by norm_num [roundEven])]
  norm_num

/-- A value of `round64`, used to evaluate the embedding in `double` arithmetic. -/
@[simp]
theorem round64_val21 :
    round64 (-1)
      = -1 := by
  rw [round64_eq _ (0) (-4503599627370496) (by norm_num [abs_of_pos, abs_of_neg])
    (by norm_num [abs_of_pos, abs_of_neg]) (by norm_num [roundEven])]
  norm_num

/-- A value of `round64`, used to evaluate the embedding in `double` arithmetic. -/
@[simp]
theorem round64_val22 :
    round64 (3602879701896397 / 18014398509481984)
      = 3602879701896397 / 18014398509481984 := by
  rw [round64_eq _ (-3) (7205759403792794) (by norm_num [abs_of_pos, abs_of_neg])
    (by norm_num [abs_of_pos, abs_of_neg]) (by norm_num [roundEven])]
  norm_num

/-- A value of `round64`, used to evaluate the embedding in `double` arithmetic. -/
@[simp]
theorem round64_val23 :
    round64 (3602879701896397 / 36028797018963968)
      = 3602879701896397 / 36028797018963968 := by
  rw [round64_eq _ (-4) (7205759403792794) (by norm_num [abs_of_pos, abs_of_neg])
    (by norm_num [abs_of_pos, abs_of_neg]) (by norm_num [roundEven])]
  norm_num

/-- A value of `round64`, used to evaluate the embedding in `double` arithmetic. -/
@[simp]
theorem round64_val24 :
    round64 (21617278211378381 / 36028797018963968)
      = 5404319552844595 / 9007199254740992 := by
  rw [round64_eq _ (-1) (5404319552844595) (by norm_num [abs_of_pos, abs_of_neg])
    (by norm_num [abs_of_pos, abs_of_neg]) (by norm_num [roundEven])]
  norm_num

/-- A value of `round64`, used to evaluate the embedding in `double` arithmetic. -/
@[simp]
theorem round64_val25 :
    round64 (900719925474099 / 9007199254740992)
      = 900719925474099 / 9007199254740992 := by
  rw [round64_eq _ (-4) (7205759403792792) (by norm_num [abs_of_pos, abs_of_neg])
    (by norm_num [abs_of_pos, abs_of_neg]) (by norm_num [roundEven])]
  norm_num

/-- A value of `round64`, used to evaluate the embedding in `double` arithmetic. -/
@[simp]
theorem round64_val26 :
    round64 (3602879701896396 / 3602879701896397)
      = 4503599627370495 / 4503599627370496 := by
  rw [round64_eq _ (-1) (9007199254740990) (by norm_num [abs_of_pos, abs_of_neg])
    (by norm_num [abs_of_pos, abs_of_neg]) (by norm_num [roundEven])]
  norm_num

/-- A value of `round64`, used to evaluate the embedding in `double` arithmetic. -/
@[simp]
theorem round64_val27 :
    round64 (-(1801439850948199 / 18014398509481984))
      = -(1801439850948199 / 18014398509481984) := by
  rw [round64_eq _ (-4) (-7205759403792796) (by norm_num [abs_of_pos, abs_of_neg])
    (by norm_num [abs_of_pos, abs_of_neg]) (by norm_num [roundEven])]
  norm_num

/-- A value of `round64`, used to evaluate the embedding in `double` arithmetic. -/
@[simp]
theorem round64_val28 :
    round64 (-(3602879701896397 / 36028797018963968))
      = -(3602879701896397 / 36028797018963968) := by
  rw [round64_eq _ (-4) (-7205759403792794) (by norm_num [abs_of_pos, abs_of_neg])
    (by norm_num [abs_of_pos, abs_of_neg]) (by norm_num [roundEven])]
  norm_num

/-- A value of `round64`, used to evaluate the embedding in `double` arithmetic. -/
@[simp]
theorem round64_val29 :
    round64 (14411518807585587 / 36028797018963968)
      = 3602879701896397 / 9007199254740992 := by
  rw [round64_eq _ (-2) (7205759403792794) (by norm_num [abs_of_pos, abs_of_neg])
    (by norm_num [abs_of_pos, abs_of_neg]) (by norm_num [roundEven])]
  norm_num

end Lemmas

/-! The claims. -/

section Claims

variable {K : Type} [LinearOrderedField K] [FloorRing K]

/-- C1: two-level descent.  Let the root universe have a Universe-filled region that is its
only region accepting the point `(x, y)` and that is filled by a lattice; let the lattice
indices `(i, j)` of the point be in range, and let lattice cell `(i, j)` be bound to a
universe of the table whose single region is Material-filled and contains every point.
Then `Universe::findCell` on a fresh one-link cursor returns that Material region, and the
cursor chain afterwards has exactly 3 links with level types UNIV, LAT, UNIV, the middle
link recording the lattice indices `(i, j)`. -/
theorem C1_two_level_descent (thresh : K) (universes : Int → Option (UniverseObj K))
    (fuel : Nat) (root : Universe K) (kf : Int) (fill : Cell K) (lat : Lattice K)
    (i j : Int) (ptr : UniversePtr) (pin : Universe K) (k : Int) (mat : Cell K) (x y : K)
    (hmem : (kf, fill) ∈ root.cells)
    (hacc : fill.cellContainsCoords ⟨x, y⟩ = true)
    (honly : ∀ e ∈ root.cells, e.2.cellContainsCoords ⟨x, y⟩ = true → e.2 = fill)
    (hfill : fill.type = cellType.FILL)
    (hlat : universes fill.universe_fill = some (UniverseObj.lattice lat))
    (hi : lat.getLatX thresh ⟨x, y⟩ = .ok i) (hj : lat.getLatY thresh ⟨x, y⟩ = .ok j)
    (hi0 : 0 ≤ i) (hi1 : i < lat.num_x) (hj0 : 0 ≤ j) (hj1 : j < lat.num_y)
    (hptr : lat.getUniverse i j = .ok (some ptr))
    (hpin : universes ptr.id = some (UniverseObj.base pin))
    (hcells : pin.cells = [(k, mat)]) (hmat : mat.type = cellType.MATERIAL)
    (hall : ∀ q, mat.cellContainsCoords q = true) :
    ∃ c0 c1 c2,
      Universe.findCell thresh universes (fuel + 2) root (LocalCoords.new x y) []
        = .ok (some mat, [c0, c1, c2]) ∧
      c0.type = some coordType.UNIV ∧ c1.type = some coordType.LAT ∧
      c2.type = some coordType.UNIV ∧
      c1.lattice_x = some i ∧ c1.lattice_y = some j := by
  have h0 : Universe.firstContaining root.cells (LocalCoords.new x y).point = some fill :=
    firstContaining_unique hmem hacc honly
  have h2 : ∀ c : LocalCoords K,
      Universe.firstContaining pin.cells c.point = some mat := by
    intro c
    rw [hcells]
    simp [Universe.firstContaining, hall]
  rw [Universe.findCell_fill thresh universes (fuel + 1) root (LocalCoords.new x y) []
    fill (UniverseObj.lattice lat) h0 hfill hlat (by intro v hv; cases hv)]
  simp only [UniverseObj.findCell, nextCoords, List.tail_nil]
  rw [Lattice.findCell_descend thresh universes fuel lat _ [] i j ptr (UniverseObj.base pin)
    hi hj hi0 hi1 hj0 hj1 hptr hpin]
  simp only [UniverseObj.findCell, nextCoords, List.tail_nil]
  rw [Universe.findCell_material thresh universes fuel pin _ [] mat (h2 _) hmat]
  exact ⟨_, _, _, rfl, rfl, rfl, rfl, rfl, rfl⟩

/-- C1 at the spec's example: in `lattice2x3` (filling the single region of
`rootUniverse 11`) the point (1/2, 1) lies in lattice cell (1, 2), which is bound to the
universe with id 2; the query returns the Material region of that universe, and the chain
has 3 links. -/
theorem C1_two_level_descent_witness :
    ∃ c0 c1 c2,
      Universe.findCell thresh12 (exampleTable 1 0 0) 2 (rootUniverse 11)
          (LocalCoords.new (1 / 2) 1) []
        = .ok (some (materialEverywhere 8 4), [c0, c1, c2]) ∧
      c0.type = some coordType.UNIV ∧ c1.type = some coordType.LAT ∧
      c2.type = some coordType.UNIV ∧
      c1.lattice_x = some 1 ∧ c1.lattice_y = some 2 :=
  C1_two_level_descent thresh12 (exampleTable 1 0 0) 0 (rootUniverse 11) 5
    (fillEverywhere 11) lattice2x3 1 2 { uid := 2, id := 2 } (pinUniverse 2 2 8 4) 8
    (materialEverywhere 8 4) (1 / 2) 1
    (by simp [rootUniverse]) (by simp [fillEverywhere])
    (by simp [rootUniverse]) rfl (by simp [exampleTable, fillEverywhere])
    (by norm_num [Lattice.getLatX, lattice2x3, thresh12, abs_lt])
    (by norm_num [Lattice.getLatY, lattice2x3, thresh12, abs_lt])
    (by norm_num) (by norm_num [lattice2x3]) (by norm_num) (by norm_num [lattice2x3])
    (by simp [Lattice.getUniverse, lattice2x3, vectorAt, bind, Except.bind, pure,
      Except.pure])
    (by simp [exampleTable]) (by simp [pinUniverse]) rfl (by simp [materialEverywhere])

/-- C2: `Universe::findCell` scans the registry in ascending region-id order (the registry
is a `std::map` keyed by the region ids, hence strictly ascending in its keys).  If the
accepting region with the least id is Material-filled, `findCell` returns exactly that
region, sets the level type of the cursor link to UNIV and records the id of the region on
it; if no region accepts the point, it returns the null result. -/
theorem C2_findCell_scan (thresh : K) (universes : Int → Option (UniverseObj K))
    (fuel : Nat) (u : Universe K) (coords : LocalCoords K) (next : List (LocalCoords K))
    (hsorted : u.cells.Pairwise (fun a b => a.1 < b.1))
    (hkeys : ∀ e ∈ u.cells, e.1 = e.2.id) :
    (∀ k cell, (k, cell) ∈ u.cells → cell.cellContainsCoords coords.point = true →
      (∀ e ∈ u.cells, e.2.id < cell.id → e.2.cellContainsCoords coords.point = false) →
      cell.type = cellType.MATERIAL →
      Universe.findCell thresh universes fuel u coords next
        = .ok (some cell,
            { coords with type := some coordType.UNIV, cell := some cell.id } :: next)) ∧
    ((∀ e ∈ u.cells, e.2.cellContainsCoords coords.point = false) →
      Universe.findCell thresh universes fuel u coords next
        = .ok (none, { coords with type := some coordType.UNIV } :: next)) := by
  constructor
  · intro k cell hm hc hl hmat
    have hk : k = cell.id := hkeys (k, cell) hm
    have hl2 : ∀ e ∈ u.cells, e.1 < k → e.2.cellContainsCoords coords.point = false := by
      intro e he hlt
      have h1 : e.1 = e.2.id := hkeys e he
      exact hl e he (by omega)
    exact Universe.findCell_material thresh universes fuel u coords next cell
      (firstContaining_least hsorted hm hc hl2) hmat
  · intro hnone
    exact Universe.findCell_none thresh universes fuel u coords next
      (firstContaining_none hnone)

/-- C2 at `halfPlaneUniverse`: the point (1, 0) is found in the region `rightHalfPlane`,
the point (-1, 0) in no region. -/
theorem C2_findCell_scan_witness :
    Universe.findCell thresh12 (exampleTable 1 0 0) 0 halfPlaneUniverse
        (LocalCoords.new 1 0) []
      = .ok (some rightHalfPlane,
          [{ LocalCoords.new (1 : ℚ) 0 with
              type := some coordType.UNIV, cell := some rightHalfPlane.id }]) ∧
    Universe.findCell thresh12 (exampleTable 1 0 0) 0 halfPlaneUniverse
        (LocalCoords.new (-1) 0) []
      = .ok (none, [{ LocalCoords.new (-1 : ℚ) 0 with type := some coordType.UNIV }]) :=
  ⟨(C2_findCell_scan thresh12 (exampleTable 1 0 0) 0 halfPlaneUniverse
      (LocalCoords.new 1 0) [] (by simp [halfPlaneUniverse])
      (by simp [halfPlaneUniverse, rightHalfPlane])).1 6 rightHalfPlane
      (by simp [halfPlaneUniverse]) (by simp [rightHalfPlane, LocalCoords.new])
      (by simp [halfPlaneUniverse]) rfl,
   (C2_findCell_scan thresh12 (exampleTable 1 0 0) 0 halfPlaneUniverse
      (LocalCoords.new (-1) 0) [] (by simp [halfPlaneUniverse])
      (by simp [halfPlaneUniverse, rightHalfPlane])).2
      (by simp [halfPlaneUniverse, rightHalfPlane, LocalCoords.new])⟩

/-- C3, refuted as stated: `halfPlaneUniverse` has no Universe-filled region, so any table
serves (here the empty one).  Started on the link at (1, 0) of a cursor that still has a
next link at (-5, 0) from an earlier query, `Universe::findCell` returns the region
`rightHalfPlane` and leaves the chain with its 2 links; the point of the last link is not
accepted by the containment test of the returned region. -/
theorem C3_findCell_outcome_counterexample :
    ∃ ch last,
      Universe.findCell thresh12 (fun _ => none) 0 halfPlaneUniverse
          (LocalCoords.new 1 0) [LocalCoords.new (-5) 0]
        = .ok (some rightHalfPlane, ch) ∧
      ch.getLast? = some last ∧
      rightHalfPlane.cellContainsCoords last.point = false := by
  refine ⟨[{ LocalCoords.new (1 : ℚ) 0 with
              type := some coordType.UNIV, cell := some 6 }, LocalCoords.new (-5) 0],
    LocalCoords.new (-5) 0, ?_, rfl, ?_⟩
  · simp [Universe.findCell, halfPlaneUniverse, Universe.firstContaining, rightHalfPlane,
      LocalCoords.new]
  · simp [rightHalfPlane, LocalCoords.new]

/-- C3, amended: in a universe table whose containment graph is acyclic (`rank` is a
height function), in which every referenced universe id is present, every lattice cell in
range is bound and plain universes that fill a region carry the tag SIMPLE, `findCell` (of
a Universe and of a Lattice whose nesting height is at most `n`) started on any cursor,
with a recursion bound of at least `n`, either raises the outside-lattice-bounds error or
returns; what it returns is the null result or a Material-filled region, never a
Universe-filled one, and when the cursor had no next link the returned region is one whose
containment test accepted the point of the last cursor link. -/
theorem C3_findCell_outcome_amended (thresh : K)
    (universes : Int → Option (UniverseObj K)) (rank : Int → Nat)
    (htable : AcyclicTable universes rank) (n fuel : Nat) (hfuel : n ≤ fuel)
    (coords : LocalCoords K) (next : List (LocalCoords K)) :
    (∀ u : Universe K, UniverseObj.nestedBelow universes rank n (UniverseObj.base u) →
      (Universe.findCell thresh universes fuel u coords next = .error .latticeBounds ∨
        ∃ r ch, Universe.findCell thresh universes fuel u coords next = .ok (r, ch) ∧
          (r = none ∨ ∃ c, r = some c ∧ c.type = cellType.MATERIAL ∧
            (next = [] → ∃ last, ch.getLast? = some last ∧
              c.cellContainsCoords last.point = true)))) ∧
    (∀ l : Lattice K, UniverseObj.nestedBelow universes rank n (UniverseObj.lattice l) →
      (Lattice.findCell thresh universes fuel l coords next = .error .latticeBounds ∨
        ∃ r ch, Lattice.findCell thresh universes fuel l coords next = .ok (r, ch) ∧
          (r = none ∨ ∃ c, r = some c ∧ c.type = cellType.MATERIAL ∧
            (next = [] → ∃ last, ch.getLast? = some last ∧
              c.cellContainsCoords last.point = true)))) :=
  ⟨fun u hu => findCell_settled thresh universes rank htable fuel n hfuel
      (UniverseObj.base u) coords next hu,
   fun l hl => findCell_settled thresh universes rank htable fuel n hfuel
      (UniverseObj.lattice l) coords next hl⟩

/-- C3 (amended) at `exampleTable 1 0 0`, with a recursion bound of 2: the query from
`rootUniverse 11` at the point (1/2, 1), and the query in `lattice2x3` at the point (5, 0)
outside the lattice. -/
theorem C3_findCell_outcome_amended_witness :
    (Universe.findCell thresh12 (exampleTable 1 0 0) 2 (rootUniverse 11)
        (LocalCoords.new (1 / 2) 1) [] = .error .latticeBounds ∨
      ∃ r ch, Universe.findCell thresh12 (exampleTable 1 0 0) 2 (rootUniverse 11)
          (LocalCoords.new (1 / 2) 1) [] = .ok (r, ch) ∧
        (r = none ∨ ∃ c, r = some c ∧ c.type = cellType.MATERIAL ∧
          (([] : List (LocalCoords ℚ)) = [] → ∃ last, ch.getLast? = some last ∧
            c.cellContainsCoords last.point = true))) ∧
    (Lattice.findCell thresh12 (exampleTable 1 0 0) 2 lattice2x3
        (LocalCoords.new 5 0) [] = .error .latticeBounds ∨
      ∃ r ch, Lattice.findCell thresh12 (exampleTable 1 0 0) 2 lattice2x3
          (LocalCoords.new 5 0) [] = .ok (r, ch) ∧
        (r = none ∨ ∃ c, r = some c ∧ c.type = cellType.MATERIAL ∧
          (([] : List (LocalCoords ℚ)) = [] → ∃ last, ch.getLast? = some last ∧
            c.cellContainsCoords last.point = true))) :=
  ⟨(C3_findCell_outcome_amended thresh12 (exampleTable 1 0 0) exampleRank
      exampleTable_acyclic 2 2 (le_refl 2) (LocalCoords.new (1 / 2) 1) []).1
      (rootUniverse 11) (by
        intro e he hf
        simp [rootUniverse] at he
        subst he
        exact ⟨UniverseObj.lattice lattice2x3, by simp [exampleTable, fillEverywhere],
          by simp [exampleRank, fillEverywhere], by intro v hv; cases hv⟩),
   (C3_findCell_outcome_amended thresh12 (exampleTable 1 0 0) exampleRank
      exampleTable_acyclic 2 2 (le_refl 2) (LocalCoords.new 5 0) []).2
      lattice2x3 (by
        have h := exampleTable_acyclic 11 (UniverseObj.lattice lattice2x3)
          (by simp [exampleTable])
        intro i j hi0 hi1 hj0 hj1
        obtain ⟨ptr, o, h1, h2, h3⟩ := h i j hi0 hi1 hj0 hj1
        have hr : exampleRank 11 = 1 := by simp [exampleRank]
        exact ⟨ptr, o, h1, h2, by omega⟩)⟩

/-- C4, refuted as stated, in `double` arithmetic.  `lattice19` has 19 columns of width
21.42 and is centred at x = 16000.01 (both as `double`); the point (16203.5, 0) is strictly
inside its bounds on both axes (by about `2.3E-13` on the high side of x).  In the
arithmetic of `double` the distance to the left edge comes out as 406.9800000000014, above
the extent 406.98 by more than `ON_SURFACE_THRESH`, and its quotient by the width as
19.000000000000064: `getLatX` raises the outside-lattice-bounds error. -/
theorem C4_getLat_inside_counterexample :
    0 < lattice19.width_x ∧ 0 < lattice19.width_y ∧
    1 ≤ lattice19.num_x ∧ 1 ≤ lattice19.num_y ∧
    lattice19.offset.x - lattice19.num_x * lattice19.width_x / 2 < (32407 / 2 : ℚ) ∧
    (32407 / 2 : ℚ) < lattice19.offset.x + lattice19.num_x * lattice19.width_x / 2 ∧
    lattice19.offset.y - lattice19.num_y * lattice19.width_y / 2 < (0 : ℚ) ∧
    (0 : ℚ) < lattice19.offset.y + lattice19.num_y * lattice19.width_y / 2 ∧
    lattice19.getLatX_fl round64 thresh64 ⟨32407 / 2, 0⟩ = .error .latticeBounds := by
  refine ⟨?_, ?_, ?_, ?_, ?_, ?_, ?_, ?_, ?_⟩
  · norm_num [lattice19]
  · norm_num [lattice19]
  · norm_num [lattice19]
  · norm_num [lattice19]
  · norm_num [lattice19]
  · norm_num [lattice19]
  · norm_num [lattice19]
  · norm_num [lattice19]
  · norm_num [Lattice.getLatX_fl, lattice19, thresh64, abs_lt, round64_val1, round64_val2,
      round64_val3, round64_val4, round64_val5, round64_val6]

/-- C4, amended: let every arithmetic operation of `double` have a relative rounding error of
at most `u` (`u = 2^(-53)` for IEEE binary64 away from overflow and underflow; `u = 0` is
exact arithmetic, for which this is the claim as stated).  For a lattice with positive cell
widths and counts `num_x, num_y ≥ 1` and a point inside the lattice bounds, on both axes,
by more than the rounding bound `8 * u * (count * width + |coordinate| + |offset| +
ON_SURFACE_THRESH)`, `getLatX` returns an index in `[0, num_x - 1]`, `getLatY` an index in
`[0, num_y - 1]`, and neither raises the outside-lattice-bounds error. -/
theorem C4_getLat_inside_amended (fl : K → K) (u thresh : K) (l : Lattice K) (p : Point K)
    (hu0 : 0 ≤ u) (hu : u ≤ 1 / 16) (hfl : ∀ a, |fl a - a| ≤ u * |a|) (ht : 0 < thresh)
    (hwx : 0 < l.width_x) (hwy : 0 < l.width_y) (hnx : 1 ≤ l.num_x) (hny : 1 ≤ l.num_y)
    (hx1 : l.offset.x - l.num_x * l.width_x / 2
      + roundoff u l.width_x l.num_x p.x l.offset.x thresh < p.x)
    (hx2 : p.x < l.offset.x + l.num_x * l.width_x / 2
      - roundoff u l.width_x l.num_x p.x l.offset.x thresh)
    (hy1 : l.offset.y - l.num_y * l.width_y / 2
      + roundoff u l.width_y l.num_y p.y l.offset.y thresh < p.y)
    (hy2 : p.y < l.offset.y + l.num_y * l.width_y / 2
      - roundoff u l.width_y l.num_y p.y l.offset.y thresh) :
    (∃ i, l.getLatX_fl fl thresh p = .ok i ∧ 0 ≤ i ∧ i ≤ l.num_x - 1) ∧
    (∃ j, l.getLatY_fl fl thresh p = .ok j ∧ 0 ≤ j ∧ j ≤ l.num_y - 1) ∧
    l.getLatX_fl fl thresh p ≠ .error .latticeBounds ∧
    l.getLatY_fl fl thresh p ≠ .error .latticeBounds := by
  obtain ⟨i, hi, hi0, hi1⟩ := getLatX_fl_inside fl u thresh l p hu0 hu hfl ht.le hwx hnx
    hx1 hx2
  obtain ⟨j, hj, hj0, hj1⟩ := getLatX_fl_inside fl u thresh
    { l with width_x := l.width_y, num_x := l.num_y,
             offset := { x := l.offset.y, y := l.offset.x } }
    { x := p.y, y := p.x } hu0 hu hfl ht.le hwy hny hy1 hy2
  rw [← getLatY_fl_swap] at hj
  refine ⟨⟨i, hi, hi0, hi1⟩, ⟨j, hj, hj0, hj1⟩, ?_, ?_⟩
  · rw [hi]
    simp
  · rw [hj]
    simp

/-- C4 (amended) in `double` arithmetic (`round64`, unit roundoff `2^(-53)`) at `lattice19`
and the point (16203.25, 0), a quarter inside the high x bound. -/
theorem C4_getLat_inside_amended_witness :
    (∃ i, lattice19.getLatX_fl round64 thresh64 ⟨64813 / 4, 0⟩ = .ok i ∧ 0 ≤ i ∧
      i ≤ lattice19.num_x - 1) ∧
    (∃ j, lattice19.getLatY_fl round64 thresh64 ⟨64813 / 4, 0⟩ = .ok j ∧ 0 ≤ j ∧
      j ≤ lattice19.num_y - 1) ∧
    lattice19.getLatX_fl round64 thresh64 ⟨64813 / 4, 0⟩ ≠ .error .latticeBounds ∧
    lattice19.getLatY_fl round64 thresh64 ⟨64813 / 4, 0⟩ ≠ .error .latticeBounds :=
  C4_getLat_inside_amended round64 unit64 thresh64 lattice19 ⟨64813 / 4, 0⟩
    (by norm_num [unit64]) (by norm_num [unit64]) round64_error (by norm_num [thresh64])
    (by norm_num [lattice19]) (by norm_num [lattice19]) (by norm_num [lattice19])
    (by norm_num [lattice19])
    (by norm_num [lattice19, roundoff, unit64, thresh64, abs_of_pos])
    (by norm_num [lattice19, roundoff, unit64, thresh64, abs_of_pos])
    (by norm_num [lattice19, roundoff, unit64, thresh64])
    (by norm_num [lattice19, roundoff, unit64, thresh64])

/-- C5, refuted as stated, in `double` arithmetic.  (a) `thinLattice` has one column whose
width, the extent of the axis, is twice `ON_SURFACE_THRESH`; the x coordinate
`-2 * ON_SURFACE_THRESH` is at distance exactly `ON_SURFACE_THRESH` from the outer low
edge, and `getLatX` raises the outside-lattice-bounds error: the tests of the clamps are
strict.  (b) In `lattice19` the x coordinate 16203.5 is nearer than `ON_SURFACE_THRESH`
to the outer high edge (about `2.3E-13` inside it), and `getLatX` raises the error
instead of returning the index 18: the rounding error of the distances exceeds the
threshold. -/
theorem C5_boundary_clamp_counterexample :
    (2 * thresh64 ≤ thinLattice.num_x * thinLattice.width_x ∧
      |(-4951760157141521 / 2 ^ 91 : ℚ)
          - (thinLattice.offset.x - thinLattice.num_x * thinLattice.width_x / 2)|
        ≤ thresh64 ∧
      thinLattice.getLatX_fl round64 thresh64 ⟨-4951760157141521 / 2 ^ 91, 0⟩
        = .error .latticeBounds) ∧
    (2 * thresh64 ≤ lattice19.num_x * lattice19.width_x ∧
      |(32407 / 2 : ℚ) - (lattice19.offset.x + lattice19.num_x * lattice19.width_x / 2)|
        < thresh64 ∧
      lattice19.getLatX_fl round64 thresh64 ⟨32407 / 2, 0⟩ = .error .latticeBounds) := by
  refine ⟨⟨?_, ?_, ?_⟩, ⟨?_, ?_, ?_⟩⟩
  · norm_num [thinLattice, thresh64]
  · norm_num [thinLattice, thresh64, abs_le]
  · norm_num [Lattice.getLatX_fl, thinLattice, thresh64, abs_lt]
  · norm_num [lattice19, thresh64]
  · norm_num [lattice19, thresh64, abs_lt]
  · norm_num [Lattice.getLatX_fl, lattice19, thresh64, abs_lt]

/-- C5, amended: let every arithmetic operation of `double` have a relative rounding error of
at most `u` (`u = 2^(-53)` for IEEE binary64 away from overflow and underflow; `u = 0` is
exact arithmetic), and let `r` be the rounding bound `8 * u * (count * width +
|coordinate| + |offset| + ON_SURFACE_THRESH)` of the axis.  On an axis whose extent
`count * width` is at least `2 * ON_SURFACE_THRESH`, a coordinate at distance less than
`ON_SURFACE_THRESH - r` from the outer low edge gets index 0 and a coordinate at distance
less than `ON_SURFACE_THRESH - r` from the outer high edge gets index `count - 1`; in
particular, when `r` is less than the threshold, a coordinate exactly on the high edge gets
`count - 1`.  This holds for `getLatX` and for `getLatY`, and the out-of-bounds error is
not raised. -/
theorem C5_boundary_clamp_amended (fl : K → K) (u thresh : K) (l : Lattice K) (p : Point K)
    (hu0 : 0 ≤ u) (hu : u ≤ 1 / 16) (hfl : ∀ a, |fl a - a| ≤ u * |a|) (ht : 0 < thresh)
    (hwx : 0 ≤ l.width_x) (hwy : 0 ≤ l.width_y) (hnx : 0 ≤ l.num_x) (hny : 0 ≤ l.num_y) :
    (2 * thresh ≤ l.num_x * l.width_x →
      (|p.x - (l.offset.x - l.num_x * l.width_x / 2)|
          < thresh - roundoff u l.width_x l.num_x p.x l.offset.x thresh →
        l.getLatX_fl fl thresh p = .ok 0) ∧
      (|p.x - (l.offset.x + l.num_x * l.width_x / 2)|
          < thresh - roundoff u l.width_x l.num_x p.x l.offset.x thresh →
        l.getLatX_fl fl thresh p = .ok (l.num_x - 1)) ∧
      (roundoff u l.width_x l.num_x p.x l.offset.x thresh < thresh →
        p.x = l.offset.x + l.num_x * l.width_x / 2 →
        l.getLatX_fl fl thresh p = .ok (l.num_x - 1))) ∧
    (2 * thresh ≤ l.num_y * l.width_y →
      (|p.y - (l.offset.y - l.num_y * l.width_y / 2)|
          < thresh - roundoff u l.width_y l.num_y p.y l.offset.y thresh →
        l.getLatY_fl fl thresh p = .ok 0) ∧
      (|p.y - (l.offset.y + l.num_y * l.width_y / 2)|
          < thresh - roundoff u l.width_y l.num_y p.y l.offset.y thresh →
        l.getLatY_fl fl thresh p = .ok (l.num_y - 1)) ∧
      (roundoff u l.width_y l.num_y p.y l.offset.y thresh < thresh →
        p.y = l.offset.y + l.num_y * l.width_y / 2 →
        l.getLatY_fl fl thresh p = .ok (l.num_y - 1))) := by
  constructor
  · intro hext
    refine ⟨fun h => getLatX_fl_low fl u thresh l p hu0 hu hfl ht.le hwx hnx h,
      fun h => getLatX_fl_high fl u thresh l p hu0 hu hfl ht.le hwx hnx hext h, ?_⟩
    intro hr hx
    apply getLatX_fl_high fl u thresh l p hu0 hu hfl ht.le hwx hnx hext
    have h0 : p.x - (l.offset.x + l.num_x * l.width_x / 2) = 0 := by
      rw [hx]
      exact sub_self _
    rw [h0, abs_zero]
    linarith only [hr]
  · intro hext
    rw [getLatY_fl_swap]
    refine ⟨fun h => getLatX_fl_low fl u thresh _ _ hu0 hu hfl ht.le hwy hny h,
      fun h => getLatX_fl_high fl u thresh _ _ hu0 hu hfl ht.le hwy hny hext h, ?_⟩
    intro hr hy
    apply getLatX_fl_high fl u thresh _ _ hu0 hu hfl ht.le hwy hny hext
    have h0 : p.y - (l.offset.y + l.num_y * l.width_y / 2) = 0 := by
      rw [hy]
      exact sub_self _
    simp only []
    rw [h0, abs_zero]
    linarith only [hr]

/-- C5 (amended) in `double` arithmetic (`round64`, unit roundoff `2^(-53)`) at the 2 x 2
lattice of width 1 centred at the origin: the point (1, -1) lies on the outer high x edge
and on the outer low y edge, and the x coordinate `-1 - 2^(-41)` is outside the low x edge
by less than the threshold. -/
theorem C5_boundary_clamp_amended_witness :
    (lattice2x2 1 0 0).getLatX_fl round64 thresh64 ⟨1, -1⟩ = .ok 1 ∧
    (lattice2x2 1 0 0).getLatY_fl round64 thresh64 ⟨1, -1⟩ = .ok 0 ∧
    (lattice2x2 1 0 0).getLatX_fl round64 thresh64 ⟨-1 - 1 / 2 ^ 41, 0⟩ = .ok 0 :=
  have hx : 2 * thresh64 ≤ ((lattice2x2 1 0 0).num_x : ℚ) * (lattice2x2 1 0 0).width_x := by
    norm_num [lattice2x2, thresh64]
  have hy : 2 * thresh64 ≤ ((lattice2x2 1 0 0).num_y : ℚ) * (lattice2x2 1 0 0).width_y := by
    norm_num [lattice2x2, thresh64]
  ⟨((C5_boundary_clamp_amended round64 unit64 thresh64 (lattice2x2 1 0 0) ⟨1, -1⟩
      (by norm_num [unit64]) (by norm_num [unit64]) round64_error (by norm_num [thresh64])
      (by norm_num [lattice2x2]) (by norm_num [lattice2x2]) (by norm_num [lattice2x2])
      (by norm_num [lattice2x2])).1 hx).2.2
      (by norm_num [lattice2x2, roundoff, unit64, thresh64])
      (by norm_num [lattice2x2]),
   ((C5_boundary_clamp_amended round64 unit64 thresh64 (lattice2x2 1 0 0) ⟨1, -1⟩
      (by norm_num [unit64]) (by norm_num [unit64]) round64_error (by norm_num [thresh64])
      (by norm_num [lattice2x2]) (by norm_num [lattice2x2]) (by norm_num [lattice2x2])
      (by norm_num [lattice2x2])).2 hy).1
      (by norm_num [lattice2x2, roundoff, unit64, thresh64]),
   ((C5_boundary_clamp_amended round64 unit64 thresh64 (lattice2x2 1 0 0)
      ⟨-1 - 1 / 2 ^ 41, 0⟩
      (by norm_num [unit64]) (by norm_num [unit64]) round64_error (by norm_num [thresh64])
      (by norm_num [lattice2x2]) (by norm_num [lattice2x2]) (by norm_num [lattice2x2])
      (by norm_num [lattice2x2])).1 hx).1
      (by norm_num [lattice2x2, roundoff, unit64, thresh64, abs_lt, abs_of_pos])⟩

/-- C6, refuted as stated, in `double` arithmetic.  (a) At the 2 x 2 lattice of width 1
centred at the origin the point `(1 + 2^(-41), 0)` is not within bounds, yet neither
`getLatX` nor `getLatY` raises the out-of-bounds error: the x index is clamped to 1.
(b) At `lattice19` the point (16203.5, 0) is within bounds, the upper x bound being
computed as 16203.5, yet `getLatX` raises the out-of-bounds error. -/
theorem C6_withinBounds_iff_counterexample :
    ¬ ((lattice2x2 1 0 0).withinBounds_fl round64 ⟨1 + 1 / 2 ^ 41, 0⟩ = true ↔
        ((lattice2x2 1 0 0).getLatX_fl round64 thresh64 ⟨1 + 1 / 2 ^ 41, 0⟩
            ≠ .error .latticeBounds ∧
         (lattice2x2 1 0 0).getLatY_fl round64 thresh64 ⟨1 + 1 / 2 ^ 41, 0⟩
            ≠ .error .latticeBounds)) ∧
    ¬ (lattice19.withinBounds_fl round64 ⟨32407 / 2, 0⟩ = true ↔
        (lattice19.getLatX_fl round64 thresh64 ⟨32407 / 2, 0⟩ ≠ .error .latticeBounds ∧
         lattice19.getLatY_fl round64 thresh64 ⟨32407 / 2, 0⟩ ≠ .error .latticeBounds)) := by
  have h1 : (lattice2x2 1 0 0).withinBounds_fl round64 ⟨1 + 1 / 2 ^ 41, 0⟩ = false := by
    norm_num [Lattice.withinBounds_fl, lattice2x2]
  have h2 : (lattice2x2 1 0 0).getLatX_fl round64 thresh64 ⟨1 + 1 / 2 ^ 41, 0⟩ = .ok 1 := by
    norm_num [Lattice.getLatX_fl, lattice2x2, thresh64, abs_lt]
  have h3 : (lattice2x2 1 0 0).getLatY_fl round64 thresh64 ⟨1 + 1 / 2 ^ 41, 0⟩ = .ok 1 := by
    norm_num [Lattice.getLatY_fl, lattice2x2, thresh64, abs_lt]
  have h4 : lattice19.withinBounds_fl round64 ⟨32407 / 2, 0⟩ = true := by
    norm_num [Lattice.withinBounds_fl, lattice19]
  have h5 : lattice19.getLatX_fl round64 thresh64 ⟨32407 / 2, 0⟩ = .error .latticeBounds := by
    norm_num [Lattice.getLatX_fl, lattice19, thresh64, abs_lt]
  rw [h1, h2, h3, h4, h5]
  simp

/-- C6, amended: let every arithmetic operation of `double` have a relative rounding error of
at most `u` (`u = 2^(-53)` for IEEE binary64 away from overflow and underflow; `u = 0` is
exact arithmetic), and let `r` be the rounding bound `8 * u * (count * width +
|coordinate| + |offset| + ON_SURFACE_THRESH)` of an axis.  For a lattice with positive cell
widths and counts `≥ 0` and a point each of whose coordinates is inside the bounds of its
axis by more than `r` or outside them by more than `ON_SURFACE_THRESH + r`,
`withinBounds(point)` is true if and only if neither `getLatX(point)` nor
`getLatY(point)` raises the out-of-bounds error; both hold exactly when both coordinates
are inside.  Nothing is said of a coordinate in the band left out around an outer edge,
from `r` inside it to `ON_SURFACE_THRESH + r` outside it. -/
theorem C6_withinBounds_amended (fl : K → K) (u thresh : K) (l : Lattice K) (p : Point K)
    (hu0 : 0 ≤ u) (hu : u ≤ 1 / 16) (hfl : ∀ a, |fl a - a| ≤ u * |a|) (ht : 0 < thresh)
    (hwx : 0 < l.width_x) (hwy : 0 < l.width_y) (hnx : 0 ≤ l.num_x) (hny : 0 ≤ l.num_y)
    (hx : (l.offset.x - l.num_x * l.width_x / 2
          + roundoff u l.width_x l.num_x p.x l.offset.x thresh < p.x ∧
        p.x < l.offset.x + l.num_x * l.width_x / 2
          - roundoff u l.width_x l.num_x p.x l.offset.x thresh) ∨
      (p.x < l.offset.x - l.num_x * l.width_x / 2 - thresh
          - roundoff u l.width_x l.num_x p.x l.offset.x thresh ∨
        l.offset.x + l.num_x * l.width_x / 2 + thresh
          + roundoff u l.width_x l.num_x p.x l.offset.x thresh < p.x))
    (hy : (l.offset.y - l.num_y * l.width_y / 2
          + roundoff u l.width_y l.num_y p.y l.offset.y thresh < p.y ∧
        p.y < l.offset.y + l.num_y * l.width_y / 2
          - roundoff u l.width_y l.num_y p.y l.offset.y thresh) ∨
      (p.y < l.offset.y - l.num_y * l.width_y / 2 - thresh
          - roundoff u l.width_y l.num_y p.y l.offset.y thresh ∨
        l.offset.y + l.num_y * l.width_y / 2 + thresh
          + roundoff u l.width_y l.num_y p.y l.offset.y thresh < p.y)) :
    (l.withinBounds_fl fl p = true ↔
      (l.getLatX_fl fl thresh p ≠ .error .latticeBounds ∧
        l.getLatY_fl fl thresh p ≠ .error .latticeBounds)) ∧
    (l.withinBounds_fl fl p = true ↔
      ((l.offset.x - l.num_x * l.width_x / 2
          + roundoff u l.width_x l.num_x p.x l.offset.x thresh < p.x ∧
        p.x < l.offset.x + l.num_x * l.width_x / 2
          - roundoff u l.width_x l.num_x p.x l.offset.x thresh) ∧
       (l.offset.y - l.num_y * l.width_y / 2
          + roundoff u l.width_y l.num_y p.y l.offset.y thresh < p.y ∧
        p.y < l.offset.y + l.num_y * l.width_y / 2
          - roundoff u l.width_y l.num_y p.y l.offset.y thresh))) := by
  have pWx : 0 ≤ u * ((l.num_x : K) * l.width_x) :=
    mul_nonneg hu0 (mul_nonneg (by exact_mod_cast hnx) hwx.le)
  have pWy : 0 ≤ u * ((l.num_y : K) * l.width_y) :=
    mul_nonneg hu0 (mul_nonneg (by exact_mod_cast hny) hwy.le)
  have pX : 0 ≤ u * |p.x| := mul_nonneg hu0 (abs_nonneg _)
  have pY : 0 ≤ u * |p.y| := mul_nonneg hu0 (abs_nonneg _)
  have pOx : 0 ≤ u * |l.offset.x| := mul_nonneg hu0 (abs_nonneg _)
  have pOy : 0 ≤ u * |l.offset.y| := mul_nonneg hu0 (abs_nonneg _)
  have pT : 0 ≤ u * thresh := mul_nonneg hu0 ht.le
  have rx : 0 ≤ roundoff u l.width_x l.num_x p.x l.offset.x thresh := by
    unfold roundoff
    linarith only [pWx, pX, pOx, pT]
  have ry : 0 ≤ roundoff u l.width_y l.num_y p.y l.offset.y thresh := by
    unfold roundoff
    linarith only [pWy, pY, pOy, pT]
  rcases hx with hx | hx
  · rcases hy with hy | hy
    · -- both coordinates inside
      have hn1 : 1 ≤ l.num_x := by
        by_contra hneg
        have hN0 : (l.num_x : K) ≤ 0 := by exact_mod_cast (by omega : l.num_x ≤ 0)
        have := mul_nonpos_iff.mpr (Or.inr ⟨hN0, hwx.le⟩)
        linarith only [hx.1, hx.2, rx, this]
      have hn2 : 1 ≤ l.num_y := by
        by_contra hneg
        have hN0 : (l.num_y : K) ≤ 0 := by exact_mod_cast (by omega : l.num_y ≤ 0)
        have := mul_nonpos_iff.mpr (Or.inr ⟨hN0, hwy.le⟩)
        linarith only [hy.1, hy.2, ry, this]
      have hwb := withinBounds_fl_inside fl u thresh l p hu0 hu hfl ht.le hwx.le hwy.le hnx
        hny hx.1 hx.2 hy.1 hy.2
      obtain ⟨i, hi, -, -⟩ := getLatX_fl_inside fl u thresh l p hu0 hu hfl ht.le hwx hn1
        hx.1 hx.2
      obtain ⟨j, hj, -, -⟩ := getLatX_fl_inside fl u thresh
        { l with width_x := l.width_y, num_x := l.num_y,
                 offset := { x := l.offset.y, y := l.offset.x } }
        { x := p.y, y := p.x } hu0 hu hfl ht.le hwy hn2 hy.1 hy.2
      rw [← getLatY_fl_swap] at hj
      refine ⟨⟨fun _ => ⟨?_, ?_⟩, fun _ => hwb⟩, ⟨fun _ => ⟨hx, hy⟩, fun _ => hwb⟩⟩
      · rw [hi]
        simp
      · rw [hj]
        simp
    · -- the y coordinate outside
      have hwb := withinBounds_fl_outside fl u thresh l p hu0 hu hfl ht.le hwx.le hwy.le
        hnx hny (Or.inr (by
          rcases hy with hy | hy
          · exact Or.inl (by linarith only [hy, ht])
          · exact Or.inr (by linarith only [hy, ht])))
      have hj := getLatX_fl_outside fl u thresh
        { l with width_x := l.width_y, num_x := l.num_y,
                 offset := { x := l.offset.y, y := l.offset.x } }
        { x := p.y, y := p.x } hu0 hu hfl ht.le hwy hny hy
      rw [← getLatY_fl_swap] at hj
      have hne : ¬ l.withinBounds_fl fl p = true := by
        rw [hwb]
        simp
      refine ⟨⟨fun h => absurd h hne, fun h => absurd hj h.2⟩,
        ⟨fun h => absurd h hne, fun hin => ?_⟩⟩
      exfalso
      rcases hy with hy | hy
      · linarith only [hy, hin.2.1, ht, ry]
      · linarith only [hy, hin.2.2, ht, ry]
  · -- the x coordinate outside
    have hwb := withinBounds_fl_outside fl u thresh l p hu0 hu hfl ht.le hwx.le hwy.le
      hnx hny (Or.inl (by
        rcases hx with hx | hx
        · exact Or.inl (by linarith only [hx, ht])
        · exact Or.inr (by linarith only [hx, ht])))
    have hi := getLatX_fl_outside fl u thresh l p hu0 hu hfl ht.le hwx hnx hx
    have hne : ¬ l.withinBounds_fl fl p = true := by
      rw [hwb]
      simp
    refine ⟨⟨fun h => absurd h hne, fun h => absurd hi h.1⟩,
      ⟨fun h => absurd h hne, fun hin => ?_⟩⟩
    exfalso
    rcases hx with hx | hx
    · linarith only [hx, hin.1.1, ht, rx]
    · linarith only [hx, hin.1.2, ht, rx]

/-- C6 (amended) in `double` arithmetic (`round64`, unit roundoff `2^(-53)`) at the 2 x 2
lattice of width 1 centred at the origin: the point (1/2, 0), inside on both axes, and the
point (3, 0), outside on the x axis. -/
theorem C6_withinBounds_amended_witness :
    ((lattice2x2 1 0 0).withinBounds_fl round64 ⟨1 / 2, 0⟩ = true ↔
      ((lattice2x2 1 0 0).getLatX_fl round64 thresh64 ⟨1 / 2, 0⟩ ≠ .error .latticeBounds ∧
        (lattice2x2 1 0 0).getLatY_fl round64 thresh64 ⟨1 / 2, 0⟩
          ≠ .error .latticeBounds)) ∧
    ((lattice2x2 1 0 0).withinBounds_fl round64 ⟨3, 0⟩ = true ↔
      ((lattice2x2 1 0 0).getLatX_fl round64 thresh64 ⟨3, 0⟩ ≠ .error .latticeBounds ∧
        (lattice2x2 1 0 0).getLatY_fl round64 thresh64 ⟨3, 0⟩ ≠ .error .latticeBounds)) :=
  ⟨(C6_withinBounds_amended round64 unit64 thresh64 (lattice2x2 1 0 0) ⟨1 / 2, 0⟩
      (by norm_num [unit64]) (by norm_num [unit64]) round64_error (by norm_num [thresh64])
      (by norm_num [lattice2x2]) (by norm_num [lattice2x2]) (by norm_num [lattice2x2])
      (by norm_num [lattice2x2])
      (Or.inl (by norm_num [lattice2x2, roundoff, unit64, thresh64, abs_of_pos]))
      (Or.inl (by norm_num [lattice2x2, roundoff, unit64, thresh64]))).1,
   (C6_withinBounds_amended round64 unit64 thresh64 (lattice2x2 1 0 0) ⟨3, 0⟩
      (by norm_num [unit64]) (by norm_num [unit64]) round64_error (by norm_num [thresh64])
      (by norm_num [lattice2x2]) (by norm_num [lattice2x2]) (by norm_num [lattice2x2])
      (by norm_num [lattice2x2])
      (Or.inr (Or.inr (by norm_num [lattice2x2, roundoff, unit64, thresh64, abs_of_pos])))
      (Or.inl (by norm_num [lattice2x2, roundoff, unit64, thresh64]))).1⟩

/-- C8, the code at the failing input: in the 2 x 2 lattice of width 1 centred at the
origin the point (5, 0) lies outside the lattice by more than the tolerance;
`Lattice::findCell` does not return the null result there but fails with the
outside-lattice-bounds error raised by `getLatX`, whatever the recursion bound. -/
theorem C8_findCell_outside_raises (fuel : Nat) :
    Lattice.findCell thresh12 (exampleTable 1 0 0) fuel (lattice2x2 1 0 0)
        (LocalCoords.new 5 0) []
      = .error .latticeBounds ∧
    Lattice.findCell thresh12 (exampleTable 1 0 0) fuel (lattice2x2 1 0 0)
        (LocalCoords.new 5 0) []
      ≠ .ok (none, [{ LocalCoords.new (5 : ℚ) 0 with type := some coordType.LAT }]) := by
  have h : Lattice.findCell thresh12 (exampleTable 1 0 0) fuel (lattice2x2 1 0 0)
      (LocalCoords.new 5 0) [] = .error .latticeBounds := by
    apply Lattice.findCell_errorX
    norm_num [Lattice.getLatX, lattice2x2, thresh12, abs_lt, LocalCoords.new]
  rw [h]
  exact ⟨rfl, by simp⟩

/-- C12: `Universe::minSurfaceDist(point, angle)` is the minimum, over every region of the
registry (whether or not the region contains the point), of the region's own
`minSurfaceDist(point, angle)`: it is at most the distance of each region and, for a
universe with regions, it is the distance of one of them; for a universe with no regions
it is `INFINITY`. -/
theorem C12_minSurfaceDist_min (cellMinSurfaceDist : Cell K → Point K → K → WithTop K)
    (u : Universe K) (point : Point K) (angle : K) :
    (∀ e ∈ u.cells,
      u.minSurfaceDist cellMinSurfaceDist point angle ≤ cellMinSurfaceDist e.2 point angle) ∧
    (u.cells ≠ [] → ∃ e ∈ u.cells,
      u.minSurfaceDist cellMinSurfaceDist point angle = cellMinSurfaceDist e.2 point angle) ∧
    (u.cells = [] → u.minSurfaceDist cellMinSurfaceDist point angle = ⊤) := by
  obtain ⟨⟨-, h2⟩, h3⟩ :=
    minSurfaceDist_fold (fun c => cellMinSurfaceDist c point angle) u.cells ⊤
  refine ⟨h2, fun hne => ?_, fun he => ?_⟩
  · rcases h3 with h | h
    · cases hc : u.cells with
      | nil => exact absurd hc hne
      | cons a rest =>
        have ha : a ∈ u.cells := by rw [hc]; exact List.mem_cons_self _ _
        have hle := h2 a ha
        change u.minSurfaceDist cellMinSurfaceDist point angle = ⊤ at h
        change u.minSurfaceDist cellMinSurfaceDist point angle
          ≤ cellMinSurfaceDist a.2 point angle at hle
        rw [← hc]
        refine ⟨a, ha, ?_⟩
        rw [h] at hle ⊢
        exact (top_le_iff.mp hle).symm
    · exact h
  · unfold Universe.minSurfaceDist
    rw [he]
    rfl

/-- C12 at `twoRegionUniverse` with the region-level distances `sampleCellDist` (3 and 2),
and at the universe with no region. -/
theorem C12_minSurfaceDist_min_witness :
    (∃ e ∈ twoRegionUniverse.cells,
      twoRegionUniverse.minSurfaceDist sampleCellDist ⟨0, 0⟩ 0
        = sampleCellDist e.2 ⟨0, 0⟩ 0) ∧
    emptyUniverse.minSurfaceDist sampleCellDist ⟨0, 0⟩ 0 = ⊤ :=
  ⟨(C12_minSurfaceDist_min sampleCellDist twoRegionUniverse ⟨0, 0⟩ 0).2.1
      (by simp [twoRegionUniverse]),
   (C12_minSurfaceDist_min sampleCellDist emptyUniverse ⟨0, 0⟩ 0).2.2 rfl⟩

/-- C13, refuted as stated: a lattice with cells narrower than the threshold.  In the 2 x 2
lattice of cell width `10^(-13)` centred at the origin (threshold `10^(-12)`), the point with
both coordinates `10^(-13) / 4` lies strictly inside lattice cell (1, 1), the square with
the sides `0` and `10^(-13)`; for the angle `pi / 4` the distance to the first grid line
ahead is `min(dx / |cos|, (top - y) / sin)` with `dx = top - y = 3 * 10^(-13) / 4`.
`getLatX` and `getLatY` clamp the point into cell (0, 0), and `Lattice::minSurfaceDist`
returns the smaller value `(10^(-13) / 4) / cos(pi / 4)`. -/
theorem C13_minSurfaceDist_counterexample :
    (0 < (1 / 10 ^ 13 : ℝ) / 4 ∧ (1 / 10 ^ 13 : ℝ) / 4 < 1 / 10 ^ 13) ∧
    (realLattice2x2 (1 / 10 ^ 13)).minSurfaceDist (1 / 10 ^ 12) Real.pi Real.tan Real.sqrt
        ⟨(1 / 10 ^ 13) / 4, (1 / 10 ^ 13) / 4⟩ (Real.pi / 4)
      = .ok ((1 / 10 ^ 13) / 4 / Real.cos (Real.pi / 4)) ∧
    (1 / 10 ^ 13 : ℝ) / 4 / Real.cos (Real.pi / 4)
      ≠ min ((1 / 10 ^ 13 - (1 / 10 ^ 13) / 4) / |Real.cos (Real.pi / 4)|)
          ((1 / 10 ^ 13 - (1 / 10 ^ 13) / 4) / Real.sin (Real.pi / 4)) := by
  have hcos : 0 < Real.cos (Real.pi / 4) := by
    rw [Real.cos_pi_div_four]
    positivity
  have hsin : 0 < Real.sin (Real.pi / 4) := by
    rw [Real.sin_pi_div_four]
    positivity
  have hsc : Real.sin (Real.pi / 4) = Real.cos (Real.pi / 4) := by
    rw [Real.sin_pi_div_four, Real.cos_pi_div_four]
  have hlt : Real.pi / 4 < Real.pi / 2 := by linarith [Real.pi_pos]
  refine ⟨⟨by norm_num, by norm_num⟩, ?_, ?_⟩
  · have hi : (realLattice2x2 (1 / 10 ^ 13)).getLatX (1 / 10 ^ 12)
        ⟨(1 / 10 ^ 13) / 4, (1 / 10 ^ 13) / 4⟩ = .ok 0 := by
      norm_num [Lattice.getLatX, realLattice2x2, abs_lt]
    have hj : (realLattice2x2 (1 / 10 ^ 13)).getLatY (1 / 10 ^ 12)
        ⟨(1 / 10 ^ 13) / 4, (1 / 10 ^ 13) / 4⟩ = .ok 0 := by
      norm_num [Lattice.getLatY, realLattice2x2, abs_lt]
    rw [minSurfaceDist_of_indices _ _ _ _ 0 0 hi hj hcos.ne' hsin, if_pos hlt, hsc,
      abs_of_pos hcos]
    norm_num [realLattice2x2]
    rw [abs_of_pos (by norm_num)]
  · rw [hsc, abs_of_pos hcos, min_self]
    intro h
    have h2 := congrArg (fun t => t * Real.cos (Real.pi / 4)) h
    simp only [] at h2
    rw [div_mul_cancel₀ _ hcos.ne', div_mul_cancel₀ _ hcos.ne'] at h2
    norm_num at h2

/-- C13, amended: `Lattice::minSurfaceDist` is exact over the reals for cells at least as
wide as the threshold.  For a lattice with positive cell widths of at least
`ON_SURFACE_THRESH`, a point strictly inside the lattice cell `(i, j)` and an angle in
`(0, pi)` other than `pi / 2`, the returned value is
`d = min(dx / |cos angle|, (top - y) / sin angle)`, where `dx` is the distance to the right
grid line of the cell when `angle < pi / 2` and to its left grid line otherwise, and the
point `point + d * (cos angle, sin angle)` lies on the boundary of the cell. -/
theorem C13_minSurfaceDist_amended (thresh : ℝ) (l : Lattice ℝ) (p : Point ℝ) (angle : ℝ)
    (i j : Int)
    (hwx : 0 < l.width_x) (hwy : 0 < l.width_y)
    (htx : thresh ≤ l.width_x) (hty : thresh ≤ l.width_y)
    (hi0 : 0 ≤ i) (hi1 : i < l.num_x) (hj0 : 0 ≤ j) (hj1 : j < l.num_y)
    (hx0 : i * l.width_x - l.width_x * l.num_x / 2 + l.offset.x < p.x)
    (hx1 : p.x < (i + 1) * l.width_x - l.width_x * l.num_x / 2 + l.offset.x)
    (hy0 : j * l.width_y - l.width_y * l.num_y / 2 + l.offset.y < p.y)
    (hy1 : p.y < (j + 1) * l.width_y - l.width_y * l.num_y / 2 + l.offset.y)
    (ha0 : 0 < angle) (ha1 : angle < Real.pi) (ha2 : angle ≠ Real.pi / 2) :
    ∃ d, l.minSurfaceDist thresh Real.pi Real.tan Real.sqrt p angle = .ok d ∧
      d = min
        ((if angle < Real.pi / 2
            then (i + 1) * l.width_x - l.width_x * l.num_x / 2 + l.offset.x - p.x
            else p.x - (i * l.width_x - l.width_x * l.num_x / 2 + l.offset.x))
          / |Real.cos angle|)
        (((j + 1) * l.width_y - l.width_y * l.num_y / 2 + l.offset.y - p.y)
          / Real.sin angle) ∧
      (i * l.width_x - l.width_x * l.num_x / 2 + l.offset.x ≤ p.x + d * Real.cos angle ∧
        p.x + d * Real.cos angle
          ≤ (i + 1) * l.width_x - l.width_x * l.num_x / 2 + l.offset.x ∧
        j * l.width_y - l.width_y * l.num_y / 2 + l.offset.y ≤ p.y + d * Real.sin angle ∧
        p.y + d * Real.sin angle
          ≤ (j + 1) * l.width_y - l.width_y * l.num_y / 2 + l.offset.y) ∧
      (p.x + d * Real.cos angle = i * l.width_x - l.width_x * l.num_x / 2 + l.offset.x ∨
        p.x + d * Real.cos angle
          = (i + 1) * l.width_x - l.width_x * l.num_x / 2 + l.offset.x ∨
        p.y + d * Real.sin angle
          = (j + 1) * l.width_y - l.width_y * l.num_y / 2 + l.offset.y) := by
  have hi := getLatX_of_cell thresh l p i hwx htx hi0 hi1 hx0 hx1
  have hj := getLatY_of_cell thresh l p j hwy hty hj0 hj1 hy0 hy1
  have hsin : 0 < Real.sin angle := Real.sin_pos_of_pos_of_lt_pi ha0 ha1
  have hy : |(j + 1) * l.width_y - l.width_y * l.num_y / 2 + l.offset.y - p.y|
      = (j + 1) * l.width_y - l.width_y * l.num_y / 2 + l.offset.y - p.y :=
    abs_of_pos (by linarith)
  rcases lt_or_gt_of_ne ha2 with hlt | hgt
  · have hcos : 0 < Real.cos angle :=
      Real.cos_pos_of_mem_Ioo ⟨by linarith, hlt⟩
    have hx : |(i + 1) * l.width_x - l.width_x * l.num_x / 2 + l.offset.x - p.x|
        = (i + 1) * l.width_x - l.width_x * l.num_x / 2 + l.offset.x - p.x :=
      abs_of_pos (by linarith)
    refine ⟨_, minSurfaceDist_of_indices thresh l p angle i j hi hj hcos.ne' hsin, ?_, ?_, ?_⟩
    · rw [if_pos hlt, if_pos hlt, hx, hy]
    · rw [if_pos hlt, hx, hy, abs_of_pos hcos]
      have m1 := min_le_left
        (((i + 1) * l.width_x - l.width_x * l.num_x / 2 + l.offset.x - p.x) / Real.cos angle)
        (((j + 1) * l.width_y - l.width_y * l.num_y / 2 + l.offset.y - p.y) / Real.sin angle)
      have m2 := min_le_right
        (((i + 1) * l.width_x - l.width_x * l.num_x / 2 + l.offset.x - p.x) / Real.cos angle)
        (((j + 1) * l.width_y - l.width_y * l.num_y / 2 + l.offset.y - p.y) / Real.sin angle)
      have m0 : 0 ≤ min
          (((i + 1) * l.width_x - l.width_x * l.num_x / 2 + l.offset.x - p.x)
            / Real.cos angle)
          (((j + 1) * l.width_y - l.width_y * l.num_y / 2 + l.offset.y - p.y)
            / Real.sin angle) :=
        le_min (div_nonneg (by linarith) hcos.le) (div_nonneg (by linarith) hsin.le)
      rw [le_div_iff₀ hcos] at m1
      rw [le_div_iff₀ hsin] at m2
      have n1 := mul_nonneg m0 hcos.le
      have n2 := mul_nonneg m0 hsin.le
      refine ⟨by linarith, by linarith, by linarith, by linarith⟩
    · rw [if_pos hlt, hx, hy, abs_of_pos hcos]
      rcases min_choice
        (((i + 1) * l.width_x - l.width_x * l.num_x / 2 + l.offset.x - p.x) / Real.cos angle)
        (((j + 1) * l.width_y - l.width_y * l.num_y / 2 + l.offset.y - p.y) / Real.sin angle)
        with hm | hm
      · right; left
        rw [hm, div_mul_cancel₀ _ hcos.ne']
        ring
      · right; right
        rw [hm, div_mul_cancel₀ _ hsin.ne']
        ring
  · have hcos : Real.cos angle < 0 :=
      Real.cos_neg_of_pi_div_two_lt_of_lt hgt (by linarith [Real.pi_pos])
    have hnlt : ¬ angle < Real.pi / 2 := not_lt.mpr hgt.le
    have hx : |i * l.width_x - l.width_x * l.num_x / 2 + l.offset.x - p.x|
        = p.x - (i * l.width_x - l.width_x * l.num_x / 2 + l.offset.x) := by
      rw [abs_of_neg (by linarith)]
      ring
    have hac : |Real.cos angle| = -Real.cos angle := abs_of_neg hcos
    have hpos : 0 < -Real.cos angle := by linarith
    refine ⟨_, minSurfaceDist_of_indices thresh l p angle i j hi hj hcos.ne hsin, ?_, ?_, ?_⟩
    · rw [if_neg hnlt, if_neg hnlt, hx, hy]
    · rw [if_neg hnlt, hx, hy, hac]
      have m1 := min_le_left
        ((p.x - (i * l.width_x - l.width_x * l.num_x / 2 + l.offset.x)) / -Real.cos angle)
        (((j + 1) * l.width_y - l.width_y * l.num_y / 2 + l.offset.y - p.y) / Real.sin angle)
      have m2 := min_le_right
        ((p.x - (i * l.width_x - l.width_x * l.num_x / 2 + l.offset.x)) / -Real.cos angle)
        (((j + 1) * l.width_y - l.width_y * l.num_y / 2 + l.offset.y - p.y) / Real.sin angle)
      have m0 : 0 ≤ min
          ((p.x - (i * l.width_x - l.width_x * l.num_x / 2 + l.offset.x))
            / -Real.cos angle)
          (((j + 1) * l.width_y - l.width_y * l.num_y / 2 + l.offset.y - p.y)
            / Real.sin angle) :=
        le_min (div_nonneg (by linarith) hpos.le) (div_nonneg (by linarith) hsin.le)
      rw [le_div_iff₀ hpos] at m1
      rw [le_div_iff₀ hsin] at m2
      have n1 := mul_nonneg m0 hpos.le
      have n2 := mul_nonneg m0 hsin.le
      refine ⟨by linarith, by linarith, by linarith, by linarith⟩
    · rw [if_neg hnlt, hx, hy, hac]
      rcases min_choice
        ((p.x - (i * l.width_x - l.width_x * l.num_x / 2 + l.offset.x)) / -Real.cos angle)
        (((j + 1) * l.width_y - l.width_y * l.num_y / 2 + l.offset.y - p.y) / Real.sin angle)
        with hm | hm
      · left
        rw [hm]
        have : (p.x - (i * l.width_x - l.width_x * l.num_x / 2 + l.offset.x))
            / -Real.cos angle * Real.cos angle
            = -(p.x - (i * l.width_x - l.width_x * l.num_x / 2 + l.offset.x)) := by
          rw [div_neg, neg_mul, div_mul_cancel₀ _ hcos.ne]
        rw [this]
        ring
      · right; right
        rw [hm, div_mul_cancel₀ _ hsin.ne']
        ring

/-- C13 (amended) at the 2 x 2 lattice of width 1 centred at the origin, the point
(1/2, 1/4) of lattice cell (1, 1) and the angle `pi / 4`: the distance is
`min((1 - 1/2) / |cos(pi / 4)|, (1 - 1/4) / sin(pi / 4))`. -/
theorem C13_minSurfaceDist_amended_witness :
    ∃ d, (realLattice2x2 1).minSurfaceDist (1 / 10 ^ 12) Real.pi Real.tan Real.sqrt
        ⟨1 / 2, 1 / 4⟩ (Real.pi / 4) = .ok d ∧
      d = min ((1 - 1 / 2) / |Real.cos (Real.pi / 4)|)
        ((1 - 1 / 4) / Real.sin (Real.pi / 4)) := by
  have hlt : Real.pi / 4 < Real.pi / 2 := by linarith [Real.pi_pos]
  obtain ⟨d, h1, h2, -, -⟩ := C13_minSurfaceDist_amended (1 / 10 ^ 12) (realLattice2x2 1)
    ⟨1 / 2, 1 / 4⟩ (Real.pi / 4) 1 1
    (by norm_num [realLattice2x2]) (by norm_num [realLattice2x2])
    (by norm_num [realLattice2x2]) (by norm_num [realLattice2x2])
    (by norm_num) (by norm_num [realLattice2x2]) (by norm_num) (by norm_num [realLattice2x2])
    (by norm_num [realLattice2x2]) (by norm_num [realLattice2x2])
    (by norm_num [realLattice2x2]) (by norm_num [realLattice2x2])
    (by linarith [Real.pi_pos]) (by linarith [Real.pi_pos]) (by linarith [Real.pi_pos])
  refine ⟨d, h1, ?_⟩
  rw [h2, if_pos hlt]
  norm_num [realLattice2x2]

/-- C14: grid declaration.  For counts `num_x, num_y ≥ 0` and an input array `ids` (row-major,
first row = top row), `setLatticeCells(num_x, num_y, ids)` on a freshly constructed lattice
succeeds and leaves a grid with exactly `num_y` rows of exactly `num_x` entries each, where
the entry at row `i` (counted from the bottom) and column `j` has the declared id
`ids[(num_y - 1 - i) * num_x + j]` and the `NULL` reference, and `getNumX`/`getNumY` return
`num_x`/`num_y`. -/
theorem C14_setLatticeCells_fresh (uid id : Int) (width_x width_y : K) (num_x num_y : Nat)
    (ids : Int → Int) :
    ∃ l, (Lattice.new uid id width_x width_y).setLatticeCells num_x num_y ids = .ok l ∧
      l.universes.length = num_y ∧
      (∀ row ∈ l.universes, row.length = num_x) ∧
      (∀ i j : Nat, i < num_y → j < num_x →
        (l.universes[i]?).bind (fun row => row[j]?)
          = some (ids (((num_y : Int) - 1 - i) * num_x + j), none)) ∧
      l.getNumX = num_x ∧ l.getNumY = num_y := by
  refine ⟨{ Lattice.new uid id width_x width_y with
      num_x := num_x,
      num_y := num_y,
      universes := (List.range num_y).map (fun (i : Nat) =>
        (List.range num_x).map (fun (j : Nat) =>
          (ids (((num_y : Int) - 1 - (i : Int)) * num_x + (j : Int)), none))) },
    ?_, ?_, ?_, ?_, rfl, rfl⟩
  · simp [Lattice.setLatticeCells, Lattice.new, List.mapM.loop, pure, Except.pure,
      Functor.map, Except.map]
    rfl
  · simp
  · intro row hrow
    simp only [List.mem_map] at hrow
    obtain ⟨i, -, rfl⟩ := hrow
    simp
  · intro i j hi hj
    simp [List.getElem?_map, List.getElem?_range hi, List.getElem?_range hj]

/-- C14 at the 2 x 2 declaration with the input array `ids[k] = k + 1`, that is the rows
(1, 2) on top and (3, 4) below: the entry at row 0 and column 0 of the grid has the
declared id 3. -/
theorem C14_setLatticeCells_fresh_witness :
    ∃ l, (Lattice.new 0 10 (1 : ℚ) 1).setLatticeCells ((2 : Nat) : Int) ((2 : Nat) : Int)
        (fun k => k + 1) = .ok l ∧
      (l.universes[0]?).bind (fun row => row[0]?) = some (3, none) := by
  obtain ⟨l, h1, -, -, h4, -, -⟩ :=
    C14_setLatticeCells_fresh 0 10 (1 : ℚ) 1 2 2 (fun k => k + 1)
  exact ⟨l, h1, by simpa using h4 0 0 (by norm_num) (by norm_num)⟩

/-- C15: binding.  For a declared lattice (a grid of `num_y` rows of `num_x` entries) and a
universe `u`, `setUniversePointer(u)` succeeds and sets the reference of every grid entry
whose declared id equals the id of `u` to `u` (all matching entries of the whole grid),
leaving every declared id and the reference of every entry with a different declared id
unchanged; a second call with the same universe leaves the lattice unchanged. -/
theorem C15_setUniversePointer (l : Lattice K) (univ : UniversePtr)
    (hrows : l.universes.length = l.num_y.toNat)
    (hcols : ∀ row ∈ l.universes, row.length = l.num_x.toNat) :
    ∃ m, l.setUniversePointer univ = .ok m ∧
      m = { l with universes := l.universes.map (fun row =>
          row.map (fun e => if e.1 = univ.id then (e.1, some univ) else e)) } ∧
      m.setUniversePointer univ = .ok m := by
  refine ⟨_, setUniversePointer_eq l univ hrows hcols, rfl, ?_⟩
  rw [setUniversePointer_eq _ univ (by simpa using hrows) (by
    intro row hrow
    simp only [List.mem_map] at hrow
    obtain ⟨r, hr, rfl⟩ := hrow
    simpa using hcols r hr)]
  simp only [List.map_map, Function.comp_def]
  congr 2
  apply List.map_congr_left
  intro row _
  apply List.map_congr_left
  intro e _
  by_cases h : e.1 = univ.id
  · simp [h]
  · simp [h]

/-- C15 at `lattice2x3` and a second universe object with id 1 (uid 9): the five entries
with the declared id 1 point to it afterwards, the entry with the declared id 2 keeps its
pointer. -/
theorem C15_setUniversePointer_witness :
    ∃ m, lattice2x3.setUniversePointer { uid := 9, id := 1 } = .ok m ∧
      m = { lattice2x3 with universes := lattice2x3.universes.map (fun row =>
          row.map (fun e => if e.1 = ({ uid := 9, id := 1 } : UniversePtr).id
            then (e.1, some { uid := 9, id := 1 }) else e)) } ∧
      m.setUniversePointer { uid := 9, id := 1 } = .ok m :=
  C15_setUniversePointer lattice2x3 { uid := 9, id := 1 }
    (by simp [lattice2x3]) (by simp [lattice2x3])

/-- C16: for a lattice declared with `setLatticeCells(num_x, num_y, ids)` and then bound with
`setUniversePointer` for (at least) every declared id, `getNestedUniverseIds` returns a list
of length `num_x * num_y` whose element at position `i * num_x + j` is the declared id of
the entry at row `i` (from the bottom) and column `j`, `ids[(num_y - 1 - i) * num_x + j]`:
the input array with the order of its rows reversed. -/
theorem C16_getNestedUniverseIds (l0 l1 : Lattice K) (num_x num_y : Nat) (ids : Int → Int)
    (ps : List UniversePtr)
    (hdecl : l0.setLatticeCells num_x num_y ids = .ok l1)
    (hcover : ∀ i j : Nat, i < num_y → j < num_x →
      ∃ p ∈ ps, p.id = ids (((num_y : Int) - 1 - i) * num_x + j)) :
    ∃ l2 out, l1.setUniversePointers ps = .ok l2 ∧ l2.getNestedUniverseIds = .ok out ∧
      out.length = num_x * num_y ∧
      ∀ i j : Nat, i < num_y → j < num_x →
        out[i * num_x + j]? = some (ids (((num_y : Int) - 1 - i) * num_x + j)) := by
  have h1 := setLatticeCells_ok l0 l1 num_x num_y ids hdecl
  simp only [Int.toNat_ofNat] at h1
  have hrows : l1.universes.length = l1.num_y.toNat := by
    rw [h1]
    simp
  have hcols : ∀ row ∈ l1.universes, row.length = l1.num_x.toNat := by
    intro row hrow
    rw [h1] at hrow ⊢
    simp only [List.mem_map] at hrow
    obtain ⟨i, -, rfl⟩ := hrow
    simp
  obtain ⟨fl, fi⟩ := flatten_grid
    (fun i j => ids (((num_y : Int) - 1 - (i : Int)) * num_x + (j : Int))) num_x num_y
  have hb : ∀ row ∈ l1.universes.map (fun row => row.map (fun e =>
      ps.foldl (fun a p => if a.1 = p.id then (a.1, some p) else a) e)),
      row.length = num_x ∧ ∀ e ∈ row, ∃ q, e.2 = some q ∧ q.id = e.1 := by
    intro row hrow
    simp only [List.mem_map] at hrow
    obtain ⟨r, hr, rfl⟩ := hrow
    refine ⟨by rw [List.length_map, hcols r hr, h1]; simp, ?_⟩
    intro e he
    simp only [List.mem_map] at he
    obtain ⟨d, hd, rfl⟩ := he
    obtain ⟨b1, b2⟩ := bindAll_covered ps d
    rw [b1]
    apply b2
    rw [h1] at hr
    simp only [List.mem_map, List.mem_range] at hr
    obtain ⟨i, hi, rfl⟩ := hr
    simp only [List.mem_map, List.mem_range] at hd
    obtain ⟨j, hj, rfl⟩ := hd
    exact hcover i j hi hj
  have e : (List.map (fun row : List (Int × Option UniversePtr) => row.map Prod.fst)
      (l1.universes.map (fun row => row.map (fun e =>
        ps.foldl (fun a p => if a.1 = p.id then (a.1, some p) else a) e)))).flatten
      = ((List.range num_y).map (fun (i : Nat) => (List.range num_x).map
          (fun (j : Nat) => ids (((num_y : Int) - 1 - (i : Int)) * num_x + (j : Int))))).flatten := by
    rw [h1]
    simp only [List.map_map, Function.comp_def]
    congr 1
    apply List.map_congr_left
    intro i _
    apply List.map_congr_left
    intro j _
    exact (bindAll_covered ps _).1
  refine ⟨_, ((List.range num_y).map (fun (i : Nat) => (List.range num_x).map
      (fun (j : Nat) => ids (((num_y : Int) - 1 - (i : Int)) * num_x + (j : Int))))).flatten,
    setUniversePointers_eq ps l1 hrows hcols, ?_, ?_, fi⟩
  · unfold Lattice.getNestedUniverseIds
    rw [← e]
    apply rowsUniverseIds_eq
    · rw [List.length_map, hrows, h1]
    · intro row hrow
      obtain ⟨c1, c2⟩ := hb row hrow
      refine ⟨?_, c2⟩
      rw [c1, h1]
      simp
  · rw [fl]
    ring

/-- C16 at the 2 x 2 declaration with the input array `ids = {1, 2, 3, 4}` (`ids[k] = k + 1`)
bound with universes of the ids 1, 2, 3 and 4: the list of nested universe ids has the
length 4 and holds the rows of the input in reversed order. -/
theorem C16_getNestedUniverseIds_witness :
    ∃ l2 out,
      declared2x2.setUniversePointers
        [{ uid := 1, id := 1 }, { uid := 2, id := 2 }, { uid := 3, id := 3 },
          { uid := 4, id := 4 }] = .ok l2 ∧
      l2.getNestedUniverseIds = .ok out ∧ out.length = 2 * 2 ∧
      ∀ i j : Nat, i < 2 → j < 2 →
        out[i * 2 + j]? = some ((fun k : Int => k + 1) ((((2 : Nat) : Int) - 1 - i)
          * ((2 : Nat) : Int) + j)) :=
  C16_getNestedUniverseIds (Lattice.new 0 10 (1 : ℚ) 1) declared2x2 2 2 (fun k => k + 1)
    [{ uid := 1, id := 1 }, { uid := 2, id := 2 }, { uid := 3, id := 3 },
      { uid := 4, id := 4 }]
    (by
      simp [Lattice.setLatticeCells, Lattice.new, List.mapM.loop, pure, Except.pure,
        Functor.map, Except.map, declared2x2, List.range_succ]
      rfl)
    (by
      intro i j hi hj
      interval_cases i <;> interval_cases j <;> simp)

/-- C17, refuted as stated: the universe `pinUniverse 1 1 7 3` holds the region
`materialEverywhere 7 3` under id 7; after `addCell(materialEverywhere 7 9)`, a region with
the same id and another material, the registry still holds the first region under id 7:
`std::map::insert` does not replace an entry. -/
theorem C17_addCell_duplicate_counterexample :
    ((pinUniverse 1 1 7 3).addCell (materialEverywhere 7 9)).getCell 7
      = .ok (materialEverywhere 7 3) ∧
    ((pinUniverse 1 1 7 3).addCell (materialEverywhere 7 9)).getCell 7
      ≠ .ok (materialEverywhere 7 9) := by
  have h : ((pinUniverse 1 1 7 3).addCell (materialEverywhere 7 9)).getCell 7
      = .ok (materialEverywhere 7 3) := by
    simp [Universe.addCell, Universe.getCell, pinUniverse, mapInsert, mapFind,
      materialEverywhere]
  refine ⟨h, ?_⟩
  rw [h]
  intro heq
  have hm : (materialEverywhere 7 3).material = (materialEverywhere 7 9).material :=
    congrArg Cell.material (Except.ok.inj heq)
  simp [materialEverywhere] at hm

/-- C17, amended: in a registry with strictly ascending keys (a `std::map`), `addCell` of a
region whose id is already a key leaves the registry as it is: the entry stored before is
kept, the new region is not stored, and the number of regions is unchanged.  For an id
that is not yet a key the region is stored under its id, every other lookup is unchanged
and the number of regions grows by exactly one.  The keys stay strictly ascending. -/
theorem C17_addCell_amended (u : Universe K) (cell : Cell K)
    (hsorted : u.cells.Pairwise (fun a b => a.1 < b.1)) :
    (∀ r1, mapFind u.cells cell.id = some r1 →
      (u.addCell cell).cells = u.cells ∧
      (u.addCell cell).getCell cell.id = .ok r1 ∧
      (u.addCell cell).getNumCells = u.getNumCells) ∧
    (mapFind u.cells cell.id = none →
      (u.addCell cell).getCell cell.id = .ok cell ∧
      (u.addCell cell).getNumCells = u.getNumCells + 1) ∧
    (∀ k, k ≠ cell.id → (u.addCell cell).getCell k = u.getCell k) ∧
    (u.addCell cell).cells.Pairwise (fun a b => a.1 < b.1) := by
  refine ⟨fun r1 h => ?_, fun h => ?_, fun k hk => ?_, ?_⟩
  · have he : (u.addCell cell).cells = u.cells :=
      mapInsert_present cell.id cell r1 u.cells hsorted h
    refine ⟨he, ?_, ?_⟩
    · unfold Universe.getCell
      rw [he, h]
    · unfold Universe.getNumCells
      rw [he]
  · obtain ⟨h1, h2⟩ := mapInsert_absent cell.id cell u.cells h
    constructor
    · unfold Universe.getCell
      simp only [Universe.addCell]
      rw [h1]
    · unfold Universe.getNumCells
      simp only [Universe.addCell]
      rw [h2]
      push_cast
      ring
  · unfold Universe.getCell
    simp only [Universe.addCell]
    rw [mapFind_mapInsert_ne cell.id k cell u.cells hk]
  · exact mapInsert_sorted cell.id cell u.cells hsorted

/-- C17 (amended) at `pinUniverse 1 1 7 3`: adding a second region with id 7 leaves the
registry unchanged, adding a region with id 9 stores it. -/
theorem C17_addCell_amended_witness :
    ((pinUniverse 1 1 7 3).addCell (materialEverywhere 7 9)).cells
      = (pinUniverse 1 1 7 3).cells ∧
    ((pinUniverse 1 1 7 3).addCell (materialEverywhere 9 9)).getCell
      (materialEverywhere 9 9).id = .ok (materialEverywhere 9 9) :=
  ⟨((C17_addCell_amended (pinUniverse 1 1 7 3) (materialEverywhere 7 9)
      (by simp [pinUniverse])).1 (materialEverywhere 7 3)
      (by simp [pinUniverse, mapFind, materialEverywhere])).1,
   ((C17_addCell_amended (pinUniverse 1 1 7 3) (materialEverywhere 9 9)
      (by simp [pinUniverse])).2.1
      (by simp [pinUniverse, mapFind, materialEverywhere])).1⟩

/-- C18: in a registry with strictly ascending keys (a `std::map`), `getCell(id)` returns
the region stored under `id` when the registry contains `id`, and it fails, with the error
of its `log_printf(ERROR, ...)`, if and only if the registry does not contain `id`.  The
method writes to no member: its embedding has the region as its only result. -/
theorem C18_getCell (u : Universe K) (cell_id : Int)
    (hsorted : u.cells.Pairwise (fun a b => a.1 < b.1)) :
    (∀ cell, (cell_id, cell) ∈ u.cells → u.getCell cell_id = .ok cell) ∧
    ((∃ e, u.getCell cell_id = .error e) ↔ cell_id ∉ u.cells.map Prod.fst) ∧
    (u.getCell cell_id = .error .cellNotFound ↔ cell_id ∉ u.cells.map Prod.fst) := by
  refine ⟨fun cell h => ?_, ?_, ?_⟩
  · unfold Universe.getCell
    rw [mapFind_of_mem u.cells cell_id cell hsorted h]
  · rw [← mapFind_eq_none_iff]
    unfold Universe.getCell
    cases mapFind u.cells cell_id <;> simp
  · rw [← mapFind_eq_none_iff]
    unfold Universe.getCell
    cases mapFind u.cells cell_id <;> simp

/-- C18 at `twoRegionUniverse`: the region with id 8 is returned, the id 9 fails. -/
theorem C18_getCell_witness :
    twoRegionUniverse.getCell 8 = .ok (materialEverywhere 8 2) ∧
    twoRegionUniverse.getCell 9 = .error .cellNotFound :=
  ⟨(C18_getCell twoRegionUniverse 8 (by simp [twoRegionUniverse])).1
      (materialEverywhere 8 2) (by simp [twoRegionUniverse]),
   (C18_getCell twoRegionUniverse 9 (by simp [twoRegionUniverse])).2.2.mpr
      (by simp [twoRegionUniverse])⟩

/-- C19: subdivision is a no-op without pending work.  For a universe in which no
Material-filled region has a positive ring count or a positive sector count (the empty
universe and a universe with only Universe-filled regions included), `subdivideCells`
ends after its first pass and leaves the universe, and with it the registry, unchanged. -/
theorem C19_subdivide_noop (subdivideCell : Cell K → List (Cell K)) (fuel : Nat)
    (u : Universe K)
    (hnone : ∀ e ∈ u.cells, e.2.type = cellType.MATERIAL →
      ¬ e.2.num_rings > 0 ∧ ¬ e.2.num_sectors > 0) :
    Universe.subdivideCells subdivideCell (fuel + 1) u = .ok u := by
  have h : Universe.firstPending u.cells = none := by
    apply firstPending_none
    intro e he hp
    obtain ⟨h1, h2⟩ := hnone e he hp.1
    rcases hp.2 with h | h
    · exact h1 h
    · exact h2 h
  unfold Universe.subdivideCells
  simp only [h]

/-- C19 at `twoRegionUniverse`, whose regions have no rings and no sectors, and at the
empty universe. -/
theorem C19_subdivide_noop_witness :
    Universe.subdivideCells sampleSubdivide 1 twoRegionUniverse = .ok twoRegionUniverse ∧
    Universe.subdivideCells sampleSubdivide 1 emptyUniverse = .ok emptyUniverse :=
  ⟨C19_subdivide_noop sampleSubdivide 0 twoRegionUniverse
      (by simp [twoRegionUniverse, materialEverywhere]),
   C19_subdivide_noop sampleSubdivide 0 emptyUniverse (by simp [emptyUniverse])⟩

/-- C20, refuted as stated.  (a) `ringedUniverse` holds the pending region `ringedCell 7` and
the region `materialEverywhere 8 2`; with a subdivision routine whose single sibling
`materialEverywhere 7 3` keeps the id 7 (an id distinct from the id 8 of the other
region), `subdivideCells` ends, but the sibling is not in the registry afterwards:
`addCell` did not store it under the key 7 still held by the original, which was erased
after that.  (b) `twoRingedUniverse` holds the pending region `ringedCell 7`, whose
siblings (ids 101 and 102) are not pending and have ids distinct from each other and from
the ids 8 and 9 of the other regions; `subdivideCells` ends, but the other region
`ringedCell 9`, itself pending, is not kept: it is subdivided in a further pass. -/
theorem C20_subdivide_expands_counterexample :
    (sameIdSubdivide (ringedCell 7) = [materialEverywhere 7 3] ∧
      ∃ u, Universe.subdivideCells sameIdSubdivide 2 ringedUniverse = .ok u ∧
        u.cells = [(8, materialEverywhere 8 2)] ∧
        u.getCell (materialEverywhere 7 3).id = .error .cellNotFound) ∧
    (pairSubdivide (ringedCell 7) = [materialEverywhere 101 3, materialEverywhere 102 3] ∧
      (9, ringedCell 9) ∈ twoRingedUniverse.cells ∧
      ∃ u, Universe.subdivideCells pairSubdivide 3 twoRingedUniverse = .ok u ∧
        u.cells = [(8, materialEverywhere 8 2), (101, materialEverywhere 101 3),
          (102, materialEverywhere 102 3), (103, materialEverywhere 103 3)] ∧
        u.getCell 9 = .error .cellNotFound) := by
  refine ⟨⟨by simp [sameIdSubdivide, ringedCell], ?_⟩,
    ⟨by simp [pairSubdivide, ringedCell], by simp [twoRingedUniverse], ?_⟩⟩
  · refine ⟨{ ringedUniverse with cells := [(8, materialEverywhere 8 2)] }, ?_, rfl, ?_⟩
    · simp [Universe.subdivideCells, Universe.firstPending, ringedUniverse, ringedCell,
        sameIdSubdivide, Universe.addCell, mapInsert, mapErase, materialEverywhere]
    · simp [Universe.getCell, mapFind, materialEverywhere]
  · refine ⟨{ twoRingedUniverse with
        cells := [(8, materialEverywhere 8 2), (101, materialEverywhere 101 3),
          (102, materialEverywhere 102 3), (103, materialEverywhere 103 3)] }, ?_, rfl, ?_⟩
    · simp [Universe.subdivideCells, Universe.firstPending, twoRingedUniverse, ringedCell,
        pairSubdivide, Universe.addCell, mapInsert, mapErase, materialEverywhere]
    · simp [Universe.getCell, mapFind, materialEverywhere]

/-- C20, amended: let the registry have strictly ascending keys, and let every
Material-filled region with pending ring/sector parameters (the region `r` of the claim
and any other) yield, from `subdivideCell`, siblings that have no pending parameters, the
ids of all these siblings being pairwise distinct and distinct from the keys of all
entries of the registry, those of the pending regions included.  Then `subdivideCells`
terminates, after one pass for each pending region and a last pass that finds none, and
afterwards the registry contains none of the original pending regions, contains every
sibling of every one of them, keeps every region that had no pending parameters
unchanged, and contains no Material-filled region with pending parameters. -/
theorem C20_subdivide_expands_amended (subdivideCell : Cell K → List (Cell K))
    (fuel : Nat) (u : Universe K)
    (hfuel : u.numPending + 1 ≤ fuel)
    (hsorted : u.cells.Pairwise (fun a b => a.1 < b.1))
    (hsib : ∀ p ∈ u.cells,
      (p.2.type = cellType.MATERIAL ∧ (p.2.num_rings > 0 ∨ p.2.num_sectors > 0)) →
      ∀ s ∈ subdivideCell p.2,
        ¬ (s.type = cellType.MATERIAL ∧ (s.num_rings > 0 ∨ s.num_sectors > 0)))
    (hdistinct : ((u.cells.filter (fun e => e.2.pending)).flatMap
      (fun p => (subdivideCell p.2).map (fun s => s.id))).Pairwise (fun a b => a ≠ b))
    (hfresh : ∀ p ∈ u.cells,
      (p.2.type = cellType.MATERIAL ∧ (p.2.num_rings > 0 ∨ p.2.num_sectors > 0)) →
      ∀ s ∈ subdivideCell p.2, s.id ∉ u.cells.map Prod.fst) :
    ∃ v, Universe.subdivideCells subdivideCell fuel u = .ok v ∧
      (∀ p ∈ u.cells,
        (p.2.type = cellType.MATERIAL ∧ (p.2.num_rings > 0 ∨ p.2.num_sectors > 0)) →
        v.getCell p.1 = .error .cellNotFound ∧
        ∀ s ∈ subdivideCell p.2, v.getCell s.id = .ok s) ∧
      (∀ e ∈ u.cells,
        ¬ (e.2.type = cellType.MATERIAL ∧ (e.2.num_rings > 0 ∨ e.2.num_sectors > 0)) →
        v.getCell e.1 = .ok e.2) ∧
      (∀ e ∈ v.cells,
        ¬ (e.2.type = cellType.MATERIAL ∧ (e.2.num_rings > 0 ∨ e.2.num_sectors > 0))) := by
  have hnp : ∀ c : Cell K, c.pending = false ↔
      ¬ (c.type = cellType.MATERIAL ∧ (c.num_rings > 0 ∨ c.num_sectors > 0)) := by
    intro c
    rw [← pending_iff]
    simp
  have hsib1 : ∀ p ∈ u.cells, p.2.pending = true →
      ∀ s ∈ subdivideCell p.2, s.pending = false :=
    fun p hp hpp s hs => (hnp s).mpr (hsib p hp ((pending_iff _).mp hpp) s hs)
  have hfresh1 : ∀ p ∈ u.cells, p.2.pending = true →
      ∀ s ∈ subdivideCell p.2, s.id ∉ u.cells.map Prod.fst :=
    fun p hp hpp => hfresh p hp ((pending_iff _).mp hpp)
  have hfilt : (u.cells.filter (fun e => e.2.pending)).Pairwise (fun a b => a.1 < b.1) :=
    hsorted.sublist (List.filter_sublist _)
  rw [List.pairwise_flatMap] at hdistinct
  obtain ⟨hd1, hd2⟩ := hdistinct
  have hdist1 : ∀ p ∈ u.cells, p.2.pending = true →
      (subdivideCell p.2).Pairwise (fun a b => a.id ≠ b.id) := by
    intro p hp hpp
    have := hd1 p (List.mem_filter.mpr ⟨hp, hpp⟩)
    rw [List.pairwise_map] at this
    exact this
  have hcross1 : ∀ p ∈ u.cells, p.2.pending = true → ∀ q ∈ u.cells, q.2.pending = true →
      p.1 ≠ q.1 → ∀ s ∈ subdivideCell p.2, ∀ t ∈ subdivideCell q.2, s.id ≠ t.id := by
    intro p hp hpp q hq hqp hne s hs t ht
    have hpf : p ∈ u.cells.filter (fun e => e.2.pending) := List.mem_filter.mpr ⟨hp, hpp⟩
    have hqf : q ∈ u.cells.filter (fun e => e.2.pending) := List.mem_filter.mpr ⟨hq, hqp⟩
    have hsym : ∀ a b : Int × Cell K,
        (∀ x ∈ (subdivideCell a.2).map (fun s => s.id),
          ∀ y ∈ (subdivideCell b.2).map (fun s => s.id), x ≠ y) →
        (∀ x ∈ (subdivideCell b.2).map (fun s => s.id),
          ∀ y ∈ (subdivideCell a.2).map (fun s => s.id), x ≠ y) :=
      fun a b h x hx y hy hxy => h y hy x hx hxy.symm
    have hpq : p ≠ q := fun h => hne (by rw [h])
    have key := List.Pairwise.forall_of_forall (l := u.cells.filter (fun e => e.2.pending))
      (R := fun a b => a = b ∨ ∀ x ∈ (subdivideCell a.2).map (fun s => s.id),
          ∀ y ∈ (subdivideCell b.2).map (fun s => s.id), x ≠ y)
      (fun a b h => by
        rcases h with h | h
        · exact Or.inl h.symm
        · exact Or.inr (hsym a b h))
      (fun a _ => Or.inl rfl)
      (hd2.imp (fun h => Or.inr h))
    rcases key hpf hqf with h | h
    · exact absurd h hpq
    · exact h s.id (List.mem_map.mpr ⟨s, hs, rfl⟩) t.id (List.mem_map.mpr ⟨t, ht, rfl⟩)
  obtain ⟨v, v1, v2, v3, v4, v5⟩ := subdivideCells_all subdivideCell u.numPending u fuel rfl
    hfuel hsorted hsib1 hdist1 hcross1 hfresh1
  refine ⟨v, v1, ?_, ?_, ?_⟩
  · intro p hp hpp
    have hpp1 := (pending_iff _).mpr hpp
    constructor
    · have hnone : mapFind v.cells p.1 = none := by
        cases hf : mapFind v.cells p.1 with
        | none => rfl
        | some c =>
          exfalso
          have hmem := mapFind_mem v.cells p.1 c hf
          rcases v3 _ hmem with ⟨h1, h2⟩ | ⟨q, hq, hqp, s, hs, hxe⟩
          · have := sorted_key_unique u.cells hsorted (p.1, c) p h1 hp rfl
            rw [← this] at hpp1
            simp only [] at h2 hpp1
            rw [h2] at hpp1
            cases hpp1
          · simp only [Prod.mk.injEq] at hxe
            apply hfresh1 q hq hqp s hs
            rw [← hxe.1]
            exact List.mem_map.mpr ⟨p, hp, rfl⟩
      unfold Universe.getCell
      simp only [hnone]
    · intro s hs
      unfold Universe.getCell
      simp only [v5 p hp hpp1 s hs]
  · intro e he hep
    unfold Universe.getCell
    simp only [v4 e he ((hnp _).mpr hep)]
  · intro e he
    rcases v3 e he with ⟨-, h2⟩ | ⟨p, hp, hpp, s, hs, hxe⟩
    · exact (hnp _).mp h2
    · rw [hxe]
      exact (hnp _).mp (hsib1 p hp hpp s hs)

/-- C20 (amended) at `twoRingedUniverse` with the routine `pairSubdivide`, in 3 passes: the
pending regions with ids 7 and 9 are replaced by the siblings with ids 101, 102 and 103,
the region with id 8 stays. -/
theorem C20_subdivide_expands_amended_witness :
    ∃ v, Universe.subdivideCells pairSubdivide 3 twoRingedUniverse = .ok v ∧
      v.getCell 7 = .error .cellNotFound ∧
      v.getCell 9 = .error .cellNotFound ∧
      v.getCell 101 = .ok (materialEverywhere 101 3) ∧
      v.getCell 102 = .ok (materialEverywhere 102 3) ∧
      v.getCell 103 = .ok (materialEverywhere 103 3) ∧
      v.getCell 8 = .ok (materialEverywhere 8 2) ∧
      (∀ e ∈ v.cells,
        ¬ (e.2.type = cellType.MATERIAL ∧ (e.2.num_rings > 0 ∨ e.2.num_sectors > 0))) := by
  obtain ⟨v, h1, h2, h3, h4⟩ :=
    C20_subdivide_expands_amended pairSubdivide 3 twoRingedUniverse
      (by simp [Universe.numPending, twoRingedUniverse, Cell.pending, ringedCell,
        materialEverywhere])
      (by simp [twoRingedUniverse])
      (by
        intro p hp hpp s hs
        simp only [twoRingedUniverse, List.mem_cons, List.mem_singleton, List.not_mem_nil,
          or_false] at hp
        rcases hp with rfl | rfl | rfl <;>
          simp [pairSubdivide, ringedCell, materialEverywhere] at hs hpp ⊢ <;>
          rcases hs with rfl | rfl <;> simp)
      (by simp [twoRingedUniverse, Cell.pending, ringedCell, materialEverywhere,
        pairSubdivide, List.filter, List.flatMap])
      (by
        intro p hp hpp s hs
        simp only [twoRingedUniverse, List.mem_cons, List.mem_singleton, List.not_mem_nil,
          or_false] at hp
        rcases hp with rfl | rfl | rfl <;>
          simp [pairSubdivide, ringedCell, materialEverywhere] at hs hpp ⊢ <;>
          rcases hs with rfl | rfl <;> simp [twoRingedUniverse])
  have h7 := h2 (7, ringedCell 7) (by simp [twoRingedUniverse]) (by simp [ringedCell])
  have h9 := h2 (9, ringedCell 9) (by simp [twoRingedUniverse]) (by simp [ringedCell])
  refine ⟨v, h1, h7.1, h9.1, ?_, ?_, ?_, ?_, h4⟩
  · exact h7.2 (materialEverywhere 101 3) (by simp [pairSubdivide, ringedCell])
  · exact h7.2 (materialEverywhere 102 3) (by simp [pairSubdivide, ringedCell])
  · exact h9.2 (materialEverywhere 103 3) (by simp [pairSubdivide, ringedCell])
  · exact h3 (8, materialEverywhere 8 2) (by simp [twoRingedUniverse])
      (by simp [materialEverywhere])

/-- C21: clone of a flat universe.  For a universe all of whose regions are Material-filled,
a region copy routine that returns a Material-filled region with the same material, and
copies with pairwise distinct ids, `clone()` succeeds and advances both static counters by
one.  It returns a new SIMPLE universe with the freshly generated id and the sequence
number taken from `_n`, whose registry holds exactly the copies of the regions of the
cloned universe, each under the id of the copy (so none of the original regions unless a
copy is equal to its original, and no entry under an id of the cloned universe when the
ids of the copies differ from these).  Hence it has the same number of regions, and its
list of material ids (`getMaterialIds`) is a permutation of that of the cloned universe.
The cloned universe is only read: its registry is unchanged. -/
theorem C21_clone_flat (cloneCell : Cell K → Cell K) (n auto_id : Int) (u : Universe K)
    (hflat : ∀ e ∈ u.cells, e.2.type = cellType.MATERIAL)
    (hcopy : ∀ e ∈ u.cells, (cloneCell e.2).type = cellType.MATERIAL ∧
      (cloneCell e.2).material = e.2.material)
    (hids : (u.cells.map (fun e => (cloneCell e.2).id)).Pairwise (fun a b => a ≠ b)) :
    ∃ c, u.clone cloneCell n auto_id = .ok (c, int32 (n + 1), int32 (auto_id + 1)) ∧
      c.uid = n ∧ c.id = auto_id ∧ c.type = universeType.SIMPLE ∧ c.fissionable = false ∧
      c.cells.Pairwise (fun a b => a.1 < b.1) ∧
      c.cells.Perm (u.cells.map (fun e => ((cloneCell e.2).id, cloneCell e.2))) ∧
      (∀ e ∈ u.cells, c.getCell (cloneCell e.2).id = .ok (cloneCell e.2)) ∧
      ((∀ e ∈ u.cells, ∀ e' ∈ u.cells, (cloneCell e.2).id ≠ e'.1) →
        ∀ e' ∈ u.cells, c.getCell e'.1 = .error .cellNotFound) ∧
      c.getNumCells = u.getNumCells ∧
      c.getMaterialIds.Perm u.getMaterialIds := by
  have hfold := cloneCells_eq_fold cloneCell u.cells
    (Universe.new n (universe_id auto_id).1) hflat
  obtain ⟨c, h1, h2, -, -⟩ := cloneCells_perm cloneCell u.cells
    (Universe.new n (universe_id auto_id).1) hflat hids
    (fun e _ => by simp [Universe.new, mapFind])
  have hc : c = (u.cells.map (fun e => cloneCell e.2)).foldl (fun w cell => w.addCell cell)
      (Universe.new n (universe_id auto_id).1) := by
    rw [hfold] at h1
    cases h1
    rfl
  obtain ⟨g1, g2, g3, g4⟩ := addCells_frame (u.cells.map (fun e => cloneCell e.2))
    (Universe.new n (universe_id auto_id).1)
  obtain ⟨f1, f2, f3, f4⟩ := addCells_fold (u.cells.map (fun e => cloneCell e.2))
    (Universe.new n (universe_id auto_id).1) (by simp [Universe.new])
    (by
      rw [List.pairwise_map] at hids ⊢
      exact hids)
    (fun s _ => by simp [Universe.new, mapFind])
  rw [← hc] at g1 g2 g3 g4 f1 f2 f3 f4
  have hperm : c.cells.Perm (u.cells.map (fun e => ((cloneCell e.2).id, cloneCell e.2))) := by
    simpa [Universe.new] using h2
  refine ⟨c, ?_, g1, g2, g3, g4, f1, hperm, ?_, ?_, ?_, ?_⟩
  · unfold Universe.clone
    simp only [h1]
    rfl
  · intro e he
    unfold Universe.getCell
    simp only [f2 (cloneCell e.2) (List.mem_map.mpr ⟨e, he, rfl⟩)]
  · intro hfresh e' he'
    unfold Universe.getCell
    have hnone : mapFind c.cells e'.1 = none := by
      rw [mapFind_eq_none_iff]
      intro hmem
      obtain ⟨x, hx, hxe⟩ := List.mem_map.mp hmem
      obtain ⟨e, he, hxeq⟩ := List.mem_map.mp (hperm.subset hx)
      rw [← hxeq] at hxe
      exact hfresh e he e' he' hxe
    simp only [hnone]
  · unfold Universe.getNumCells
    rw [hperm.length_eq]
    simp
  · unfold Universe.getMaterialIds
    refine (hperm.filterMap _).trans ?_
    simp only [List.filterMap_map]
    apply List.Perm.of_eq
    apply List.filterMap_congr
    intro e he
    simp only [Function.comp]
    rw [(hcopy e he).1, (hcopy e he).2, hflat e he]

/-- C21 at `twoRegionUniverse` (regions with ids 7 and 8, materials 3 and 2) with the copy
routine `sampleClone` and the counters `_n = 13`, `auto_id = 10000`: the clone has the
sequence number 13 and the id 10000, its registry holds the two copies under the ids 107
and 108 and nothing under the ids 7 and 8, and the counters are 14 and 10001 afterwards. -/
theorem C21_clone_flat_witness :
    ∃ c, twoRegionUniverse.clone sampleClone 13 10000 = .ok (c, 14, 10001) ∧
      c.uid = 13 ∧ c.id = 10000 ∧
      c.cells.Perm [(107, sampleClone (materialEverywhere 7 3)),
        (108, sampleClone (materialEverywhere 8 2))] ∧
      c.getCell 7 = .error .cellNotFound ∧
      c.getNumCells = 2 ∧
      c.getMaterialIds.Perm [3, 2] := by
  obtain ⟨c, h1, h2, h3, -, -, -, h7, -, h9, h10, h11⟩ :=
    C21_clone_flat sampleClone 13 10000 twoRegionUniverse
      (by simp [twoRegionUniverse, materialEverywhere])
      (by simp [twoRegionUniverse, materialEverywhere, sampleClone])
      (by simp [twoRegionUniverse, materialEverywhere, sampleClone])
  refine ⟨c, ?_, h2, h3, ?_, ?_, ?_, ?_⟩
  · rw [h1]
    norm_num [int32]
  · simpa [twoRegionUniverse, sampleClone, materialEverywhere] using h7
  · exact h9 (by simp [twoRegionUniverse, sampleClone, materialEverywhere])
      (7, materialEverywhere 7 3) (by simp [twoRegionUniverse])
  · simpa [twoRegionUniverse, Universe.getNumCells] using h10
  · simpa [twoRegionUniverse, Universe.getMaterialIds, materialEverywhere] using h11

/-- C22: for a universe that contains at least one Universe-filled (FILL) region, `clone()`
fails with the error of its `log_printf(ERROR, ...)` and returns no clone. -/
theorem C22_clone_fill_fails (cloneCell : Cell K → Cell K) (n auto_id : Int)
    (u : Universe K) (hfill : ∃ e ∈ u.cells, e.2.type = cellType.FILL) :
    u.clone cloneCell n auto_id = .error .cloneFillCell := by
  unfold Universe.clone
  simp only [cloneCells_fill cloneCell u.cells _ hfill]

/-- C22 at `overlapUniverse`, which has a Material-filled region besides its Universe-filled
region. -/
theorem C22_clone_fill_fails_witness :
    overlapUniverse.clone sampleClone 13 10000 = .error .cloneFillCell :=
  C22_clone_fill_fails sampleClone 13 10000 overlapUniverse
    ⟨(5, fillEverywhere 20), by simp [overlapUniverse], rfl⟩

/-- C23: auto-generated ids.  As long as the ids stay below the 32-bit overflow, the calls
of `universe_id()` in a process return 10000, 10001, ...: the `k`-th call returns
`10000 + (k - 1)`; hence the ids are all at least 10000 and strictly increasing in the
order of the calls, and in particular pairwise distinct. -/
theorem C23_universe_id (k : Nat) (hk : 10000 + (k : Int) - 1 ≤ 2147483647) :
    (universe_id_calls k auto_id_init).1
      = (List.range k).map (fun (i : Nat) => 10000 + (i : Int)) ∧
    (∀ i : Nat, i < k → (universe_id_calls k auto_id_init).1[i]? = some (10000 + (i : Int))) ∧
    (∀ id ∈ (universe_id_calls k auto_id_init).1, 10000 ≤ id) ∧
    (universe_id_calls k auto_id_init).1.Pairwise (fun a b => a < b) ∧
    (universe_id_calls k auto_id_init).1.Nodup := by
  have h := universe_id_calls_eq k auto_id_init (by simp [auto_id_init])
    (by simpa [auto_id_init] using hk)
  simp only [auto_id_init] at h ⊢
  rw [h]
  have hp : ((List.range k).map (fun (i : Nat) => (10000 : Int) + (i : Int))).Pairwise
      (fun a b => a < b) := by
    rw [List.pairwise_map]
    exact (List.pairwise_lt_range k).imp (fun hab => by omega)
  refine ⟨rfl, ?_, ?_, hp, hp.imp (fun hab => ne_of_lt hab)⟩
  · intro i hi
    simp [List.getElem?_map, List.getElem?_range hi]
  · intro id hid
    simp only [List.mem_map, List.mem_range] at hid
    obtain ⟨i, -, rfl⟩ := hid
    omega

/-- C23 at the spec's example: three calls return 10000, 10001 and 10002. -/
theorem C23_universe_id_witness :
    (universe_id_calls 3 auto_id_init).1
      = (List.range 3).map (fun (i : Nat) => 10000 + (i : Int)) ∧
    (universe_id_calls 3 auto_id_init).1.Pairwise (fun a b => a < b) :=
  ⟨(C23_universe_id 3 (by norm_num)).1, (C23_universe_id 3 (by norm_num)).2.2.2.1⟩

/-- C24, the code at the failing input.  In `halfPlaneLattice` (one cell of width 2 centred
at the origin, bound to `halfPlaneUniverse`, whose single region is the half plane
`0 ≤ x`) the query point (1/2, 0) has the grid indices (0, 0) and the local point
(1/2, 0).  On a cursor with no next link `Lattice::findCell` creates the next link at
(1/2, 0) and returns the region `rightHalfPlane`.  On a cursor whose next link was left at
(-5, 0) by an earlier query, the same call leaves the next link at (-5, 0) and returns
`NULL`: the reused link does not get the local point of the current query, and the result
depends on what the link held before. -/
theorem C24_cursor_reuse_stale_link :
    halfPlaneLattice.getLatX thresh12 ⟨1 / 2, 0⟩ = .ok 0 ∧
    halfPlaneLattice.getLatY thresh12 ⟨1 / 2, 0⟩ = .ok 0 ∧
    halfPlaneLattice.nextX ⟨1 / 2, 0⟩ 0 = 1 / 2 ∧
    halfPlaneLattice.nextY ⟨1 / 2, 0⟩ 0 = 0 ∧
    Lattice.findCell thresh12 halfPlaneTable 1 halfPlaneLattice
        (LocalCoords.new (1 / 2) 0) [LocalCoords.new (-5) 0]
      = .ok (none,
          [{ LocalCoords.new (1 / 2) 0 with
               type := some coordType.LAT, lattice := some 13,
               lattice_x := some 0, lattice_y := some 0 },
           { LocalCoords.new (-5) 0 with
               universe_id := some 20, type := some coordType.UNIV }]) ∧
    Lattice.findCell thresh12 halfPlaneTable 1 halfPlaneLattice
        (LocalCoords.new (1 / 2) 0) []
      = .ok (some rightHalfPlane,
          [{ LocalCoords.new (1 / 2) 0 with
               type := some coordType.LAT, lattice := some 13,
               lattice_x := some 0, lattice_y := some 0 },
           { LocalCoords.new (1 / 2) 0 with
               universe_id := some 20, type := some coordType.UNIV, cell := some 6 }]) := by
  refine ⟨?_, ?_, ?_, ?_, ?_, ?_⟩
  · norm_num [Lattice.getLatX, halfPlaneLattice, thresh12, abs_lt]
  · norm_num [Lattice.getLatY, halfPlaneLattice, thresh12, abs_lt]
  · norm_num [Lattice.nextX, halfPlaneLattice]
  · norm_num [Lattice.nextY, halfPlaneLattice]
  · norm_num [Lattice.findCell, Universe.findCell, Lattice.getLatX, Lattice.getLatY,
      halfPlaneLattice, halfPlaneTable, halfPlaneUniverse, rightHalfPlane, thresh12, abs_lt,
      LocalCoords.new, Lattice.getUniverse, vectorAt, nextCoords, Universe.firstContaining,
      Except.map, bind, Except.bind, pure, Except.pure]
  · norm_num [Lattice.findCell, Universe.findCell, Lattice.getLatX, Lattice.getLatY,
      halfPlaneLattice, halfPlaneTable, halfPlaneUniverse, rightHalfPlane, thresh12, abs_lt,
      LocalCoords.new, Lattice.getUniverse, vectorAt, nextCoords, Universe.firstContaining,
      Except.map, bind, Except.bind, pure, Except.pure]

/-- C25: re-declaration after a first declaration with more columns than rows.  On a
freshly constructed lattice `setLatticeCells(nx1, ny1, ids1)` with `ny1 < nx1` succeeds;
every further call `setLatticeCells(nx2, ny2, ids2)` on the resulting lattice then fails
with `std::out_of_range`: the clearing loop runs its row index up to the column count
`nx1` although the grid has only `ny1` rows. -/
theorem C25_redeclare_out_of_range (uid id : Int) (width_x width_y : K) (nx1 ny1 : Nat)
    (ids1 ids2 : Int → Int) (nx2 ny2 : Int) (h : ny1 < nx1) :
    ∃ l1, (Lattice.new uid id width_x width_y).setLatticeCells nx1 ny1 ids1 = .ok l1 ∧
      l1.getNumX = nx1 ∧ l1.getNumY = ny1 ∧ l1.universes.length = ny1 ∧
      l1.setLatticeCells nx2 ny2 ids2 = .error .outOfRange := by
  refine ⟨{ Lattice.new uid id width_x width_y with
      num_x := nx1,
      num_y := ny1,
      universes := (List.range ny1).map (fun (i : Nat) =>
        (List.range nx1).map (fun (j : Nat) =>
          (ids1 (((ny1 : Int) - 1 - (i : Int)) * nx1 + (j : Int)), none))) },
    ?_, rfl, rfl, by simp, ?_⟩
  · simp [Lattice.setLatticeCells, Lattice.new, List.mapM.loop, pure, Except.pure,
      Functor.map, Except.map]
    rfl
  · unfold Lattice.setLatticeCells
    simp only [Int.toNat_ofNat]
    rw [mapM_vectorAt_error _ _ ⟨ny1, List.mem_range.mpr h, by simp⟩]
    rfl

/-- C25 at the failing input: `setLatticeCells(2, 1, {1, 2})` on the fresh lattice
`Lattice.new 0 10 1 1` leaves `declared2x1`, and `setLatticeCells(1, 1, {1})` on
`declared2x1` fails with `std::out_of_range`. -/
theorem C25_redeclare_out_of_range_witness :
    (Lattice.new 0 10 (1 : ℚ) 1).setLatticeCells ((2 : Nat) : Int) ((1 : Nat) : Int)
        (fun k => k + 1) = .ok declared2x1 ∧
    declared2x1.setLatticeCells 1 1 (fun _ => 1) = .error .outOfRange := by
  obtain ⟨l1, h1, -, -, -, h5⟩ :=
    C25_redeclare_out_of_range 0 10 (1 : ℚ) 1 2 1 (fun k => k + 1) (fun _ => 1) 1 1
      (by norm_num)
  have hl : l1 = declared2x1 := by
    rw [setLatticeCells_ok _ _ _ _ _ h1]
    simp [Lattice.new, declared2x1, List.range_succ]
  rw [hl] at h1 h5
  exact ⟨h1, h5⟩

/-- C26, refuted as stated, in `double` arithmetic.  `tenthLattice` is the 2 x 2 lattice of
cell width 0.1 (as `double`) centred at (0.5, 0.5); its centre (0.5, 0.5) is strictly inside
the bounds and lies on both internal grid lines.  `getLatticeCell` returns the cell 0, the
cell whose upper boundaries the point touches (the quotient of the distance
0.09999999999999998 by the width is rounded to 0.9999999999999998), and the right edge of
cell 0 is computed as 0.5: `x < right` fails. -/
theorem C26_index_geometry_counterexample :
    thresh64 ≤ tenthLattice.width_x ∧ thresh64 ≤ tenthLattice.width_y ∧
    1 ≤ tenthLattice.num_x ∧ 1 ≤ tenthLattice.num_y ∧
    tenthLattice.offset.x - tenthLattice.num_x * tenthLattice.width_x / 2 < (1 / 2 : ℚ) ∧
    (1 / 2 : ℚ) < tenthLattice.offset.x + tenthLattice.num_x * tenthLattice.width_x / 2 ∧
    tenthLattice.offset.y - tenthLattice.num_y * tenthLattice.width_y / 2 < (1 / 2 : ℚ) ∧
    (1 / 2 : ℚ) < tenthLattice.offset.y + tenthLattice.num_y * tenthLattice.width_y / 2 ∧
    (1 / 2 : ℚ) = 1 * tenthLattice.width_x - tenthLattice.width_x * tenthLattice.num_x / 2
      + tenthLattice.offset.x ∧
    tenthLattice.getLatticeCell_fl round64 thresh64 ⟨1 / 2, 1 / 2⟩ = .ok 0 ∧
    tenthLattice.cellRight_fl round64 0 = 1 / 2 ∧
    ¬ ((1 / 2 : ℚ) < tenthLattice.cellRight_fl round64 0) := by
  have hc : tenthLattice.cellRight_fl round64 0 = 1 / 2 := by
    norm_num [Lattice.cellRight_fl, tenthLattice]
  refine ⟨?_, ?_, ?_, ?_, ?_, ?_, ?_, ?_, ?_, ?_, hc, ?_⟩
  · norm_num [tenthLattice, thresh64]
  · norm_num [tenthLattice, thresh64]
  · norm_num [tenthLattice]
  · norm_num [tenthLattice]
  · norm_num [tenthLattice]
  · norm_num [tenthLattice]
  · norm_num [tenthLattice]
  · norm_num [tenthLattice]
  · norm_num [tenthLattice]
  · norm_num [Lattice.getLatticeCell_fl, Lattice.getLatX_fl, Lattice.getLatY_fl, tenthLattice,
      thresh64, abs_lt, bind, Except.bind, pure, Except.pure]
  · rw [hc]
    norm_num

/-- C26, amended: let every arithmetic operation of `double` have a relative rounding error
of at most `u` (`u = 2^(-53)` for IEEE binary64 away from overflow and underflow; `u = 0`
is exact arithmetic), and let `r` be the rounding bound `8 * u * (count * width +
|coordinate| + |offset| + ON_SURFACE_THRESH)` of an axis.  For a lattice with widths of at
least `ON_SURFACE_THRESH` and counts `≥ 1` and a point inside the lattice bounds, on both
axes, by more than `r`, `getLatticeCell` returns an index `c` in
`[0, num_x * num_y - 1]` with `c % num_x = getLatX(point)` and
`c / num_x = getLatY(point)`, and the point lies in the box of cell `c`, as computed by the
formulas of `getLatticeSurface`, widened by `2 * r`: `left - 2 * r ≤ x < right + 2 * r`
and `bottom - 2 * r ≤ y < top + 2 * r`.  A point exactly on an internal grid line belongs,
when `r` is less than the cell width, to one of the two cells that share the line. -/
theorem C26_index_geometry_amended (fl : K → K) (u thresh : K) (l : Lattice K) (p : Point K)
    (hu0 : 0 ≤ u) (hu : u ≤ 1 / 16) (hfl : ∀ a, |fl a - a| ≤ u * |a|) (ht : 0 < thresh)
    (hwx : thresh ≤ l.width_x) (hwy : thresh ≤ l.width_y)
    (hnx : 1 ≤ l.num_x) (hny : 1 ≤ l.num_y)
    (hx1 : l.offset.x - l.num_x * l.width_x / 2
      + roundoff u l.width_x l.num_x p.x l.offset.x thresh < p.x)
    (hx2 : p.x < l.offset.x + l.num_x * l.width_x / 2
      - roundoff u l.width_x l.num_x p.x l.offset.x thresh)
    (hy1 : l.offset.y - l.num_y * l.width_y / 2
      + roundoff u l.width_y l.num_y p.y l.offset.y thresh < p.y)
    (hy2 : p.y < l.offset.y + l.num_y * l.width_y / 2
      - roundoff u l.width_y l.num_y p.y l.offset.y thresh) :
    ∃ c, l.getLatticeCell_fl fl thresh p = .ok c ∧
      0 ≤ c ∧ c ≤ l.num_x * l.num_y - 1 ∧
      l.getLatX_fl fl thresh p = .ok (Int.tmod c l.num_x) ∧
      l.getLatY_fl fl thresh p = .ok (Int.tdiv c l.num_x) ∧
      l.cellLeft_fl fl c - 2 * roundoff u l.width_x l.num_x p.x l.offset.x thresh ≤ p.x ∧
      p.x < l.cellRight_fl fl c + 2 * roundoff u l.width_x l.num_x p.x l.offset.x thresh ∧
      l.cellBottom_fl fl c - 2 * roundoff u l.width_y l.num_y p.y l.offset.y thresh ≤ p.y ∧
      p.y < l.cellTop_fl fl c + 2 * roundoff u l.width_y l.num_y p.y l.offset.y thresh ∧
      (∀ k : Int, p.x = k * l.width_x - l.width_x * l.num_x / 2 + l.offset.x →
        roundoff u l.width_x l.num_x p.x l.offset.x thresh < l.width_x →
        Int.tmod c l.num_x = k ∨ Int.tmod c l.num_x = k - 1) ∧
      (∀ k : Int, p.y = k * l.width_y - l.width_y * l.num_y / 2 + l.offset.y →
        roundoff u l.width_y l.num_y p.y l.offset.y thresh < l.width_y →
        Int.tdiv c l.num_x = k ∨ Int.tdiv c l.num_x = k - 1) := by
  have hwx0 : 0 < l.width_x := lt_of_lt_of_le ht hwx
  have hwy0 : 0 < l.width_y := lt_of_lt_of_le ht hwy
  have hNx : (0 : K) ≤ l.num_x := by exact_mod_cast (by omega : (0 : Int) ≤ l.num_x)
  have hNy : (0 : K) ≤ l.num_y := by exact_mod_cast (by omega : (0 : Int) ≤ l.num_y)
  have pWx : 0 ≤ u * ((l.num_x : K) * l.width_x) := mul_nonneg hu0 (mul_nonneg hNx hwx0.le)
  have pWy : 0 ≤ u * ((l.num_y : K) * l.width_y) := mul_nonneg hu0 (mul_nonneg hNy hwy0.le)
  have pX : 0 ≤ u * |p.x| := mul_nonneg hu0 (abs_nonneg _)
  have pY : 0 ≤ u * |p.y| := mul_nonneg hu0 (abs_nonneg _)
  have pOx : 0 ≤ u * |l.offset.x| := mul_nonneg hu0 (abs_nonneg _)
  have pOy : 0 ≤ u * |l.offset.y| := mul_nonneg hu0 (abs_nonneg _)
  have pT : 0 ≤ u * thresh := mul_nonneg hu0 ht.le
  obtain ⟨i, hi, hi0, hi1⟩ := getLatX_fl_inside fl u thresh l p hu0 hu hfl ht.le hwx0 hnx
    hx1 hx2
  obtain ⟨j, hj, hj0, hj1⟩ := getLatX_fl_inside fl u thresh
    { l with width_x := l.width_y, num_x := l.num_y,
             offset := { x := l.offset.y, y := l.offset.x } }
    { x := p.y, y := p.x } hu0 hu hfl ht.le hwy0 hny hy1 hy2
  have hbx := getLatX_fl_box fl u thresh l p hu0 hu hfl ht.le hwx0 hwx hnx hx1 hx2 i hi
  have hby := getLatX_fl_box fl u thresh
    { l with width_x := l.width_y, num_x := l.num_y,
             offset := { x := l.offset.y, y := l.offset.x } }
    { x := p.y, y := p.x } hu0 hu hfl ht.le hwy0 hwy hny hy1 hy2 j hj
  simp only [] at hby hj0 hj1
  rw [← getLatY_fl_swap] at hj
  obtain ⟨hmod, hdiv⟩ := tmod_tdiv_of_cell (n := l.num_x) hi0 (by omega) hj0
  have eL := cellEdge_fl_error fl u l.width_x l.offset.x l.num_x i hu0 hu hfl hwx0.le hi0
    (by omega)
  have eR := cellEdge_fl_error fl u l.width_x l.offset.x l.num_x (i + 1) hu0 hu hfl hwx0.le
    (by omega) (by omega)
  have eB := cellEdge_fl_error fl u l.width_y l.offset.y l.num_y j hu0 hu hfl hwy0.le hj0
    (by omega)
  have eT := cellEdge_fl_error fl u l.width_y l.offset.y l.num_y (j + 1) hu0 hu hfl hwy0.le
    (by omega) (by omega)
  have eL' := abs_le.mp eL
  have eR' := abs_le.mp eR
  have eB' := abs_le.mp eB
  have eT' := abs_le.mp eT
  push_cast at eR' eT'
  unfold roundoff at hbx hby ⊢
  refine ⟨j * l.num_x + i, ?_, ?_, ?_, ?_, ?_, ?_, ?_, ?_, ?_, ?_, ?_⟩
  · unfold Lattice.getLatticeCell_fl
    rw [hj, hi]
    rfl
  · exact add_nonneg (mul_nonneg hj0 (by omega)) hi0
  · have : j * l.num_x ≤ (l.num_y - 1) * l.num_x :=
      mul_le_mul_of_nonneg_right (by omega) (by omega)
    linarith
  · rw [hmod, hi]
  · rw [hdiv, hj]
  · unfold Lattice.cellLeft_fl
    simp only [hmod]
    linarith only [eL'.2, hbx.1, pWx, pX, pOx, pT]
  · unfold Lattice.cellRight_fl
    simp only [hmod]
    push_cast
    linarith only [eR'.1, hbx.2, pWx, pX, pOx, pT]
  · unfold Lattice.cellBottom_fl
    simp only [hdiv]
    linarith only [eB'.2, hby.1, pWy, pY, pOy, pT]
  · unfold Lattice.cellTop_fl
    simp only [hdiv]
    push_cast
    linarith only [eT'.1, hby.2, pWy, pY, pOy, pT]
  · intro k hk hr
    rw [hmod]
    exact grid_line_near hwx0 hr (by linarith only [hbx.1, hk]) (by linarith only [hbx.2, hk])
  · intro k hk hr
    rw [hdiv]
    exact grid_line_near hwy0 hr (by linarith only [hby.1, hk]) (by linarith only [hby.2, hk])

/-- C26 (amended) in `double` arithmetic (`round64`, unit roundoff `2^(-53)`) at
`tenthLattice` and its centre (0.5, 0.5), which lies on the internal grid line between the
columns 0 and 1: the column of the returned cell is 1 or 0. -/
theorem C26_index_geometry_amended_witness :
    ∃ c, tenthLattice.getLatticeCell_fl round64 thresh64 ⟨1 / 2, 1 / 2⟩ = .ok c ∧
      0 ≤ c ∧ c ≤ tenthLattice.num_x * tenthLattice.num_y - 1 ∧
      tenthLattice.getLatX_fl round64 thresh64 ⟨1 / 2, 1 / 2⟩
        = .ok (Int.tmod c tenthLattice.num_x) ∧
      (Int.tmod c tenthLattice.num_x = 1 ∨ Int.tmod c tenthLattice.num_x = 1 - 1) := by
  obtain ⟨c, h1, h2, h3, h4, -, -, -, -, -, h10, -⟩ :=
    C26_index_geometry_amended round64 unit64 thresh64 tenthLattice ⟨1 / 2, 1 / 2⟩
      (by norm_num [unit64]) (by norm_num [unit64]) round64_error (by norm_num [thresh64])
      (by norm_num [tenthLattice, thresh64]) (by norm_num [tenthLattice, thresh64])
      (by norm_num [tenthLattice]) (by norm_num [tenthLattice])
      (by norm_num [tenthLattice, roundoff, unit64, thresh64, abs_of_pos])
      (by norm_num [tenthLattice, roundoff, unit64, thresh64, abs_of_pos])
      (by norm_num [tenthLattice, roundoff, unit64, thresh64, abs_of_pos])
      (by norm_num [tenthLattice, roundoff, unit64, thresh64, abs_of_pos])
  exact ⟨c, h1, h2, h3, h4, h10 1 (by norm_num [tenthLattice])
    (by norm_num [tenthLattice, roundoff, unit64, thresh64, abs_of_pos])⟩

/-- C27: no backtracking.  In `Universe::findCell`, when the first region in ascending id
order whose containment test accepts the point is Universe-filled (its filling universe
being in the table, a plain one with the tag SIMPLE), the result is exactly the result of
the filling universe's `findCell` on the next link, with the link of this level put in
front of the chain.  In particular, when that nested search returns `NULL`,
`Universe::findCell` returns `NULL`, whatever the later regions of this universe are. -/
theorem C27_no_backtracking (thresh : K) (universes : Int → Option (UniverseObj K))
    (fuel : Nat) (u : Universe K) (coords : LocalCoords K) (next : List (LocalCoords K))
    (k : Int) (cell : Cell K) (univ : UniverseObj K)
    (hs : u.cells.Pairwise (fun a b => a.1 < b.1)) (hm : (k, cell) ∈ u.cells)
    (hc : cell.cellContainsCoords coords.point = true)
    (hl : ∀ e ∈ u.cells, e.1 < k → e.2.cellContainsCoords coords.point = false)
    (hf : cell.type = cellType.FILL) (hu : universes cell.universe_fill = some univ)
    (ht : ∀ v, univ = UniverseObj.base v → v.type = universeType.SIMPLE) :
    Universe.findCell thresh universes (fuel + 1) u coords next
      = (UniverseObj.findCell thresh universes fuel univ
          { nextCoords next coords.point.x coords.point.y with
            universe_id := some cell.universe_fill } next.tail).map
          (fun r => (r.1,
            { coords with type := some coordType.UNIV, cell := some cell.id } :: r.2)) ∧
    (∀ ch, UniverseObj.findCell thresh universes fuel univ
          { nextCoords next coords.point.x coords.point.y with
            universe_id := some cell.universe_fill } next.tail = .ok (none, ch) →
      Universe.findCell thresh universes (fuel + 1) u coords next
        = .ok (none,
            { coords with type := some coordType.UNIV, cell := some cell.id } :: ch)) := by
  have heq := Universe.findCell_fill thresh universes fuel u coords next cell univ
    (firstContaining_least hs hm hc hl) hf hu ht
  refine ⟨heq, ?_⟩
  intro ch h
  rw [heq, h]
  rfl

/-- C27 at `overlapUniverse` and the point (-1, 0): the first accepting region is the
Universe-filled one (id 5), the search of its filling universe `halfPlaneUniverse` returns
`NULL`, and so does `Universe::findCell`, although the later Material-filled region (id 9)
contains the point. -/
theorem C27_no_backtracking_witness :
    Universe.findCell thresh12 halfPlaneTable (0 + 1) overlapUniverse
        (LocalCoords.new (-1) 0) []
      = .ok (none,
          [{ LocalCoords.new (-1) 0 with type := some coordType.UNIV, cell := some 5 },
           { LocalCoords.new (-1) 0 with
               universe_id := some 20, type := some coordType.UNIV }]) ∧
    (materialEverywhere 9 3).cellContainsCoords (LocalCoords.new (-1 : ℚ) 0).point = true :=
  ⟨(C27_no_backtracking thresh12 halfPlaneTable 0 overlapUniverse (LocalCoords.new (-1) 0)
      [] 5 (fillEverywhere 20) (UniverseObj.base halfPlaneUniverse)
      (by simp [overlapUniverse])
      (by simp [overlapUniverse])
      (by simp [fillEverywhere])
      (by
        intro e he hlt
        simp only [overlapUniverse, List.mem_cons, List.mem_singleton, List.not_mem_nil,
          or_false] at he
        rcases he with rfl | rfl
        · simp at hlt
        · simp at hlt)
      rfl
      (by simp [halfPlaneTable, fillEverywhere])
      (by
        intro v hv
        cases hv
        rfl)).2
      [{ LocalCoords.new (-1) 0 with universe_id := some 20, type := some coordType.UNIV }]
      (by
        norm_num [UniverseObj.findCell, Universe.findCell, halfPlaneUniverse, rightHalfPlane,
          LocalCoords.new, nextCoords, Universe.firstContaining, fillEverywhere]),
   by simp [materialEverywhere]⟩

end Claims

end OpenMOC
